import Mathlib

/-!
Verification development for the clover-mark-plugin caption core: the
WebVTT caption segmenter and codec (`src/webvtt.ts`) and the progressive
speech-to-text streaming engine (`src/stt-streaming.ts`).

Strings are modelled as `List Char`.  JavaScript numbers are modelled as
exact rationals (`ℚ`); because the core rational arithmetic operations of
the library are irreducible for kernel reduction, the embedding uses
kernel-computable wrappers (`qAdd`, `qSub`, `qMul`, `qDiv`, `mkQ`) defined
through `Rat.divInt`, together with rewriting lemmas identifying them with
the ordinary field operations of `ℚ`.
-/

/-- Exact rational written as a quotient of integers; decimal constants of
the source such as `1.35` are rendered as `mkQ 135 100`. -/
def mkQ (n d : Int) : ℚ := Rat.divInt n d

/-- Kernel-computable addition on `ℚ` (JavaScript `+`). -/
def qAdd (a b : ℚ) : ℚ := Rat.divInt (a.num * b.den + b.num * a.den) ((a.den : Int) * b.den)

/-- Kernel-computable subtraction on `ℚ` (JavaScript `-`). -/
def qSub (a b : ℚ) : ℚ := Rat.divInt (a.num * b.den - b.num * a.den) ((a.den : Int) * b.den)

/-- Kernel-computable multiplication on `ℚ` (JavaScript `*`). -/
def qMul (a b : ℚ) : ℚ := Rat.divInt (a.num * b.num) ((a.den : Int) * b.den)

/-- Kernel-computable division on `ℚ` (JavaScript `/`; division by zero never
occurs at the call sites, which divide by positive sample rates and constants). -/
def qDiv (a b : ℚ) : ℚ := Rat.divInt (a.num * b.den) ((a.den : Int) * b.num)

theorem mkQ_eq (n d : Int) : mkQ n d = (n : ℚ) / (d : ℚ) := Rat.divInt_eq_div n d

theorem qAdd_eq (a b : ℚ) : qAdd a b = a + b := by
  have ha : ((a.den : ℚ)) ≠ 0 := by exact_mod_cast a.den_nz
  have hb : ((b.den : ℚ)) ≠ 0 := by exact_mod_cast b.den_nz
  rw [qAdd, Rat.divInt_eq_div]
  push_cast
  conv_rhs => rw [← Rat.num_div_den a, ← Rat.num_div_den b]
  field_simp

theorem qSub_eq (a b : ℚ) : qSub a b = a - b := by
  have ha : ((a.den : ℚ)) ≠ 0 := by exact_mod_cast a.den_nz
  have hb : ((b.den : ℚ)) ≠ 0 := by exact_mod_cast b.den_nz
  rw [qSub, Rat.divInt_eq_div]
  push_cast
  conv_rhs => rw [← Rat.num_div_den a, ← Rat.num_div_den b]
  field_simp
  ring

theorem qMul_eq (a b : ℚ) : qMul a b = a * b := by
  have ha : ((a.den : ℚ)) ≠ 0 := by exact_mod_cast a.den_nz
  have hb : ((b.den : ℚ)) ≠ 0 := by exact_mod_cast b.den_nz
  rw [qMul, Rat.divInt_eq_div]
  push_cast
  conv_rhs => rw [← Rat.num_div_den a, ← Rat.num_div_den b]
  field_simp

theorem qDiv_eq (a b : ℚ) : qDiv a b = a / b := by
  have ha : ((a.den : ℚ)) ≠ 0 := by exact_mod_cast a.den_nz
  have hbden : ((b.den : ℚ)) ≠ 0 := by exact_mod_cast b.den_nz
  rcases eq_or_ne b 0 with hb | hb
  · subst hb
    simp [qDiv, Rat.divInt_eq_div]
  · have hbn : ((b.num : ℚ)) ≠ 0 := by
      exact_mod_cast Rat.num_ne_zero.mpr hb
    rw [qDiv, Rat.divInt_eq_div]
    push_cast
    conv_rhs => rw [← Rat.num_div_den a, ← Rat.num_div_den b]
    field_simp

/-- JavaScript `Math.round` on an exact rational: round half away from zero
coincides with `⌊x + 1/2⌋` for the non-negative values used here. -/
def jsRound (x : ℚ) : Int := ⌊qAdd x (mkQ 1 2)⌋

/-- JavaScript `Number.prototype.toFixed(3)` followed by unary `+`, on the
non-negative rationals produced by the library: rounding to millisecond
precision. -/
def toFixed3 (x : ℚ) : ℚ := qDiv (jsRound (qMul x 1000) : ℚ) 1000

theorem jsRound_eq (x : ℚ) : jsRound x = ⌊x + 1 / 2⌋ := by
  rw [jsRound, qAdd_eq, mkQ_eq]
  norm_num

theorem toFixed3_eq (x : ℚ) : toFixed3 x = (⌊x * 1000 + 1 / 2⌋ : ℚ) / 1000 := by
  rw [toFixed3, qDiv_eq, jsRound_eq, qMul_eq]

/-- String model: JavaScript strings are sequences of characters. -/
abbrev Str := List Char

/-- Characters matched by the JavaScript `\s` class and trimmed by
`String.prototype.trim` (restricted to the code points appearing in this
development). -/
def isJsWs (c : Char) : Bool :=
  c = ' ' ∨ c = '\t' ∨ c = '\n' ∨ c = '\r' ∨ c = '\x0b' ∨ c = '\x0c' ∨ c = ' ' ∨ c = '﻿'

/-- JavaScript `String.prototype.trim`. -/
def jsTrim (s : Str) : Str :=
  ((s.dropWhile isJsWs).reverse.dropWhile isJsWs).reverse

/-- JavaScript `String.prototype.trimEnd`. -/
def jsTrimEnd (s : Str) : Str :=
  (s.reverse.dropWhile isJsWs).reverse

/-- ASCII lower-casing of one character (the `toLowerCase` calls of the
source only ever affect ASCII letters in the inputs considered). -/
def lowerAscii (c : Char) : Char :=
  if 'A' ≤ c ∧ c ≤ 'Z' then Char.ofNat (c.toNat + 32) else c

/-- Case-insensitive character equality used by the `i`-flagged literal
replacements of the source. -/
def charEqCI (a b : Char) : Bool := lowerAscii a = lowerAscii b

/-- Test whether `pat` occurs at the start of `s`, case-insensitively. -/
def headMatchesCI : Str → Str → Bool
  | [], _ => true
  | _ :: _, [] => false
  | p :: ps, c :: cs => charEqCI p c && headMatchesCI ps cs

/-- Worker for `replaceCI`: `skip` counts pattern characters still to be
consumed after a match was emitted. -/
def replaceCIAux (pat repl : Str) : Nat → Str → Str
  | _, [] => []
  | skip + 1, _ :: cs => replaceCIAux pat repl skip cs
  | 0, c :: cs =>
    if headMatchesCI pat (c :: cs) then
      repl ++ replaceCIAux pat repl (pat.length - 1) cs
    else
      c :: replaceCIAux pat repl 0 cs

/-- Global case-insensitive replacement of the literal pattern `pat`
(non-empty at every use site) by `repl`, scanning left to right as a
JavaScript global replace of an `i`-flagged literal regex does. -/
def replaceCI (pat repl : Str) (s : Str) : Str := replaceCIAux pat repl 0 s

/-- Embedding of `decodeBasicHtmlEntities` from `src/webvtt.ts`: four
sequential global case-insensitive literal replacements. -/
def decodeBasicHtmlEntities (s : Str) : Str :=
  replaceCI ['&', 'n', 'b', 's', 'p', ';'] [' ']
    (replaceCI ['&', 'g', 't', ';'] ['>']
      (replaceCI ['&', 'l', 't', ';'] ['<']
        (replaceCI ['&', 'a', 'm', 'p', ';'] ['&'] s)))

/-- Worker for `stripMarkupTags`: `pending` holds, reversed, the characters
of a potential tag currently being scanned (beginning with `<`); an empty
`pending` means ordinary scanning. -/
def stripTagsAux (pending : Str) : Str → Str
  | [] => pending.reverse
  | c :: cs =>
    match pending with
    | [] => if c = '<' then stripTagsAux ['<'] cs else c :: stripTagsAux [] cs
    | _ :: prest =>
      if c = '>' then
        if prest.length = 0 then pending.reverse ++ '>' :: stripTagsAux [] cs
        else ' ' :: stripTagsAux [] cs
      else stripTagsAux (c :: pending) cs

/-- Embedding of the global replace of `/<[^>]+>/g` by a space: starting at
each `<`, a maximal non-empty run of non-`>` characters followed by `>` is
replaced (the JavaScript match is the leftmost one and `[^>]+` cannot cross
a `>`); a `<` with no later `>` matches nothing and is emitted unchanged. -/
def stripMarkupTags (s : Str) : Str := stripTagsAux [] s

/-- Worker for `squashRunsToSpace`: `inRun` records whether the previous
character belonged to a `bad` run (whose single replacement space was
already emitted). -/
def squashRunsAux (bad : Char → Bool) (inRun : Bool) : Str → Str
  | [] => []
  | c :: cs =>
    if bad c then
      if inRun then squashRunsAux bad true cs
      else ' ' :: squashRunsAux bad true cs
    else c :: squashRunsAux bad false cs

/-- Global replace of each maximal run of `bad` characters by a single
space (the shape of the `/\s+/g → " "` and `/[^a-z0-9'-]+/g → " "` replaces
of the source). -/
def squashRunsToSpace (bad : Char → Bool) (s : Str) : Str := squashRunsAux bad false s

/-- Embedding of the global replace of `/\s+/g` by a single space. -/
def collapseWs : Str → Str := squashRunsToSpace isJsWs

/-- Worker for `dropWsBeforeClass`: `pending` holds, reversed, the current
whitespace run that may still be deleted if a `p`-character follows it. -/
def dropWsBeforeAux (p : Char → Bool) (pending : Str) : Str → Str
  | [] => pending.reverse
  | c :: cs =>
    if isJsWs c then dropWsBeforeAux p (c :: pending) cs
    else if pending.length ≠ 0 ∧ p c then c :: dropWsBeforeAux p [] cs
    else pending.reverse ++ (c :: dropWsBeforeAux p [] cs)

/-- Embedding of the global replace of `/\s+(P)/g` by the captured
punctuation character, for a one-character class `p`: a maximal whitespace
run immediately followed by a `p`-character is replaced by that character. -/
def dropWsBeforeClass (p : Char → Bool) (s : Str) : Str := dropWsBeforeAux p [] s

/-- Worker for `dropWsAfterOpenParen`: `afterParen` records that an opening
parenthesis was just emitted, so an immediately following whitespace run is
being deleted. -/
def dropWsAfterParenAux : Bool → Str → Str
  | _, [] => []
  | true, c :: cs =>
    if isJsWs c then dropWsAfterParenAux true cs
    else if c = '(' then '(' :: dropWsAfterParenAux true cs
    else c :: dropWsAfterParenAux false cs
  | false, c :: cs =>
    if c = '(' then '(' :: dropWsAfterParenAux true cs
    else c :: dropWsAfterParenAux false cs

/-- Embedding of the global replace of `/\(\s+/g` by an opening parenthesis. -/
def dropWsAfterOpenParen (s : Str) : Str := dropWsAfterParenAux false s

/-- Punctuation class `[,.;!?]` of `normalizeCueText`. -/
def isTightPunct (c : Char) : Bool :=
  c = ',' ∨ c = '.' ∨ c = ';' ∨ c = '!' ∨ c = '?'

/-- Embedding of `normalizeCueText` from `src/webvtt.ts`: decode entities,
strip markup tags, collapse whitespace, tighten spacing before `[,.;!?]`,
after `(` and before `)`, then trim. -/
def normalizeCueText (value : Str) : Str :=
  jsTrim
    (dropWsBeforeClass (fun c => c = ')')
      (dropWsAfterOpenParen
        (dropWsBeforeClass isTightPunct
          (collapseWs
            (stripMarkupTags
              (decodeBasicHtmlEntities value))))))

/-- Closing-punctuation class `["')\]]` of the sentence and soft punctuation
tests. -/
def isClosingMark (c : Char) : Bool :=
  c = '"' ∨ c = Char.ofNat 39 ∨ c = ')' ∨ c = ']'

/-- Embedding of `endsWithSentencePunctuation`: the regex
`/[.!?]["')\]]*$/` applied to the trimmed value. -/
def endsWithSentencePunctuation (value : Str) : Bool :=
  match ((jsTrim value).reverse).dropWhile isClosingMark with
  | c :: _ => c = '.' ∨ c = '!' ∨ c = '?'
  | [] => false

/-- Embedding of `endsWithSoftPunctuation`: the regex `/[,;:]["')\]]*$/`
applied to the trimmed value. -/
def endsWithSoftPunctuation (value : Str) : Bool :=
  match ((jsTrim value).reverse).dropWhile isClosingMark with
  | c :: _ => c = ',' ∨ c = ';' ∨ c = ':'
  | [] => false

/-- Embedding of `startsWithUppercase`: the regex `/^[A-Z]/` applied to the
trimmed value. -/
def startsWithUppercase (value : Str) : Bool :=
  match jsTrim value with
  | c :: _ => 'A' ≤ c ∧ c ≤ 'Z'
  | [] => false

/-- Characters kept by the `[^a-z0-9'-]+` replace of `splitCueWords`. -/
def isCueWordChar (c : Char) : Bool :=
  ('a' ≤ c ∧ c ≤ 'z') ∨ ('0' ≤ c ∧ c ≤ '9') ∨ c = Char.ofNat 39 ∨ c = '-'

/-- Worker for `wsTokens`: `acc` holds, reversed, the non-whitespace token
currently being read. -/
def wsTokensAux (acc : Str) : Str → List Str
  | [] => if acc.length = 0 then [] else [acc.reverse]
  | c :: cs =>
    if isJsWs c then
      if acc.length = 0 then wsTokensAux [] cs
      else acc.reverse :: wsTokensAux [] cs
    else wsTokensAux (c :: acc) cs

/-- Maximal non-whitespace runs of a string: the net effect of
`.split(/\s+/).filter((token) => token.length > 0)`. -/
def wsTokens (s : Str) : List Str := wsTokensAux [] s

/-- Embedding of `splitCueWords`: lower-case, replace runs outside
`[a-z0-9'-]` by spaces, trim, split on whitespace and drop empty tokens. -/
def splitCueWords (value : Str) : List Str :=
  wsTokens (jsTrim (squashRunsToSpace (fun c => ¬ isCueWordChar c) (value.map lowerAscii)))

/-- Embedding of the fixed `CONNECTOR_WORDS` set. -/
def connectorWords : List Str :=
  [(r"a").toList, (r"an").toList, (r"and").toList, (r"as").toList, (r"at").toList,
   (r"be").toList, (r"been").toList, (r"being").toList, (r"but").toList, (r"by").toList,
   (r"for").toList, (r"from").toList, (r"if").toList, (r"in").toList, (r"into").toList,
   (r"is").toList, (r"it").toList, (r"its").toList, (r"of").toList, (r"on").toList,
   (r"or").toList, (r"our").toList, (r"so").toList, (r"that").toList, (r"the").toList,
   (r"their").toList, (r"then").toList, (r"these").toList, (r"this").toList, (r"those").toList,
   (r"to").toList, (r"was").toList, (r"were").toList, (r"which").toList, (r"with").toList]

/-- Membership in the connector-word set. -/
def isConnectorWord (w : Str) : Bool := connectorWords.contains w

/-- Embedding of `startsWithConnector`. -/
def startsWithConnector (value : Str) : Bool :=
  match splitCueWords value with
  | w :: _ => isConnectorWord w
  | [] => false

/-- Embedding of `endsWithConnector`. -/
def endsWithConnector (value : Str) : Bool :=
  match (splitCueWords value).getLast? with
  | some w => isConnectorWord w
  | none => false

/-- Embedding of `isDanglingCueText`. -/
def isDanglingCueText (value : Str) : Bool :=
  let words := splitCueWords value
  if words.length = 0 then true
  else if words.length = 1 then isConnectorWord (words.headD [])
  else if words.length ≤ 3 ∧ words.all isConnectorWord then true
  else endsWithConnector value

/-- Word-level timestamped token (`TimedWordLike` of `src/webvtt.ts`). -/
structure TimedWordLike where
  text : Str
  start_time : ℚ
  end_time : ℚ
deriving DecidableEq, Repr

/-- Parsed or produced WebVTT cue (`WebVttCue` of `src/webvtt.ts`). -/
structure WebVttCue where
  identifier : Option Str := none
  start_time : ℚ
  end_time : ℚ
  text : Str
deriving DecidableEq, Repr

/-- Embedding of `buildCueTextFromWords`. -/
def buildCueTextFromWords (words : List TimedWordLike) : Str :=
  normalizeCueText (List.intercalate [' '] (words.map TimedWordLike.text))

/-- Embedding of `toFiniteNonNegativeNumber` (in the rational model every
value is a finite number, so only the clamp to non-negative remains). -/
def toFiniteNonNegativeNumber (value : ℚ) : ℚ := max 0 value

/-- Embedding of `normalizeTimedWord`. -/
def normalizeTimedWord (value : TimedWordLike) : Option TimedWordLike :=
  let text := jsTrim value.text
  if text = [] then none
  else
    let start := toFiniteNonNegativeNumber value.start_time
    let endCandidate := toFiniteNonNegativeNumber value.end_time
    let e := max start endCandidate
    some { text := text, start_time := toFixed3 start, end_time := toFixed3 e }

/-- Stable insertion of `a` into `l`, placing `a` after every element `b`
with `le b a`. -/
def insertLeStable {α : Type} (le : α → α → Bool) (a : α) : List α → List α
  | [] => [a]
  | b :: t => if le b a then b :: insertLeStable le a t else a :: b :: t

/-- JavaScript `Array.prototype.sort` with a consistent comparator is a
stable sort; it is embedded as a stable insertion sort with respect to the
comparator's non-strict order. -/
def jsSortStable {α : Type} (le : α → α → Bool) (l : List α) : List α :=
  l.foldl (fun acc a => insertLeStable le a acc) []

/-- Non-strict order corresponding to the comparator
`(l, r) => l.start_time - r.start_time || l.end_time - r.end_time`. -/
def timedWordLe (l r : TimedWordLike) : Bool :=
  l.start_time < r.start_time ∨ (l.start_time = r.start_time ∧ l.end_time ≤ r.end_time)

/-- Options record of `segmentWordsIntoWebVttCues`. -/
structure CaptionSegmentationOptions where
  maxCueChars : Option ℚ := none
  maxCueDurationSeconds : Option ℚ := none
  minCueDurationSeconds : Option ℚ := none
  maxWordsPerCue : Option ℚ := none
  maxInterWordGapSeconds : Option ℚ := none
deriving DecidableEq, Repr

/-- Effective limits computed at the top of `segmentWordsIntoWebVttCues`
(lines 231–236 of `src/webvtt.ts`). -/
structure CaptionParams where
  maxCueChars : ℚ
  maxCueDurationSeconds : ℚ
  hardMaxCueDurationSeconds : ℚ
  minCueDurationSeconds : ℚ
  maxWordsPerCue : ℚ
  maxInterWordGapSeconds : ℚ
deriving DecidableEq, Repr

/-- Computation of the effective limits, with the fixed floors applied by
`Math.max`. -/
def mkCaptionParams (options : CaptionSegmentationOptions) : CaptionParams :=
  let maxCueChars := max 28 (options.maxCueChars.getD 56)
  let maxCueDurationSeconds := max (mkQ 25 10) (options.maxCueDurationSeconds.getD (mkQ 65 10))
  let hardMaxCueDurationSeconds :=
    max (qAdd maxCueDurationSeconds (mkQ 15 10)) (qMul maxCueDurationSeconds (mkQ 135 100))
  let minCueDurationSeconds := max (mkQ 9 10) (options.minCueDurationSeconds.getD (mkQ 14 10))
  let maxWordsPerCue := max 3 (options.maxWordsPerCue.getD 16)
  let maxInterWordGapSeconds := max (mkQ 1 10) (options.maxInterWordGapSeconds.getD (mkQ 11 10))
  { maxCueChars := maxCueChars,
    maxCueDurationSeconds := maxCueDurationSeconds,
    hardMaxCueDurationSeconds := hardMaxCueDurationSeconds,
    minCueDurationSeconds := minCueDurationSeconds,
    maxWordsPerCue := maxWordsPerCue,
    maxInterWordGapSeconds := maxInterWordGapSeconds }

/-- Placeholder word used only for the total `headD`/`getLastD` accesses on
lists that are non-empty at every use site. -/
def dummyTimedWord : TimedWordLike := { text := [], start_time := 0, end_time := 0 }

/-- One step of the greedy grouping loop of `segmentWordsIntoWebVttCues`
(lines 263–312 of `src/webvtt.ts`): the state carries the flushed groups
and the currently accumulating group. -/
def greedyStep (p : CaptionParams)
    (st : List (List TimedWordLike) × List TimedWordLike) (word : TimedWordLike) :
    List (List TimedWordLike) × List TimedWordLike :=
  let groups := st.1
  let currentWords := st.2
  match currentWords with
  | [] => (groups, [word])
  | c0 :: _ =>
    let previous := currentWords.getLastD c0
    let cueStart := c0.start_time
    let cueDuration := max 0 (qSub previous.end_time cueStart)
    let interWordGap := max 0 (qSub word.start_time previous.end_time)
    let nextDuration := max 0 (qSub word.end_time cueStart)
    let nextText := buildCueTextFromWords (currentWords ++ [word])
    let currentText := buildCueTextFromWords currentWords
    let currentEndsSentence := endsWithSentencePunctuation previous.text
    let currentEndsSoft := endsWithSoftPunctuation previous.text
    let nextStartsConnector := startsWithConnector word.text
    let currentIsDangling := isDanglingCueText currentText
    let currentEndsConnector := endsWithConnector currentText
    let shouldBreakOnHardLimit : Prop :=
      interWordGap > qMul p.maxInterWordGapSeconds (mkQ 18 10)
      ∨ (currentWords.length ≥ 3 ∧ nextDuration > p.hardMaxCueDurationSeconds)
      ∨ (currentWords.length ≥ 4 ∧ (nextText.length : ℚ) > (jsRound (qMul p.maxCueChars (mkQ 165 100)) : ℚ))
      ∨ (currentWords.length : ℚ) ≥ qAdd p.maxWordsPerCue 4
    let shouldBreakOnSoftLimit : Prop :=
      interWordGap > p.maxInterWordGapSeconds
      ∨ (currentWords.length ≥ 2 ∧ nextDuration > p.maxCueDurationSeconds)
      ∨ (currentWords.length ≥ 3 ∧ (nextText.length : ℚ) > p.maxCueChars)
      ∨ (currentWords.length : ℚ) ≥ p.maxWordsPerCue
    let shouldBreakOnNaturalBoundary : Prop :=
      cueDuration ≥ p.minCueDurationSeconds
      ∧ (currentEndsSentence
        ∨ (currentEndsSoft
          ∧ ((nextText.length : ℚ) > (jsRound (qMul p.maxCueChars (mkQ 72 100)) : ℚ)
            ∨ nextDuration > qMul p.maxCueDurationSeconds (mkQ 7 10))))
    let shouldAvoidSoftBreak : Prop :=
      currentWords.length < 3
      ∨ currentIsDangling
      ∨ currentEndsConnector
      ∨ nextStartsConnector
    if shouldBreakOnHardLimit ∨ shouldBreakOnNaturalBoundary
        ∨ (shouldBreakOnSoftLimit ∧ ¬ shouldAvoidSoftBreak) then
      (groups ++ [currentWords], [word])
    else
      (groups, currentWords ++ [word])

/-- Greedy grouping pass: fold the step over the sorted words and flush the
trailing group. -/
def greedyGroups (p : CaptionParams) (words : List TimedWordLike) :
    List (List TimedWordLike) :=
  let st := words.foldl (greedyStep p) ([], [])
  if st.2.length = 0 then st.1 else st.1 ++ [st.2]

/-- Embedding of the `canMerge` closure of the repair pass (lines 329–335 of
`src/webvtt.ts`). -/
def canMerge (p : CaptionParams) (left right : List TimedWordLike) : Prop :=
  let merged := left ++ right
  let mergedText := buildCueTextFromWords merged
  let duration := qSub (merged.getLastD dummyTimedWord).end_time (merged.headD dummyTimedWord).start_time
  (mergedText.length : ℚ) ≤ (jsRound (qMul p.maxCueChars (mkQ 175 100)) : ℚ)
  ∧ duration ≤ qMul p.hardMaxCueDurationSeconds (mkQ 15 10)

instance (p : CaptionParams) (left right : List TimedWordLike) :
    Decidable (canMerge p left right) := by
  unfold canMerge
  infer_instance

/-- Embedding of the repair loop of `segmentWordsIntoWebVttCues` (lines
337–371 of `src/webvtt.ts`).  The JavaScript loop mutates the `groups`
array with `splice` and steps `index` back by one after each merge so that
the merged group is re-examined; merging with the previous group removes
the current entry, so resuming at the same numeric index continues with
the following group, exactly as the `index -= 1; continue; index += 1`
sequence does.  The loop is rendered with an explicit fuel so that it is
structurally recursive and computable by kernel reduction. -/
def repairPassF (p : CaptionParams) :
    Nat → List (List TimedWordLike) → Nat → List (List TimedWordLike)
  | 0, gs, _ => gs
  | fuel + 1, gs, index =>
    if h : index < gs.length then
      let currentGroup := gs.get ⟨index, h⟩
      let currentText := buildCueTextFromWords currentGroup
      let currentIsDangling : Prop :=
        isDanglingCueText currentText
          ∨ ((splitCueWords currentText).length ≤ 2 ∧ ¬ endsWithSentencePunctuation currentText)
      let nextGroup := (gs.get? (index + 1)).getD []
      let previousGroup := (gs.get? (index - 1)).getD []
      let nextText := if index + 1 < gs.length then buildCueTextFromWords nextGroup else []
      if index + 1 < gs.length
          ∧ (endsWithConnector currentText ∨ startsWithConnector nextText)
          ∧ canMerge p currentGroup nextGroup then
        repairPassF p fuel ((gs.set index (currentGroup ++ nextGroup)).eraseIdx (index + 1)) index
      else if currentIsDangling ∧ 1 ≤ index ∧ canMerge p previousGroup currentGroup then
        repairPassF p fuel ((gs.set (index - 1) (previousGroup ++ currentGroup)).eraseIdx index) index
      else if currentIsDangling ∧ index + 1 < gs.length
          ∧ startsWithUppercase nextText
          ∧ canMerge p currentGroup nextGroup then
        repairPassF p fuel ((gs.set index (currentGroup ++ nextGroup)).eraseIdx (index + 1)) index
      else
        repairPassF p fuel gs (index + 1)
    else gs

/-- Entry point of the repair loop.  Every iteration either increments
`index` leaving the list unchanged, or removes one group leaving `index`
unchanged, so the loop runs for at most `2 * gs.length - index` iterations
and the supplied fuel is never exhausted. -/
def repairPass (p : CaptionParams) (gs : List (List TimedWordLike)) (index : Nat) :
    List (List TimedWordLike) :=
  repairPassF p (2 * gs.length + 1) gs index

/-- Final cue built from one word group (both return paths of
`segmentWordsIntoWebVttCues` compute the same times). -/
def cueOfGroup (group : List TimedWordLike) (text : Str) : WebVttCue :=
  { identifier := none,
    start_time := (group.headD dummyTimedWord).start_time,
    end_time := max (qAdd (group.headD dummyTimedWord).start_time (mkQ 1 1000))
      ((group.getLastD dummyTimedWord).end_time),
    text := text }

/-- Embedding of `segmentWordsIntoWebVttCues` from `src/webvtt.ts`. -/
def segmentWordsIntoWebVttCues (inputWords : List TimedWordLike)
    (options : CaptionSegmentationOptions) : List WebVttCue :=
  let p := mkCaptionParams options
  let words := jsSortStable timedWordLe (inputWords.filterMap normalizeTimedWord)
  if words.length = 0 then []
  else
    let groups := greedyGroups p words
    if groups.length ≤ 1 then
      groups.map (fun group => cueOfGroup group (buildCueTextFromWords group))
    else
      (repairPass p groups 0).filterMap (fun group =>
        let text := buildCueTextFromWords group
        if text = [] then none
        else some (cueOfGroup group text))

theorem cueOfGroup_start_lt_end (group : List TimedWordLike) (text : Str) :
    (cueOfGroup group text).start_time < (cueOfGroup group text).end_time := by
  simp only [cueOfGroup]
  refine lt_of_lt_of_le ?_ (le_max_left _ _)
  rw [qAdd_eq, mkQ_eq]
  norm_num

theorem segment_mem_sound (inputWords : List TimedWordLike)
    (options : CaptionSegmentationOptions) (cue : WebVttCue)
    (hcue : cue ∈ segmentWordsIntoWebVttCues inputWords options) :
    cue.start_time < cue.end_time ∧
      (2 ≤ (greedyGroups (mkCaptionParams options)
          (jsSortStable timedWordLe (inputWords.filterMap normalizeTimedWord))).length →
        cue.text ≠ []) := by
  unfold segmentWordsIntoWebVttCues at hcue
  by_cases h0 :
      (jsSortStable timedWordLe (inputWords.filterMap normalizeTimedWord)).length = 0
  · simp only [if_pos h0] at hcue
    exact absurd hcue (List.not_mem_nil cue)
  · simp only [if_neg h0] at hcue
    by_cases h1 : (greedyGroups (mkCaptionParams options)
        (jsSortStable timedWordLe (inputWords.filterMap normalizeTimedWord))).length ≤ 1
    · simp only [if_pos h1] at hcue
      obtain ⟨g, hg, rfl⟩ := List.mem_map.mp hcue
      refine ⟨cueOfGroup_start_lt_end g _, fun h2 => absurd h1 (by omega)⟩
    · simp only [if_neg h1] at hcue
      obtain ⟨g, hg, hsome⟩ := List.mem_filterMap.mp hcue
      by_cases ht : buildCueTextFromWords g = []
      · simp only [ht, if_pos rfl] at hsome
        exact absurd hsome (by simp)
      · simp only [if_neg ht] at hsome
        obtain rfl := Option.some_injective _ hsome
        exact ⟨cueOfGroup_start_lt_end g _, fun _ => ht⟩

/-- C1 counterexample: a single word whose text is the markup-only string
`<b>` survives `normalizeTimedWord` (it trims to a non-empty string) but
normalizes to the empty cue text, and the single-group fast path of
`segmentWordsIntoWebVttCues` returns it without the empty-text filter of
the multi-group path. -/
theorem segment_empty_text_counterexample :
    (segmentWordsIntoWebVttCues
        [{ text := ['<', 'b', '>'], start_time := 0, end_time := 1 }] {}).map WebVttCue.text
      = [[]] := by
  decide

/-- C1 (amended): every cue produced by `segmentWordsIntoWebVttCues` has
`end_time` strictly greater than `start_time` (the `+ 0.001` clamp makes
the gap at least one millisecond), and every cue produced when the greedy
pass yields at least two groups has non-empty text; a single-group result
may carry empty text when every word text normalizes away. -/
theorem segment_cue_times_and_text (inputWords : List TimedWordLike)
    (options : CaptionSegmentationOptions) (cue : WebVttCue)
    (hcue : cue ∈ segmentWordsIntoWebVttCues inputWords options) :
    cue.start_time < cue.end_time ∧
      (2 ≤ (greedyGroups (mkCaptionParams options)
          (jsSortStable timedWordLe (inputWords.filterMap normalizeTimedWord))).length →
        cue.text ≠ []) :=
  segment_mem_sound inputWords options cue hcue

/-- Witness for `segment_cue_times_and_text` at the repository's own
fixture word list. -/
theorem segment_cue_times_and_text_witness :
    ((segmentWordsIntoWebVttCues
        [{ text := (r"of").toList, start_time := 0, end_time := 1 }] {}).headD
        { start_time := 0, end_time := 0, text := [] })
      ∈ segmentWordsIntoWebVttCues
        [{ text := (r"of").toList, start_time := 0, end_time := 1 }] {} ∧
    ((segmentWordsIntoWebVttCues
        [{ text := (r"of").toList, start_time := 0, end_time := 1 }] {}).headD
        { start_time := 0, end_time := 0, text := [] }).start_time
      < ((segmentWordsIntoWebVttCues
        [{ text := (r"of").toList, start_time := 0, end_time := 1 }] {}).headD
        { start_time := 0, end_time := 0, text := [] }).end_time :=
  ⟨by decide,
   (segment_cue_times_and_text
      [{ text := (r"of").toList, start_time := 0, end_time := 1 }] {} _ (by decide)).1⟩

/-- Word list of the repository's own `avoids dangling function-word cues`
fixture (`src/webvtt.test.ts`): seven phrase-words whose greedy grouping
leaves a trailing lone `of`. -/
def repairFixtureWords : List TimedWordLike :=
  [{ text := (r"Our music library").toList, start_time := 0, end_time := mkQ 4241 1000 },
   { text := (r"is home to").toList, start_time := mkQ 4241 1000, end_time := mkQ 8483 1000 },
   { text := (r"many distinctive collections,").toList, start_time := mkQ 8483 1000,
     end_time := mkQ 12724 1000 },
   { text := (r"including the Hans").toList, start_time := mkQ 12724 1000,
     end_time := mkQ 16965 1000 },
   { text := (r"Moldenhauer collection.").toList, start_time := mkQ 16965 1000,
     end_time := mkQ 19793 1000 },
   { text := (r"It contains thousands").toList, start_time := mkQ 19793 1000,
     end_time := mkQ 24034 1000 },
   { text := (r"of").toList, start_time := mkQ 24034 1000, end_time := mkQ 25448 1000 }]

/-- C8 counterexample: a word list consisting of the single connector word
`of` produces exactly one cue whose trimmed, lower-cased text is the
connector word `of`, so the claim that no returned cue's entire text is a
connector word fails on the code. -/
theorem segment_connector_cue_counterexample :
    (segmentWordsIntoWebVttCues
        [{ text := (r"of").toList, start_time := 0, end_time := 1 }] {}).map
        (fun c => jsTrim (List.map lowerAscii c.text))
      = [(r"of").toList] ∧ isConnectorWord ((r"of").toList) = true := by
  constructor
  · decide
  · decide

/-- C8 (amended): the repair pass merges dangling connector fragments into
a neighbouring cue whenever the merge ceilings allow it — on the
repository's own fixture, whose greedy grouping leaves a trailing lone
`of`, no produced cue's trimmed lower-cased text is a single connector
word — but a word list whose lone group is itself a single connector word
(such as `["of"]`) still yields a single-connector cue. -/
theorem segment_repairs_trailing_connector :
    (segmentWordsIntoWebVttCues repairFixtureWords {}).all
        (fun c => ¬ isConnectorWord (jsTrim (List.map lowerAscii c.text))) = true
      ∧ 1 < (segmentWordsIntoWebVttCues repairFixtureWords {}).length
      ∧ (segmentWordsIntoWebVttCues
          [{ text := (r"of").toList, start_time := 0, end_time := 1 }] {}).map
          (fun c => jsTrim (List.map lowerAscii c.text)) = [(r"of").toList] := by
  refine ⟨by decide, by decide, by decide⟩

theorem mkCaptionParams_only_dependence (inputWords : List TimedWordLike)
    (o₁ o₂ : CaptionSegmentationOptions)
    (h : mkCaptionParams o₁ = mkCaptionParams o₂) :
    segmentWordsIntoWebVttCues inputWords o₁ = segmentWordsIntoWebVttCues inputWords o₂ := by
  unfold segmentWordsIntoWebVttCues
  rw [h]

/-- C9: each of the five tunable limits is silently clamped to its fixed
floor — `maxCueChars` to 28, `maxCueDurationSeconds` to 2.5,
`minCueDurationSeconds` to 0.9, `maxWordsPerCue` to 3 and
`maxInterWordGapSeconds` to 0.1 — so an option at or below its floor
segments every word list exactly as the floor value does. -/
theorem segment_options_floor_clamped (inputWords : List TimedWordLike)
    (opts : CaptionSegmentationOptions) (v : ℚ) :
    (v ≤ 28 → segmentWordsIntoWebVttCues inputWords { opts with maxCueChars := some v }
      = segmentWordsIntoWebVttCues inputWords { opts with maxCueChars := some 28 }) ∧
    (v ≤ mkQ 25 10 →
      segmentWordsIntoWebVttCues inputWords { opts with maxCueDurationSeconds := some v }
      = segmentWordsIntoWebVttCues inputWords
          { opts with maxCueDurationSeconds := some (mkQ 25 10) }) ∧
    (v ≤ mkQ 9 10 →
      segmentWordsIntoWebVttCues inputWords { opts with minCueDurationSeconds := some v }
      = segmentWordsIntoWebVttCues inputWords
          { opts with minCueDurationSeconds := some (mkQ 9 10) }) ∧
    (v ≤ 3 → segmentWordsIntoWebVttCues inputWords { opts with maxWordsPerCue := some v }
      = segmentWordsIntoWebVttCues inputWords { opts with maxWordsPerCue := some 3 }) ∧
    (v ≤ mkQ 1 10 →
      segmentWordsIntoWebVttCues inputWords { opts with maxInterWordGapSeconds := some v }
      = segmentWordsIntoWebVttCues inputWords
          { opts with maxInterWordGapSeconds := some (mkQ 1 10) }) := by
  refine ⟨fun h => ?_, fun h => ?_, fun h => ?_, fun h => ?_, fun h => ?_⟩ <;>
    refine mkCaptionParams_only_dependence _ _ _ ?_ <;>
    simp only [mkCaptionParams, Option.getD_some] <;>
    rw [max_eq_left h, max_self]

/-- Witness for `segment_options_floor_clamped` with every option set to 0,
below each floor. -/
theorem segment_options_floor_clamped_witness :
    ((0 : ℚ) ≤ 28 ∧
      segmentWordsIntoWebVttCues
          [{ text := (r"of").toList, start_time := 0, end_time := 1 }]
          { maxCueChars := some 0 }
        = segmentWordsIntoWebVttCues
          [{ text := (r"of").toList, start_time := 0, end_time := 1 }]
          { maxCueChars := some 28 }) ∧
    ((0 : ℚ) ≤ mkQ 1 10 ∧
      segmentWordsIntoWebVttCues
          [{ text := (r"of").toList, start_time := 0, end_time := 1 }]
          { maxInterWordGapSeconds := some 0 }
        = segmentWordsIntoWebVttCues
          [{ text := (r"of").toList, start_time := 0, end_time := 1 }]
          { maxInterWordGapSeconds := some (mkQ 1 10) }) :=
  ⟨⟨by decide,
    (segment_options_floor_clamped
      [{ text := (r"of").toList, start_time := 0, end_time := 1 }] {} 0).1 (by decide)⟩,
   ⟨by decide,
    (segment_options_floor_clamped
      [{ text := (r"of").toList, start_time := 0, end_time := 1 }] {} 0).2.2.2.2 (by decide)⟩⟩

/-- Decimal digit character for `n < 10`. -/
def digitChar (n : Nat) : Char := Char.ofNat (48 + n)

/-- Worker computing the decimal digits of `n` most-significant first, in
front of `acc`; the fuel `natToChars` supplies is never exhausted. -/
def natToCharsAux : Nat → Nat → Str → Str
  | 0, _, acc => acc
  | fuel + 1, n, acc =>
    if n < 10 then digitChar (n % 10) :: acc
    else natToCharsAux fuel (n / 10) (digitChar (n % 10) :: acc)

/-- Decimal rendering of a natural number (JavaScript `String(n)` for the
non-negative integers produced by `formatTimestamp`). -/
def natToChars (n : Nat) : Str := natToCharsAux (n + 1) n []

/-- JavaScript `String.prototype.padStart(k, "0")`. -/
def padZeroLeft (k : Nat) (s : Str) : Str := List.replicate (k - s.length) '0' ++ s

/-- Numeric value of a digit string (JavaScript `Number.parseInt(s, 10)` on
the all-digit groups delivered by the timestamp regex). -/
def dVal (s : Str) : Nat := s.foldl (fun a c => 10 * a + (c.toNat - 48)) 0

/-- Decimal digit test (`\d`). -/
def isDigitChar (c : Char) : Bool := '0' ≤ c ∧ c ≤ '9'

/-- Embedding of `formatTimestamp` from `src/webvtt.ts`. -/
def formatTimestamp (secondsValue : ℚ) : Str :=
  let totalMilliseconds := (max 0 (jsRound (qMul secondsValue 1000))).toNat
  let hours := totalMilliseconds / 3600000
  let minutes := (totalMilliseconds % 3600000) / 60000
  let seconds := (totalMilliseconds % 60000) / 1000
  let milliseconds := totalMilliseconds % 1000
  padZeroLeft 2 (natToChars hours) ++ [':'] ++ padZeroLeft 2 (natToChars minutes)
    ++ [':'] ++ padZeroLeft 2 (natToChars seconds)
    ++ ['.'] ++ padZeroLeft 3 (natToChars milliseconds)

/-- Second-and-fraction tail of the timestamp regex: exactly two digits,
optionally followed by `.` or `,` and one to three digits. -/
def matchSecFrac (t : Str) : Option (Str × Option Str) :=
  match t with
  | d1 :: d2 :: rest =>
    if isDigitChar d1 ∧ isDigitChar d2 then
      match rest with
      | [] => some ([d1, d2], none)
      | sep :: f =>
        if (sep = '.' ∨ sep = ',') ∧ 1 ≤ f.length ∧ f.length ≤ 3 ∧ f.all isDigitChar then
          some ([d1, d2], some f)
        else none
    else none
  | _ => none

/-- Worker splitting a string at every occurrence of `sep` (JavaScript
`String.prototype.split` with a one-character separator). -/
def splitOnCharAux (sep : Char) (cur : Str) : Str → List Str
  | [] => [cur.reverse]
  | c :: cs =>
    if c = sep then cur.reverse :: splitOnCharAux sep [] cs
    else splitOnCharAux sep (c :: cur) cs

/-- JavaScript `String.prototype.split` with a one-character separator. -/
def splitOnChar (sep : Char) (s : Str) : List Str := splitOnCharAux sep [] s

/-- Matcher for the anchored timestamp regex
`^(?:(\d+):)?(\d{2}):(\d{2})(?:[.,](\d{1,3}))?$`.  None of the capture
groups can contain a colon, so the optional hours group is present exactly
when the string contains two colons; splitting at colons and validating
each part is equivalent to the regex. -/
def matchTimestampGroups (s : Str) : Option (Option Str × Str × Str × Option Str) :=
  match splitOnChar ':' s with
  | [m2, rest] =>
    if m2.length = 2 ∧ m2.all isDigitChar then
      match matchSecFrac rest with
      | some (s2, frac) => some (none, m2, s2, frac)
      | none => none
    else none
  | [h, m2, rest] =>
    if 1 ≤ h.length ∧ h.all isDigitChar ∧ m2.length = 2 ∧ m2.all isDigitChar then
      match matchSecFrac rest with
      | some (s2, frac) => some (some h, m2, s2, frac)
      | none => none
    else none
  | _ => none

/-- JavaScript `String.prototype.padEnd(3, "0")` followed by `.slice(0, 3)`. -/
def padEndZero3 (s : Str) : Str := (s ++ List.replicate (3 - s.length) '0').take 3

/-- Embedding of `parseTimestamp` from `src/webvtt.ts`. -/
def parseTimestamp (rawValue : Str) : Option ℚ :=
  let value := jsTrim rawValue
  if value.length = 0 then none
  else
    match matchTimestampGroups value with
    | none => none
    | some (g1, g2, g3, g4) =>
      let hours := dVal (g1.getD ['0'])
      let minutes := dVal g2
      let seconds := dVal g3
      let millisecondsText := padEndZero3 (g4.getD ['0'])
      let milliseconds := dVal millisecondsText
      some (max 0 (qAdd ((hours * 3600 + minutes * 60 + seconds : Nat) : ℚ)
        (qDiv (milliseconds : ℚ) 1000)))

/-- Embedding of `sanitizeCue` from `src/webvtt.ts`. -/
def sanitizeCue (cue : WebVttCue) : Option WebVttCue :=
  let text := jsTrim cue.text
  if text.length = 0 then none
  else
    let start := toFiniteNonNegativeNumber cue.start_time
    let endCandidate := toFiniteNonNegativeNumber cue.end_time
    let e := if endCandidate > start then endCandidate else toFixed3 (qAdd start (mkQ 1 1000))
    some { identifier :=
             match cue.identifier with
             | some id0 => if 0 < (jsTrim id0).length then some (jsTrim id0) else none
             | none => none,
           start_time := toFixed3 start,
           end_time := toFixed3 e,
           text := text }

/-- Non-strict order of the serializer's sort comparator
`(l, r) => l.start_time - r.start_time || l.end_time - r.end_time`. -/
def cueLe (l r : WebVttCue) : Bool :=
  l.start_time < r.start_time ∨ (l.start_time = r.start_time ∧ l.end_time ≤ r.end_time)

/-- Embedding of the final `.replace(/\n+$/, "\n")` of `serializeWebVttCues`. -/
def fixTrailingNewlines (s : Str) : Str :=
  match s.reverse with
  | '\n' :: _ => ((s.reverse.dropWhile (fun c => c = '\n')).reverse) ++ ['\n']
  | _ => s

/-- Embedding of `serializeWebVttCues` from `src/webvtt.ts`. -/
def serializeWebVttCues (input : List WebVttCue) : Str :=
  let cues := jsSortStable cueLe (input.filterMap sanitizeCue)
  if cues.length = 0 then (r"WEBVTT").toList ++ ['\n', '\n']
  else
    let lines := [(r"WEBVTT").toList, []] ++ cues.foldl (fun acc cue =>
      acc
        ++ (match cue.identifier with | some id0 => [id0] | none => [])
        ++ [formatTimestamp cue.start_time ++ [' ', '-', '-', '>', ' ']
              ++ formatTimestamp cue.end_time]
        ++ [cue.text]
        ++ [[]]) []
    fixTrailingNewlines (List.intercalate ['\n'] lines)

/-- Case-sensitive literal head match. -/
def headMatchesLit : Str → Str → Bool
  | [], _ => true
  | _ :: _, [] => false
  | p :: ps, c :: cs => p = c && headMatchesLit ps cs

/-- Substring search (JavaScript `String.prototype.includes`). -/
def strContainsSub (sub : Str) : Str → Bool
  | [] => sub.length = 0
  | c :: cs => headMatchesLit sub (c :: cs) || strContainsSub sub cs

/-- Embedding of `normalizeLineEndings`: replace `\r\n` then lone `\r` by
`\n` (the patterns contain no letters, so the case-insensitive literal
replace coincides with the case-sensitive one). -/
def normalizeLineEndings (s : Str) : Str :=
  replaceCI ['\r'] ['\n'] (replaceCI ['\r', '\n'] ['\n'] s)

/-- Removal of one leading byte-order mark (`.replace(/^﻿/, "")`). -/
def stripBom : Str → Str
  | c :: cs => if c = '﻿' then cs else c :: cs
  | [] => []

/-- Worker for `splitBlankRuns`: `cur` is the current element reversed and
`nl` counts the newlines seen immediately before the scan position. -/
def splitBlankAux (cur : Str) (nl : Nat) : Str → List Str
  | [] =>
    if 2 ≤ nl then [cur.reverse, []]
    else if nl = 1 then [('\n' :: cur).reverse]
    else [cur.reverse]
  | c :: cs =>
    if c = '\n' then splitBlankAux cur (nl + 1) cs
    else if 2 ≤ nl then cur.reverse :: splitBlankAux [c] 0 cs
    else if nl = 1 then splitBlankAux (c :: '\n' :: cur) 0 cs
    else splitBlankAux (c :: cur) 0 cs

/-- JavaScript `String.prototype.split(/\n{2,}/)`: split at each maximal
run of at least two newlines. -/
def splitBlankRuns (s : Str) : List Str := splitBlankAux [] 0 s

/-- Embedding of the `WEBVTT` header test `/^WEBVTT(?:[ \t].*)?$/i`. -/
def webVttHeaderOk (line : Str) : Bool :=
  headMatchesCI (r"WEBVTT").toList line
    && (match line.drop 6 with
        | [] => true
        | c :: _ => decide (c = ' ' ∨ c = '\t'))

/-- Matcher for the timing-line regex
`^([^\s]+)\s+-->\s+([^\s]+)(?:\s+.*)?$`: the first group is the maximal
leading non-whitespace run, then mandatory whitespace, the literal `-->`,
mandatory whitespace, and the maximal following non-whitespace run; any
trailing cue settings after further whitespace are ignored. -/
def matchTimingLine (line : Str) : Option (Str × Str) :=
  let tok1 := line.takeWhile (fun c => ¬ isJsWs c)
  let rest1 := line.dropWhile (fun c => ¬ isJsWs c)
  if tok1.length = 0 then none
  else if rest1.length = 0 then none
  else
    let afterWs1 := rest1.dropWhile isJsWs
    if ¬ headMatchesLit ['-', '-', '>'] afterWs1 then none
    else
      let after := afterWs1.drop 3
      match after with
      | [] => none
      | c :: _ =>
        if ¬ isJsWs c then none
        else
          let afterWs2 := after.dropWhile isJsWs
          let tok2 := afterWs2.takeWhile (fun d => ¬ isJsWs d)
          if tok2.length = 0 then none else some (tok1, tok2)

/-- Cue extracted from the trimmed-end lines of one block (the part of the
`for`-loop body of `parseWebVttCues` after the `lines` array is built;
`src/webvtt.ts` lines 447–491). -/
def parseBlockFromLines (lines : List Str) : Option WebVttCue :=
  let firstLine := jsTrim (lines.getD 0 [])
  if headMatchesLit (r"NOTE").toList firstLine
      ∨ firstLine = (r"STYLE").toList
      ∨ firstLine = (r"REGION").toList then none
  else
    let timingIndex? : Option Nat :=
      if strContainsSub ['-', '-', '>'] (lines.getD 0 []) then some 0
      else if 1 < lines.length ∧ strContainsSub ['-', '-', '>'] (lines.getD 1 [])
      then some 1
      else none
    match timingIndex? with
    | none => none
    | some ti =>
      let timingLine := jsTrim (lines.getD ti [])
      match matchTimingLine timingLine with
      | none => none
      | some (t1, t2) =>
        match parseTimestamp t1, parseTimestamp t2 with
        | some start, some e =>
          if e < start then none
          else
            let cueText := normalizeCueText (List.intercalate [' '] (lines.drop (ti + 1)))
            if cueText.length = 0 then none
            else
              let identifier :=
                if 0 < ti ∧ 0 < (jsTrim (lines.getD 0 [])).length
                then some (jsTrim (lines.getD 0 []))
                else none
              some { identifier := identifier,
                     start_time := toFixed3 start,
                     end_time := toFixed3 e,
                     text := cueText }
        | _, _ => none

/-- Cue extracted from one raw block by the body of the `for` loop over
blocks in `parseWebVttCues` (`src/webvtt.ts`, lines 436–492); `none` when
the block is skipped. -/
def parseBlockCue (rawBlock : Str) : Option WebVttCue :=
  let block := jsTrim rawBlock
  if block.length = 0 then none
  else
    let lines := (splitOnChar '\n' block).map jsTrimEnd
    if lines.length = 0 then none
    else parseBlockFromLines lines

/-- Per-block step of the `parseWebVttCues` fold: the loop body pushes at
most one cue per block. -/
def parseBlockStep (cues : List WebVttCue) (rawBlock : Str) : List WebVttCue :=
  match parseBlockCue rawBlock with
  | some cue => cues ++ [cue]
  | none => cues

/-- Embedding of `parseWebVttCues` from `src/webvtt.ts`. -/
def parseWebVttCues (rawValue : Str) : List WebVttCue :=
  let normalized := stripBom (normalizeLineEndings rawValue)
  let trimmed := jsTrim normalized
  if trimmed.length = 0 then []
  else
    let blocks := splitBlankRuns trimmed
    if blocks.length = 0 then []
    else
      let headerLine := jsTrim ((blocks.headD []).takeWhile (fun c => ¬ c = '\n'))
      if ¬ webVttHeaderOk headerLine then []
      else
        (blocks.drop 1).foldl parseBlockStep []

theorem toFixed3_mono {a b : ℚ} (h : a ≤ b) : toFixed3 a ≤ toFixed3 b := by
  rw [toFixed3_eq, toFixed3_eq]
  have h1 : (⌊a * 1000 + 1 / 2⌋ : ℤ) ≤ ⌊b * 1000 + 1 / 2⌋ := by
    apply Int.floor_le_floor
    nlinarith
  have h2 : ((⌊a * 1000 + 1 / 2⌋ : ℤ) : ℚ) ≤ ((⌊b * 1000 + 1 / 2⌋ : ℤ) : ℚ) := by
    exact_mod_cast h1
  linarith

theorem parseBlockFromLines_start_le_end (lines : List Str) :
    ∀ cue, parseBlockFromLines lines = some cue → cue.start_time ≤ cue.end_time := by
  intro cue
  simp only [parseBlockFromLines]
  split
  · intro h
    exact Option.noConfusion h
  · split
    · intro h
      exact Option.noConfusion h
    · split
      · intro h
        exact Option.noConfusion h
      · split
        · split
          · intro h
            exact Option.noConfusion h
          · split
            · intro h
              exact Option.noConfusion h
            · intro h
              injection h with h2
              subst h2
              rename_i hlt hlen
              exact toFixed3_mono (not_lt.mp hlt)
        · intro h
          exact Option.noConfusion h

theorem parseBlockCue_start_le_end (rawBlock : Str) :
    ∀ cue, parseBlockCue rawBlock = some cue → cue.start_time ≤ cue.end_time := by
  intro cue
  simp only [parseBlockCue]
  split
  · intro h
    exact Option.noConfusion h
  · split
    · intro h
      exact Option.noConfusion h
    · exact parseBlockFromLines_start_le_end _ cue

theorem parse_foldl_le (blocks : List Str) (acc : List WebVttCue)
    (hacc : ∀ c ∈ acc, c.start_time ≤ c.end_time) :
    ∀ c ∈ blocks.foldl parseBlockStep acc, c.start_time ≤ c.end_time := by
  induction blocks generalizing acc with
  | nil => exact hacc
  | cons b bs ih =>
    intro c hc
    refine ih (parseBlockStep acc b) ?_ c hc
    intro c' hc'
    unfold parseBlockStep at hc'
    split at hc'
    · rename_i cue hcue
      rcases List.mem_append.mp hc' with h1 | h2
      · exact hacc c' h1
      · obtain rfl := List.mem_singleton.mp h2
        exact parseBlockCue_start_le_end b c' hcue

    · exact hacc c' hc'

theorem parse_mem_start_le_end (s : Str) :
    ∀ c ∈ parseWebVttCues s, c.start_time ≤ c.end_time := by
  intro c hc
  simp only [parseWebVttCues] at hc
  split at hc
  · exact absurd hc (List.not_mem_nil c)
  · split at hc
    · exact absurd hc (List.not_mem_nil c)
    · split at hc
      · exact absurd hc (List.not_mem_nil c)
      · exact parse_foldl_le _ [] (fun c' hc' => absurd hc' (List.not_mem_nil c')) c hc

/-- Concrete WEBVTT text whose only cue has equal start and end timestamps. -/
def zeroDurationVtt : Str :=
  (r"WEBVTT").toList ++ ['\n', '\n']
    ++ (r"00:00:01.000 --> 00:00:01.000").toList ++ ['\n'] ++ (r"hi").toList

/-- C10 counterexample: `serializeWebVttCues` does produce a zero-duration
cue when a cue's start and end times round to the same millisecond — the
`end > start` branch of `sanitizeCue` keeps the raw end time and only the
subsequent `toFixed(3)` rounding collapses the pair. -/
theorem serialize_zero_duration_counterexample :
    parseWebVttCues (serializeWebVttCues
        [{ identifier := none, start_time := mkQ 1001 10000, end_time := mkQ 1004 10000,
           text := ['x'] }])
      = [{ identifier := none, start_time := mkQ 1 10, end_time := mkQ 1 10, text := ['x'] }] := by
  decide

/-- C10 (amended): `parseWebVttCues` rejects a cue only when its end
timestamp is strictly below its start timestamp, so every parsed cue
satisfies `start_time ≤ end_time` and a block with equal timestamps yields
a zero-duration cue; the segmenter never produces such a cue, but
`serializeWebVttCues` can, when a cue's times round to the same
millisecond. -/
theorem parse_accepts_zero_duration (s : Str) (c : WebVttCue)
    (hc : c ∈ parseWebVttCues s)
    (inputWords : List TimedWordLike) (options : CaptionSegmentationOptions)
    (c2 : WebVttCue) (hc2 : c2 ∈ segmentWordsIntoWebVttCues inputWords options) :
    c.start_time ≤ c.end_time ∧
    parseWebVttCues zeroDurationVtt
      = [{ identifier := none, start_time := 1, end_time := 1, text := (r"hi").toList }] ∧
    c2.start_time < c2.end_time ∧
    parseWebVttCues (serializeWebVttCues
        [{ identifier := none, start_time := mkQ 1001 10000, end_time := mkQ 1004 10000,
           text := ['x'] }])
      = [{ identifier := none, start_time := mkQ 1 10, end_time := mkQ 1 10, text := ['x'] }] :=
  ⟨parse_mem_start_le_end s c hc, by decide,
   (segment_mem_sound inputWords options c2 hc2).1, by decide⟩

/-- Witness for `parse_accepts_zero_duration` at the zero-duration fixture
and a one-word segmentation. -/
theorem parse_accepts_zero_duration_witness :
    ({ identifier := none, start_time := 1, end_time := 1,
        text := (r"hi").toList } : WebVttCue) ∈ parseWebVttCues zeroDurationVtt ∧
    (1 : ℚ) ≤ (1 : ℚ) :=
  ⟨by decide,
   (parse_accepts_zero_duration zeroDurationVtt
      { identifier := none, start_time := 1, end_time := 1, text := (r"hi").toList }
      (by decide)
      [{ text := (r"hi").toList, start_time := 0, end_time := 1 }] {}
      ((segmentWordsIntoWebVttCues
          [{ text := (r"hi").toList, start_time := 0, end_time := 1 }] {}).headD
        { start_time := 0, end_time := 0, text := [] })
      (by decide)).1⟩

/-- Word-level recognizer output (`ParakeetWord` of `src/stt-parakeet.ts`). -/
structure ParakeetWord where
  text : Str
  start_time : ℚ
  end_time : ℚ
  confidence : Option ℚ := none
deriving DecidableEq, Repr

/-- Recognizer call result (`ParakeetTranscriptionResult`). -/
structure ParakeetTranscriptionResult where
  text : Str
  words : List ParakeetWord
  latencySeconds : ℚ
  audioDurationSeconds : ℚ
  rtf : ℚ
deriving DecidableEq, Repr

/-- Metadata propagated into a partial transcription. -/
structure TranscriptionMetadata where
  latencySeconds : ℚ
  audioDurationSeconds : ℚ
  rtf : ℚ
deriving DecidableEq, Repr

/-- Engine emission (`PartialTranscription` of `src/stt-streaming.ts`); the
`words` and `metadata` fields are optional exactly as in the source type. -/
structure PartialTranscription where
  fixedText : Str
  activeText : Str
  timestamp : ℚ
  isFinal : Bool
  words : Option (List ParakeetWord) := none
  metadata : Option TranscriptionMetadata := none
deriving DecidableEq, Repr

/-- Session state of `SmartProgressiveStreamingHandler`. -/
structure EngineState where
  fixedSentences : List Str
  fixedWords : List ParakeetWord
  fixedEndTime : ℚ
  lastTranscribedLength : Nat
deriving DecidableEq, Repr

/-- State of a freshly constructed or `reset()` handler. -/
def initialEngineState : EngineState :=
  { fixedSentences := [], fixedWords := [], fixedEndTime := 0, lastTranscribedLength := 0 }

/-- Resolved constructor options of `SmartProgressiveStreamingHandler`
(each `??` default applied). -/
structure StreamingConfig where
  emissionIntervalSeconds : ℚ := mkQ 5 10
  maxWindowSeconds : ℚ := 15
  sentenceBufferSeconds : ℚ := 2
  sampleRate : ℚ := 16000
deriving DecidableEq, Repr

/-- Audio sample buffers are finite sequences of (exact) sample values. -/
abbrev AudioBuffer := List ℚ

/-- Clamped index of JavaScript `Array.prototype.slice` semantics. -/
def jsSliceIdx (len : Nat) (i : Int) : Nat :=
  if i < 0 then ((len : Int) + i).toNat else min i.toNat len

/-- JavaScript `slice(i, j)` on a typed array. -/
def jsSlice {α : Type} (a : List α) (i j : Int) : List α :=
  (a.take (jsSliceIdx a.length j)).drop (jsSliceIdx a.length i)

/-- JavaScript `slice(i)` on a typed array. -/
def jsSliceFrom {α : Type} (a : List α) (i : Int) : List α :=
  a.drop (jsSliceIdx a.length i)

/-- Placeholder word for total last-element access on lists that are
non-empty at every use site. -/
def dummyParakeetWord : ParakeetWord :=
  { text := [], start_time := 0, end_time := 0, confidence := none }

/-- Word shifted by a window base time (`{...word, start_time: base +
word.start_time, end_time: base + word.end_time}`). -/
def shiftWord (base : ℚ) (w : ParakeetWord) : ParakeetWord :=
  { w with start_time := qAdd base w.start_time, end_time := qAdd base w.end_time }

/-- Common tail of `transcribeIncremental` (lines 354–371 of
`src/stt-streaming.ts`): build the merged partial from the state, the
active-window base time and the last recognizer result. -/
def finishIncremental (cfg : StreamingConfig) (st : EngineState)
    (activeWindowBaseTime : ℚ) (result : ParakeetTranscriptionResult)
    (audio : AudioBuffer) : PartialTranscription :=
  { fixedText := jsTrim (List.intercalate [' '] st.fixedSentences),
    activeText := jsTrim result.text,
    timestamp := qDiv (audio.length : ℚ) cfg.sampleRate,
    isFinal := false,
    words := some (st.fixedWords ++ result.words.map (shiftWord activeWindowBaseTime)),
    metadata := some { latencySeconds := result.latencySeconds,
                       audioDurationSeconds := result.audioDurationSeconds,
                       rtf := result.rtf } }

/-- Embedding of `transcribeIncremental` (lines 311–372 of
`src/stt-streaming.ts`).  A thrown recognizer error propagates as
`Except.error` and the returned state carries exactly the mutations made
before the throw; the third component counts recognizer invocations. -/
def transcribeIncremental (cfg : StreamingConfig)
    (rec : AudioBuffer → Except Str ParakeetTranscriptionResult)
    (st : EngineState) (audio : AudioBuffer) :
    Except Str PartialTranscription × EngineState × Nat :=
  if (audio.length : ℚ) < qMul cfg.sampleRate (mkQ 5 10)
      ∨ audio.length = st.lastTranscribedLength then
    (.ok { fixedText := List.intercalate [' '] st.fixedSentences,
           activeText := [],
           timestamp := qDiv (audio.length : ℚ) cfg.sampleRate,
           isFinal := false,
           words := some st.fixedWords,
           metadata := none }, st, 0)
  else
    let st1 := { st with lastTranscribedLength := audio.length }
    let windowBaseTime := st.fixedEndTime
    let startSamples : Int := ⌊qMul windowBaseTime cfg.sampleRate⌋
    let transcriptionWindow := jsSliceFrom audio startSamples
    match rec transcriptionWindow with
    | .error e => (.error e, st1, 1)
    | .ok result =>
      let windowDuration := qDiv (transcriptionWindow.length : ℚ) cfg.sampleRate
      if windowDuration ≥ cfg.maxWindowSeconds ∧ 0 < result.words.length then
        let cutoff := qSub windowDuration cfg.sentenceBufferSeconds
        let lockableWords := result.words.filter (fun w => w.end_time < cutoff)
        if 0 < lockableWords.length then
          let lockableText := jsTrim (List.intercalate [' '] (lockableWords.map ParakeetWord.text))
          let st2 := { st1 with
            fixedSentences :=
              if 0 < lockableText.length then st1.fixedSentences ++ [lockableText]
              else st1.fixedSentences,
            fixedWords := st1.fixedWords ++ lockableWords.map (shiftWord windowBaseTime),
            fixedEndTime :=
              qAdd st1.fixedEndTime (lockableWords.getLastD dummyParakeetWord).end_time }
          let nextStartSamples : Int := ⌊qMul st2.fixedEndTime cfg.sampleRate⌋
          match rec (jsSliceFrom audio nextStartSamples) with
          | .error e => (.error e, st2, 2)
          | .ok result2 =>
            (.ok (finishIncremental cfg st2 st2.fixedEndTime result2 audio), st2, 2)
        else (.ok (finishIncremental cfg st1 windowBaseTime result audio), st1, 1)
      else (.ok (finishIncremental cfg st1 windowBaseTime result audio), st1, 1)

/-- Loop state of `transcribeBatch`: the session fields it mutates plus the
`processedUpTo` cursor. -/
structure BatchState where
  fixedSentences : List Str
  fixedWords : List ParakeetWord
  processedUpTo : ℚ
deriving DecidableEq, Repr

/-- Batch loop state after the leading `this.reset()`. -/
def initialBatchState : BatchState :=
  { fixedSentences := [], fixedWords := [], processedUpTo := 0 }

/-- One iteration of the `transcribeBatch` `while` loop (lines 403–500 of
`src/stt-streaming.ts`), returning the emitted partial and the next state.
The batch claims concern runs whose recognizer calls succeed, so the
recognizer is embedded as a total function of the audio window. -/
def transcribeBatchStep (cfg : StreamingConfig)
    (rec : AudioBuffer → ParakeetTranscriptionResult)
    (audio : AudioBuffer) (st : BatchState) : PartialTranscription × BatchState :=
  let totalDuration := qDiv (audio.length : ℚ) cfg.sampleRate
  let minimumProgressSeconds := max (mkQ 25 100) (qDiv 1 cfg.sampleRate)
  let windowStart := st.processedUpTo
  let windowEnd := min (qAdd windowStart cfg.maxWindowSeconds) totalDuration
  let windowDuration := qSub windowEnd windowStart
  let windowStartSamples : Int := ⌊qMul windowStart cfg.sampleRate⌋
  let windowEndSamples : Int := ⌊qMul windowEnd cfg.sampleRate⌋
  let audioWindow := jsSlice audio windowStartSamples windowEndSamples
  let result := rec audioWindow
  if windowDuration ≥ cfg.maxWindowSeconds then
    let cutoff := qSub windowDuration cfg.sentenceBufferSeconds
    let lockableWords := result.words.filter (fun w => w.end_time < cutoff)
    if 0 < lockableWords.length then
      let fixedTextChunk := jsTrim (List.intercalate [' '] (lockableWords.map ParakeetWord.text))
      let fixedSentences' :=
        if 0 < fixedTextChunk.length then st.fixedSentences ++ [fixedTextChunk]
        else st.fixedSentences
      let fixedWords' := st.fixedWords ++ lockableWords.map (shiftWord windowStart)
      let processedUpTo0 :=
        qAdd windowStart (lockableWords.getLastD dummyParakeetWord).end_time
      let processedUpTo' :=
        if processedUpTo0 ≤ windowStart
        then min windowEnd (qAdd windowStart minimumProgressSeconds)
        else processedUpTo0
      let activeText := jsTrim (List.intercalate [' ']
        ((result.words.filter (fun w => ¬ w.end_time < cutoff)).map ParakeetWord.text))
      let activeWords := (result.words.filter (fun w => ¬ w.end_time < cutoff)).map
        (shiftWord windowStart)
      ({ fixedText := jsTrim (List.intercalate [' '] fixedSentences'),
         activeText := activeText,
         timestamp := windowEnd,
         isFinal := false,
         words := some (fixedWords' ++ activeWords),
         metadata := some { latencySeconds := result.latencySeconds,
                            audioDurationSeconds := result.audioDurationSeconds,
                            rtf := result.rtf } },
       { fixedSentences := fixedSentences', fixedWords := fixedWords',
         processedUpTo := processedUpTo' })
    else
      let halfText := jsTrim result.text
      let fixedSentences' :=
        if 0 < halfText.length then st.fixedSentences ++ [halfText] else st.fixedSentences
      let processedUpTo0 := qAdd windowStart (qDiv windowDuration 2)
      let processedUpTo' :=
        if processedUpTo0 ≤ windowStart
        then min windowEnd (qAdd windowStart minimumProgressSeconds)
        else processedUpTo0
      ({ fixedText := jsTrim (List.intercalate [' '] fixedSentences'),
         activeText := [],
         timestamp := windowEnd,
         isFinal := false,
         words := some (st.fixedWords ++ result.words.map (shiftWord windowStart)),
         metadata := some { latencySeconds := result.latencySeconds,
                            audioDurationSeconds := result.audioDurationSeconds,
                            rtf := result.rtf } },
       { fixedSentences := fixedSentences', fixedWords := st.fixedWords,
         processedUpTo := processedUpTo' })
  else
    let finalText := jsTrim result.text
    let fixedSentences' :=
      if 0 < finalText.length then st.fixedSentences ++ [finalText] else st.fixedSentences
    let fixedWords' := st.fixedWords ++ result.words.map (shiftWord windowStart)
    ({ fixedText := jsTrim (List.intercalate [' '] fixedSentences'),
       activeText := [],
       timestamp := windowEnd,
       isFinal := true,
       words := some fixedWords',
       metadata := some { latencySeconds := result.latencySeconds,
                          audioDurationSeconds := result.audioDurationSeconds,
                          rtf := result.rtf } },
     { fixedSentences := fixedSentences', fixedWords := fixedWords',
       processedUpTo := windowEnd })

/-- Fuelled run of the `transcribeBatch` loop: the emitted partials, the
final state, and whether the loop guard became false before the fuel ran
out (`transcribeBatch` itself always terminates; the fuel only makes the
loop structurally recursive, and the termination theorem exhibits a
sufficient fuel). -/
def transcribeBatchRun (cfg : StreamingConfig)
    (rec : AudioBuffer → ParakeetTranscriptionResult) (audio : AudioBuffer) :
    Nat → BatchState → List PartialTranscription × BatchState × Bool
  | 0, st =>
    ([], st, decide (¬ st.processedUpTo < qDiv (audio.length : ℚ) cfg.sampleRate))
  | fuel + 1, st =>
    if st.processedUpTo < qDiv (audio.length : ℚ) cfg.sampleRate then
      let out := transcribeBatchStep cfg rec audio st
      let rest := transcribeBatchRun cfg rec audio fuel out.2
      (out.1 :: rest.1, rest.2)
    else ([], st, true)

/-- Embedding of `transcribeBatchLatest`: drain the batch generator and
return the last emitted partial, or the empty fallback when nothing was
emitted. -/
def transcribeBatchLatest (cfg : StreamingConfig)
    (rec : AudioBuffer → ParakeetTranscriptionResult) (audio : AudioBuffer)
    (fuel : Nat) : PartialTranscription :=
  ((transcribeBatchRun cfg rec audio fuel initialBatchState).1).getLastD
    { fixedText := [], activeText := [],
      timestamp := qDiv (audio.length : ℚ) cfg.sampleRate,
      isFinal := false, words := none, metadata := none }

theorem dropWhile_eq_self_of_head {p : Char → Bool} {s : Str}
    (h : ∀ c, s.head? = some c → ¬ p c) : s.dropWhile p = s := by
  cases s with
  | nil => rfl
  | cons a t =>
    have ha := h a rfl
    simp [List.dropWhile_cons, ha]

theorem head_dropWhile_not {p : Char → Bool} {s : Str} {c : Char}
    (h : (s.dropWhile p).head? = some c) : ¬ p c := by
  induction s with
  | nil => simp at h
  | cons a t ih =>
    by_cases hp : p a
    · rw [List.dropWhile_cons, if_pos hp] at h
      exact ih h
    · rw [List.dropWhile_cons, if_neg hp] at h
      simp at h
      exact h ▸ hp

theorem getLast?_append_right {α : Type} (l₁ : List α) {l₂ : List α} (h : l₂ ≠ []) :
    (l₁ ++ l₂).getLast? = l₂.getLast? := by
  induction l₂ using List.reverseRecOn with
  | nil => exact absurd rfl h
  | append_singleton ys y ih =>
    rw [← List.append_assoc, List.getLast?_concat, List.getLast?_concat]

theorem jsTrim_eq_self {s : Str}
    (hhead : ∀ c, s.head? = some c → ¬ isJsWs c)
    (hlast : ∀ c, s.getLast? = some c → ¬ isJsWs c) : jsTrim s = s := by
  unfold jsTrim
  rw [dropWhile_eq_self_of_head hhead]
  rw [dropWhile_eq_self_of_head (by
    intro c hc
    rw [List.head?_reverse] at hc
    exact hlast c hc)]
  exact List.reverse_reverse s

theorem getLast_jsTrim_not_ws {s : Str} {c : Char}
    (h : (jsTrim s).getLast? = some c) : ¬ isJsWs c := by
  unfold jsTrim at h
  rw [List.getLast?_reverse] at h
  exact head_dropWhile_not h

theorem head_jsTrim_not_ws {s : Str} {c : Char}
    (h : (jsTrim s).head? = some c) : ¬ isJsWs c := by
  unfold jsTrim at h
  rw [List.head?_reverse] at h
  set X := (s.dropWhile isJsWs).reverse with hX
  have hsuf : X.dropWhile isJsWs <:+ X := List.dropWhile_suffix _
  obtain ⟨t, ht⟩ := hsuf
  have hne : X.dropWhile isJsWs ≠ [] := by
    intro hnil
    rw [hnil] at h
    simp at h
  have h2 : (X.dropWhile isJsWs).getLast? = X.getLast? := by
    conv_rhs => rw [← ht]
    rw [getLast?_append_right t hne]
  rw [h2, hX, List.getLast?_reverse] at h
  exact head_dropWhile_not h

theorem jsTrim_idem (s : Str) : jsTrim (jsTrim s) = jsTrim s :=
  jsTrim_eq_self (fun _ hc => head_jsTrim_not_ws hc) (fun _ hc => getLast_jsTrim_not_ws hc)

theorem jsTrim_nil : jsTrim ([] : Str) = [] := rfl

theorem intercalate_space_cons₂ (a b : Str) (t : List Str) :
    List.intercalate [' '] (a :: b :: t) = a ++ ' ' :: List.intercalate [' '] (b :: t) := by
  simp only [List.intercalate, List.intersperse]
  simp

theorem intercalate_single (a : Str) : List.intercalate [' '] [a] = a := by
  simp [List.intercalate, List.intersperse]

theorem head_intercalate_wf (L : List Str)
    (hwf : ∀ s ∈ L, jsTrim s = s ∧ s ≠ []) :
    ∀ c, (List.intercalate [' '] L).head? = some c → ¬ isJsWs c := by
  intro c hc
  cases L with
  | nil => simp [List.intercalate] at hc
  | cons a t =>
    have ha := hwf a (by simp)
    have haeq : (List.intercalate [' '] (a :: t)).head? = a.head? := by
      cases t with
      | nil => rw [intercalate_single]
      | cons b t2 =>
        rw [intercalate_space_cons₂]
        cases a with
        | nil => exact absurd rfl ha.2
        | cons x xs => rfl
    rw [haeq] at hc
    rw [← ha.1] at hc
    exact head_jsTrim_not_ws hc

theorem getLast_intercalate_wf (L : List Str)
    (hwf : ∀ s ∈ L, jsTrim s = s ∧ s ≠ []) :
    ∀ c, (List.intercalate [' '] L).getLast? = some c → ¬ isJsWs c := by
  intro c hc
  induction L with
  | nil => simp [List.intercalate] at hc
  | cons a t ih =>
    cases t with
    | nil =>
      rw [intercalate_single] at hc
      have ha := hwf a (by simp)
      rw [← ha.1] at hc
      exact getLast_jsTrim_not_ws hc
    | cons b t2 =>
      rw [intercalate_space_cons₂] at hc
      have hne : List.intercalate [' '] (b :: t2) ≠ [] := by
        cases t2 with
        | nil =>
          rw [intercalate_single]
          exact (hwf b (by simp)).2
        | cons d t3 =>
          rw [intercalate_space_cons₂]
          intro hcontra
          exact absurd hcontra (by simp [(hwf b (by simp)).2])
      have hne2 : (' ' :: List.intercalate [' '] (b :: t2)) ≠ [] := by simp
      rw [getLast?_append_right a hne2] at hc
      have : (' ' :: List.intercalate [' '] (b :: t2)).getLast? =
          (List.intercalate [' '] (b :: t2)).getLast? := by
        cases hL : List.intercalate [' '] (b :: t2) with
        | nil => exact absurd hL hne
        | cons y ys => simp
      rw [this] at hc
      exact ih (fun s hs => hwf s (by simp [hs])) hc

/-- Well-formedness of the stored sentences: each is trimmed and non-empty
(every pushed sentence is a trimmed string checked for truthiness). -/
def SentencesWF (st : EngineState) : Prop :=
  ∀ s ∈ st.fixedSentences, jsTrim s = s ∧ s ≠ []

theorem jsTrim_intercalate_wf (L : List Str)
    (hwf : ∀ s ∈ L, jsTrim s = s ∧ s ≠ []) :
    jsTrim (List.intercalate [' '] L) = List.intercalate [' '] L :=
  jsTrim_eq_self (head_intercalate_wf L hwf) (getLast_intercalate_wf L hwf)

instance exceptDecEq {e a : Type} [DecidableEq e] [DecidableEq a] :
    DecidableEq (Except e a) := fun x y =>
  match x, y with
  | .ok v, .ok w =>
    if h : v = w then .isTrue (by rw [h]) else .isFalse (fun hc => h (Except.ok.inj hc))
  | .error v, .error w =>
    if h : v = w then .isTrue (by rw [h]) else .isFalse (fun hc => h (Except.error.inj hc))
  | .ok _, .error _ => .isFalse (fun hc => Except.noConfusion hc)
  | .error _, .ok _ => .isFalse (fun hc => Except.noConfusion hc)

/-- Configuration used by the error-isolation counterexample. -/
def errorCaseConfig : StreamingConfig :=
  { sampleRate := 2, maxWindowSeconds := 1, sentenceBufferSeconds := mkQ 25 100 }

/-- Recognizer that succeeds on the full two-sample window (returning one
lockable word) and throws on the shorter re-run window. -/
def failingSecondCallRecognizer (s : AudioBuffer) :
    Except Str ParakeetTranscriptionResult :=
  if s.length = 2 then
    .ok { text := ['a'], words := [{ text := ['a'], start_time := 0, end_time := mkQ 5 10 }],
          latencySeconds := 0, audioDurationSeconds := 1, rtf := 0 }
  else .error (r"boom").toList

/-- C3 counterexample: when the recognizer's second call (the re-run after
locking) throws, the error propagates to the caller while
`fixedSentences`, `fixedWords` and `fixedEndTime` already carry the
locking step's mutations, so they do not hold their pre-call values. -/
theorem transcribeIncremental_error_mutation_counterexample :
    transcribeIncremental errorCaseConfig failingSecondCallRecognizer
        initialEngineState [0, 0]
      = (.error (r"boom").toList,
         { fixedSentences := [['a']],
           fixedWords := [{ text := ['a'], start_time := 0, end_time := mkQ 5 10 }],
           fixedEndTime := mkQ 5 10,
           lastTranscribedLength := 2 }, 2)
    ∧ (transcribeIncremental errorCaseConfig failingSecondCallRecognizer
        initialEngineState [0, 0]).2.1.fixedEndTime ≠ initialEngineState.fixedEndTime := by
  refine ⟨by decide, by decide⟩

/-- C3 (amended): a failed `transcribeIncremental` call never removes
locked state — `fixedWords` and `fixedSentences` are only appended to, and
when nothing was appended `fixedEndTime` is unchanged — and a failure in
the first recognizer call (on the window starting at `fixedEndTime`)
leaves all session fields except `lastTranscribedLength` unchanged. -/
theorem transcribeIncremental_error_isolation (cfg : StreamingConfig)
    (rec : AudioBuffer → Except Str ParakeetTranscriptionResult)
    (st : EngineState) (audio : AudioBuffer) (e : Str)
    (herr : (transcribeIncremental cfg rec st audio).1 = .error e) :
    (∃ ws ss,
      (transcribeIncremental cfg rec st audio).2.1.fixedWords = st.fixedWords ++ ws ∧
      (transcribeIncremental cfg rec st audio).2.1.fixedSentences = st.fixedSentences ++ ss ∧
      (ws = [] → ss = [] ∧
        (transcribeIncremental cfg rec st audio).2.1.fixedEndTime = st.fixedEndTime)) ∧
    (∀ e₀, rec (jsSliceFrom audio ⌊qMul st.fixedEndTime cfg.sampleRate⌋) = .error e₀ →
      (transcribeIncremental cfg rec st audio).2.1
        = { st with lastTranscribedLength := audio.length }) := by
  simp only [transcribeIncremental] at herr ⊢
  revert herr
  split
  · intro herr
    exact absurd herr (by simp)
  · split
    · intro herr
      exact ⟨⟨[], [], by simp, by simp, fun _ => ⟨rfl, rfl⟩⟩, fun e₀ _ => rfl⟩
    · rename_i result heq
      split
      · split
        · rename_i hcond hlock
          split
          · intro herr
            refine ⟨⟨_, (if 0 < (jsTrim (List.intercalate [' ']
                (List.map ParakeetWord.text (List.filter
                  (fun w => decide (w.end_time < qSub
                    (qDiv (↑(jsSliceFrom audio ⌊qMul st.fixedEndTime cfg.sampleRate⌋).length)
                      cfg.sampleRate) cfg.sentenceBufferSeconds)) result.words)))).length
                then [jsTrim (List.intercalate [' ']
                  (List.map ParakeetWord.text (List.filter
                    (fun w => decide (w.end_time < qSub
                      (qDiv (↑(jsSliceFrom audio ⌊qMul st.fixedEndTime cfg.sampleRate⌋).length)
                        cfg.sampleRate) cfg.sentenceBufferSeconds)) result.words)))]
                else []), rfl, ?_, ?_⟩, fun e₀ hcontra => ?_⟩
            · split
              · rfl
              · simp
            · intro hws
              rw [List.map_eq_nil_iff] at hws
              rw [hws] at hlock
              simp at hlock
            · rw [heq] at hcontra
              exact Except.noConfusion hcontra
          · intro herr
            exact absurd herr (by simp)
        · intro herr
          exact absurd herr (by simp)
      · intro herr
        exact absurd herr (by simp)

/-- Witness for `transcribeIncremental_error_isolation` at the concrete
failing-second-call scenario. -/
theorem transcribeIncremental_error_isolation_witness :
    (transcribeIncremental errorCaseConfig failingSecondCallRecognizer
        initialEngineState [0, 0]).1 = .error (r"boom").toList ∧
    (∃ ws ss,
      (transcribeIncremental errorCaseConfig failingSecondCallRecognizer
          initialEngineState [0, 0]).2.1.fixedWords
        = initialEngineState.fixedWords ++ ws ∧
      (transcribeIncremental errorCaseConfig failingSecondCallRecognizer
          initialEngineState [0, 0]).2.1.fixedSentences
        = initialEngineState.fixedSentences ++ ss ∧
      (ws = [] → ss = [] ∧
        (transcribeIncremental errorCaseConfig failingSecondCallRecognizer
            initialEngineState [0, 0]).2.1.fixedEndTime
          = initialEngineState.fixedEndTime)) :=
  ⟨by decide,
   (transcribeIncremental_error_isolation errorCaseConfig failingSecondCallRecognizer
      initialEngineState [0, 0] ((r"boom").toList) (by decide)).1⟩

/-- Recognizer used by the repeat-call counterexample: always succeeds with
non-empty text. -/
def constantHiRecognizer (_ : AudioBuffer) : Except Str ParakeetTranscriptionResult :=
  .ok { text := (r"hi").toList, words := [], latencySeconds := 0,
        audioDurationSeconds := 1, rtf := 0 }

/-- Configuration for the repeat-call scenario. -/
def repeatCallConfig : StreamingConfig := { sampleRate := 2 }

/-- C7 counterexample: the first call on a fresh two-sample buffer returns
the recognizer text as `activeText`, while the second call with the same
buffer takes the early-return path and returns empty `activeText`, so the
two calls do not return the same `activeText`. -/
theorem transcribeIncremental_repeat_counterexample :
    ((transcribeIncremental repeatCallConfig constantHiRecognizer
        initialEngineState [0, 0]).1.toOption.map PartialTranscription.activeText
      = some (r"hi").toList) ∧
    ((transcribeIncremental repeatCallConfig constantHiRecognizer
        (transcribeIncremental repeatCallConfig constantHiRecognizer
          initialEngineState [0, 0]).2.1 [0, 0]).1.toOption.map
            PartialTranscription.activeText
      = some []) ∧
    (r"hi").toList ≠ ([] : Str) := by
  refine ⟨by decide, by decide, by decide⟩

/-- After a successful `transcribeIncremental` call the returned state still
has trimmed non-empty locked sentences, satisfies the early-return guard for
a repeat call on the same buffer, and determines the emitted `fixedText`. -/
theorem transcribeIncremental_ok_state (cfg : StreamingConfig)
    (rec : AudioBuffer → Except Str ParakeetTranscriptionResult)
    (st : EngineState) (audio : AudioBuffer) (p₁ : PartialTranscription)
    (hwf : SentencesWF st)
    (hok : (transcribeIncremental cfg rec st audio).1 = .ok p₁) :
    SentencesWF (transcribeIncremental cfg rec st audio).2.1 ∧
    ((audio.length : ℚ) < qMul cfg.sampleRate (mkQ 5 10)
      ∨ audio.length = (transcribeIncremental cfg rec st audio).2.1.lastTranscribedLength) ∧
    p₁.fixedText
      = List.intercalate [' ']
          (transcribeIncremental cfg rec st audio).2.1.fixedSentences := by
  have hpush : ∀ (sentences : List Str) (t : Str),
      (∀ s ∈ sentences, jsTrim s = s ∧ s ≠ []) →
      (∀ s ∈ (if 0 < (jsTrim t).length then sentences ++ [jsTrim t] else sentences),
        jsTrim s = s ∧ s ≠ []) := by
    intro sentences t hs s hmem
    split at hmem
    · rcases List.mem_append.mp hmem with h1 | h2
      · exact hs s h1
      · obtain rfl := List.mem_singleton.mp h2
        refine ⟨jsTrim_idem t, ?_⟩
        rename_i hlen
        intro hnil
        rw [hnil] at hlen
        simp at hlen
    · exact hs s hmem
  simp only [transcribeIncremental] at hok ⊢
  revert hok
  split
  · rename_i hguard
    intro hok
    obtain rfl := Except.ok.inj hok
    exact ⟨hwf, hguard, rfl⟩
  · rename_i hguard
    split
    · intro hok
      exact absurd hok (by simp)
    · rename_i result heq
      split
      · split
        · split
          · intro hok
            exact absurd hok (by simp)
          · rename_i result2 heq2
            intro hok
            obtain rfl := Except.ok.inj hok
            refine ⟨hpush st.fixedSentences _ hwf, Or.inr rfl, ?_⟩
            simp only [finishIncremental]
            exact jsTrim_intercalate_wf _ (hpush st.fixedSentences _ hwf)
        · intro hok
          obtain rfl := Except.ok.inj hok
          refine ⟨hwf, Or.inr rfl, ?_⟩
          simp only [finishIncremental]
          exact jsTrim_intercalate_wf _ hwf
      · intro hok
        obtain rfl := Except.ok.inj hok
        refine ⟨hwf, Or.inr rfl, ?_⟩
        simp only [finishIncremental]
        exact jsTrim_intercalate_wf _ hwf

/-- C7 (amended): calling `transcribeIncremental` a second time with the
unchanged buffer makes no recognizer call and returns the same `fixedText`
as the first call together with empty `activeText` (the first call's
possibly non-empty `activeText` is not reproduced). -/
theorem transcribeIncremental_second_call_no_retranscribe (cfg : StreamingConfig)
    (rec : AudioBuffer → Except Str ParakeetTranscriptionResult)
    (st : EngineState) (audio : AudioBuffer) (p₁ : PartialTranscription)
    (hwf : SentencesWF st)
    (hok : (transcribeIncremental cfg rec st audio).1 = .ok p₁) :
    transcribeIncremental cfg rec
        ((transcribeIncremental cfg rec st audio).2.1) audio
      = (.ok { fixedText := p₁.fixedText, activeText := [],
               timestamp := qDiv (audio.length : ℚ) cfg.sampleRate,
               isFinal := false,
               words := some ((transcribeIncremental cfg rec st audio).2.1.fixedWords),
               metadata := none },
         (transcribeIncremental cfg rec st audio).2.1, 0) := by
  obtain ⟨hwf', hguard', htext⟩ :=
    transcribeIncremental_ok_state cfg rec st audio p₁ hwf hok
  revert hwf' hguard' htext
  generalize (transcribeIncremental cfg rec st audio).2.1 = st'
  intro hwf' hguard' htext
  simp only [transcribeIncremental]
  rw [if_pos hguard', htext]

/-- Witness for `transcribeIncremental_second_call_no_retranscribe` at the
constant-recognizer scenario (the recognizer-call count of the second call
is the `0` in the equation's right-hand side). -/
theorem transcribeIncremental_second_call_witness :
    SentencesWF initialEngineState ∧
    ((transcribeIncremental repeatCallConfig constantHiRecognizer
        initialEngineState [0, 0]).1
      = .ok ((transcribeIncremental repeatCallConfig constantHiRecognizer
          initialEngineState [0, 0]).1.toOption.getD
            { fixedText := [], activeText := [], timestamp := 0, isFinal := false })) ∧
    transcribeIncremental repeatCallConfig constantHiRecognizer
        ((transcribeIncremental repeatCallConfig constantHiRecognizer
          initialEngineState [0, 0]).2.1) [0, 0]
      = (.ok { fixedText := ((transcribeIncremental repeatCallConfig constantHiRecognizer
                initialEngineState [0, 0]).1.toOption.getD
                  { fixedText := [], activeText := [], timestamp := 0,
                    isFinal := false }).fixedText,
               activeText := [],
               timestamp := qDiv ((2 : Nat) : ℚ) repeatCallConfig.sampleRate,
               isFinal := false,
               words := some ((transcribeIncremental repeatCallConfig constantHiRecognizer
                 initialEngineState [0, 0]).2.1.fixedWords),
               metadata := none },
         (transcribeIncremental repeatCallConfig constantHiRecognizer
           initialEngineState [0, 0]).2.1, 0) :=
  ⟨fun s hs => absurd hs (List.not_mem_nil s), by decide,
   transcribeIncremental_second_call_no_retranscribe repeatCallConfig constantHiRecognizer
     initialEngineState [0, 0] _ (fun s hs => absurd hs (List.not_mem_nil s)) (by decide)⟩

/-- Configuration exhibiting a completed batch run whose last emission is
not final: the window exactly covers the remaining audio and the forced
minimum advance lands exactly on the end of the buffer. -/
def shortWindowConfig : StreamingConfig :=
  { sampleRate := 8, maxWindowSeconds := mkQ 25 100, sentenceBufferSeconds := mkQ 1 10 }

/-- Recognizer returning a single zero-duration word at the window origin. -/
def zeroEndWordRecognizer (_ : AudioBuffer) : ParakeetTranscriptionResult :=
  { text := (r"a").toList,
    words := [{ text := (r"a").toList, start_time := 0, end_time := 0 }],
    latencySeconds := 0, audioDurationSeconds := mkQ 25 100, rtf := 0 }

/-- C6 counterexample: a two-sample buffer (non-empty) with an
always-succeeding recognizer on which the batch loop completes, yet its
single (hence last) emitted partial has `isFinal = false`: the full-window
branch's forced minimum advance reaches the end of the audio, so the
final-chunk branch never runs. -/
theorem transcribeBatch_nonfinal_last_counterexample :
    (transcribeBatchRun shortWindowConfig zeroEndWordRecognizer [0, 0]
        2 initialBatchState).2.2 = true ∧
    ((transcribeBatchRun shortWindowConfig zeroEndWordRecognizer [0, 0]
        2 initialBatchState).1.map PartialTranscription.isFinal = [false]) ∧
    0 < ([0, 0] : AudioBuffer).length := by
  refine ⟨by decide, by decide, by decide⟩

/-- In a single batch iteration, a final emission can only come from the
final-chunk branch, whose window necessarily ends at the full duration of
the audio. -/
theorem transcribeBatchStep_final_timestamp (cfg : StreamingConfig)
    (rec : AudioBuffer → ParakeetTranscriptionResult) (audio : AudioBuffer)
    (st : BatchState)
    (hfin : (transcribeBatchStep cfg rec audio st).1.isFinal = true) :
    (transcribeBatchStep cfg rec audio st).1.timestamp
      = qDiv (audio.length : ℚ) cfg.sampleRate := by
  simp only [transcribeBatchStep] at hfin ⊢
  revert hfin
  split
  · split
    · intro hfin
      simp at hfin
    · intro hfin
      simp at hfin
  · rename_i hlt
    intro _
    rw [qSub_eq, qAdd_eq] at hlt
    have hmin : min (st.processedUpTo + cfg.maxWindowSeconds)
        (qDiv ((audio.length : ℚ)) cfg.sampleRate)
        = qDiv ((audio.length : ℚ)) cfg.sampleRate := by
      rcases le_total (st.processedUpTo + cfg.maxWindowSeconds)
          (qDiv ((audio.length : ℚ)) cfg.sampleRate) with hle | hle
      · exfalso
        rw [min_eq_left hle] at hlt
        exact hlt (by linarith)
      · exact min_eq_right hle
    show min (qAdd st.processedUpTo cfg.maxWindowSeconds) _ = _
    rw [qAdd_eq, hmin]

/-- C6 (amended): in any batch run, every emitted partial carrying
`isFinal = true` has its timestamp equal to the buffer's full duration
(the spec's concrete example is the witness; the unqualified claim that
the last emission is always final is refuted by the counterexample). -/
theorem transcribeBatch_final_emission (cfg : StreamingConfig)
    (rec : AudioBuffer → ParakeetTranscriptionResult) (audio : AudioBuffer)
    (fuel : Nat) (st : BatchState) (p : PartialTranscription)
    (hmem : p ∈ (transcribeBatchRun cfg rec audio fuel st).1)
    (hfin : p.isFinal = true) :
    p.timestamp = qDiv (audio.length : ℚ) cfg.sampleRate := by
  induction fuel generalizing st with
  | zero =>
    simp [transcribeBatchRun] at hmem
  | succ n ih =>
    simp only [transcribeBatchRun] at hmem
    revert hmem
    split
    · intro hmem
      rcases List.mem_cons.mp hmem with rfl | htail
      · exact transcribeBatchStep_final_timestamp cfg rec audio st hfin
      · exact ih _ htail
    · intro hmem
      simp at hmem

/-- The spec's concrete batch example: `sampleRate = 10`,
`maxWindowSeconds = 6`, `sentenceBufferSeconds = 2`. -/
def batchExampleConfig : StreamingConfig :=
  { sampleRate := 10, maxWindowSeconds := 6, sentenceBufferSeconds := 2 }

/-- Always-succeeding recognizer for the batch example. -/
def constantBatchRecognizer (_ : AudioBuffer) : ParakeetTranscriptionResult :=
  { text := (r"hi").toList, words := [], latencySeconds := 0,
    audioDurationSeconds := 2, rtf := 0 }

/-- Twenty zero samples: two seconds of audio at 10 Hz. -/
def batchExampleAudio : AudioBuffer := List.replicate 20 0

/-- The partial returned by `transcribeBatchLatest` on the example. -/
def batchExamplePartial : PartialTranscription :=
  transcribeBatchLatest batchExampleConfig constantBatchRecognizer batchExampleAudio 2

/-- Witness for `transcribeBatch_final_emission` at the spec's example:
the 20-sample 10 Hz buffer yields a final last partial with timestamp 2. -/
theorem transcribeBatch_final_emission_witness :
    batchExamplePartial ∈ (transcribeBatchRun batchExampleConfig
        constantBatchRecognizer batchExampleAudio 2 initialBatchState).1 ∧
    batchExamplePartial.isFinal = true ∧
    batchExamplePartial.timestamp
      = qDiv (batchExampleAudio.length : ℚ) batchExampleConfig.sampleRate ∧
    batchExamplePartial.timestamp = 2 :=
  ⟨by decide, by decide,
   transcribeBatch_final_emission batchExampleConfig constantBatchRecognizer
     batchExampleAudio 2 initialBatchState batchExamplePartial (by decide) (by decide),
   by decide⟩

/-- A configuration whose window (0.25 s) is shorter than its sample
period (0.5 s at 2 Hz). -/
def shortSampleConfig : StreamingConfig :=
  { sampleRate := 2, maxWindowSeconds := mkQ 25 100, sentenceBufferSeconds := mkQ 1 10 }

/-- C5 counterexample: with a 2 Hz sample rate and a 0.25 s window, a
recognizer whose words end at time 0 puts the first batch iteration into
the forced-progress branch (the locking rule would advance the cursor by
0), yet the forced advance is 0.25 s, strictly less than the 0.5 s sample
period, because the advance is capped by the window end. -/
theorem transcribeBatch_forced_advance_counterexample :
    qAdd initialBatchState.processedUpTo
        (((zeroEndWordRecognizer (jsSlice ([0, 0, 0, 0] : AudioBuffer)
              ⌊qMul initialBatchState.processedUpTo shortSampleConfig.sampleRate⌋
              ⌊qMul (min (qAdd initialBatchState.processedUpTo
                    shortSampleConfig.maxWindowSeconds)
                  (qDiv ((([0, 0, 0, 0] : AudioBuffer).length : ℚ))
                    shortSampleConfig.sampleRate))
                shortSampleConfig.sampleRate⌋)).words.filter
            (fun w => w.end_time <
              qSub (qSub (min (qAdd initialBatchState.processedUpTo
                    shortSampleConfig.maxWindowSeconds)
                  (qDiv ((([0, 0, 0, 0] : AudioBuffer).length : ℚ))
                    shortSampleConfig.sampleRate))
                  initialBatchState.processedUpTo)
                shortSampleConfig.sentenceBufferSeconds)).getLastD
          dummyParakeetWord).end_time
      ≤ initialBatchState.processedUpTo ∧
    (transcribeBatchStep shortSampleConfig zeroEndWordRecognizer
        ([0, 0, 0, 0] : AudioBuffer) initialBatchState).2.processedUpTo
      = mkQ 25 100 ∧
    qSub (transcribeBatchStep shortSampleConfig zeroEndWordRecognizer
        ([0, 0, 0, 0] : AudioBuffer) initialBatchState).2.processedUpTo
        initialBatchState.processedUpTo
      < qDiv 1 shortSampleConfig.sampleRate := by
  refine ⟨by decide, by decide, by decide⟩

/-- Cursor advance contributed by the lockable words of the recognizer
result on the sample window `[a, b)` in the full-window regime (where the
window duration equals `maxWindowSeconds`). -/
def cellAdv (cfg : StreamingConfig)
    (rec : AudioBuffer → ParakeetTranscriptionResult) (audio : AudioBuffer)
    (a b : Nat) : ℚ :=
  (((rec ((audio.take b).drop a)).words.filter
      (fun w => w.end_time <
        qSub cfg.maxWindowSeconds cfg.sentenceBufferSeconds)).getLastD
    dummyParakeetWord).end_time

/-- The finite set of per-iteration cursor advances a batch run can make:
the half-window advance, the forced minimum advance, and every positive
lockable-word advance over the finitely many possible sample windows. -/
def epsSet (cfg : StreamingConfig)
    (rec : AudioBuffer → ParakeetTranscriptionResult) (audio : AudioBuffer) :
    Finset ℚ :=
  {qDiv cfg.maxWindowSeconds 2,
   min cfg.maxWindowSeconds (max (mkQ 25 100) (qDiv 1 cfg.sampleRate))}
    ∪ (((Finset.range (audio.length + 1)).product
          (Finset.range (audio.length + 1))).image
        (fun ab => cellAdv cfg rec audio ab.1 ab.2)).filter (fun q => 0 < q)

theorem epsSet_nonempty (cfg : StreamingConfig)
    (rec : AudioBuffer → ParakeetTranscriptionResult) (audio : AudioBuffer) :
    (epsSet cfg rec audio).Nonempty :=
  ⟨qDiv cfg.maxWindowSeconds 2, by simp [epsSet]⟩

/-- The least advance a batch iteration can make before the cursor reaches
the end of the audio. -/
def epsMin (cfg : StreamingConfig)
    (rec : AudioBuffer → ParakeetTranscriptionResult) (audio : AudioBuffer) : ℚ :=
  (epsSet cfg rec audio).min' (epsSet_nonempty cfg rec audio)

theorem epsMin_le_of_mem {cfg : StreamingConfig}
    {rec : AudioBuffer → ParakeetTranscriptionResult} {audio : AudioBuffer}
    {x : ℚ} (hx : x ∈ epsSet cfg rec audio) : epsMin cfg rec audio ≤ x :=
  Finset.min'_le _ _ hx

theorem epsMin_pos (cfg : StreamingConfig)
    (rec : AudioBuffer → ParakeetTranscriptionResult) (audio : AudioBuffer)
    (hr : 0 < cfg.sampleRate) (hW : 0 < cfg.maxWindowSeconds) :
    0 < epsMin cfg rec audio := by
  have hmem := Finset.min'_mem (epsSet cfg rec audio) (epsSet_nonempty cfg rec audio)
  unfold epsMin epsSet
  simp only [epsSet, Finset.mem_union, Finset.mem_insert, Finset.mem_singleton,
    Finset.mem_filter] at hmem
  rcases hmem with (heq | heq) | ⟨-, hpos⟩
  · rw [heq, qDiv_eq]
    linarith
  · rw [heq]
    refine lt_min hW (lt_of_lt_of_le (by decide : (0 : ℚ) < mkQ 25 100) (le_max_left _ _))
  · exact hpos

theorem jsSliceIdx_nonneg {len : Nat} {i : Int} (h : 0 ≤ i) :
    jsSliceIdx len i = min i.toNat len := by
  rw [jsSliceIdx, if_neg (not_lt.mpr h)]

/-- A batch iteration either moves the cursor to the full duration of the
audio (final-chunk branch) or advances it by at least `epsMin`. -/
theorem transcribeBatchStep_advance (cfg : StreamingConfig)
    (rec : AudioBuffer → ParakeetTranscriptionResult) (audio : AudioBuffer)
    (st : BatchState) (hr : 0 < cfg.sampleRate) (hW : 0 < cfg.maxWindowSeconds)
    (hS : 0 ≤ st.processedUpTo) :
    (transcribeBatchStep cfg rec audio st).2.processedUpTo
        = qDiv ((audio.length : ℚ)) cfg.sampleRate
      ∨ qAdd st.processedUpTo (epsMin cfg rec audio)
          ≤ (transcribeBatchStep cfg rec audio st).2.processedUpTo := by
  simp only [transcribeBatchStep]
  split
  · rename_i hd
    have hwE : min (qAdd st.processedUpTo cfg.maxWindowSeconds)
        (qDiv ((audio.length : ℚ)) cfg.sampleRate)
        = qAdd st.processedUpTo cfg.maxWindowSeconds := by
      rw [ge_iff_le, qSub_eq, qAdd_eq] at hd
      rw [qAdd_eq]
      rcases le_total (st.processedUpTo + cfg.maxWindowSeconds)
          (qDiv ((audio.length : ℚ)) cfg.sampleRate) with h1 | h1
      · exact min_eq_left h1
      · rw [min_eq_right h1] at hd ⊢
        linarith
    rw [hwE]
    have hdur : qSub (qAdd st.processedUpTo cfg.maxWindowSeconds) st.processedUpTo
        = cfg.maxWindowSeconds := by
      rw [qSub_eq, qAdd_eq]
      ring
    rw [hdur]
    have hi : (0 : Int) ≤ ⌊qMul st.processedUpTo cfg.sampleRate⌋ := by
      rw [qMul_eq]
      exact Int.floor_nonneg.mpr (mul_nonneg hS (le_of_lt hr))
    have hj : (0 : Int)
        ≤ ⌊qMul (qAdd st.processedUpTo cfg.maxWindowSeconds) cfg.sampleRate⌋ := by
      rw [qMul_eq, qAdd_eq]
      exact Int.floor_nonneg.mpr (mul_nonneg (by linarith) (le_of_lt hr))
    simp only [jsSlice, jsSliceIdx_nonneg hi, jsSliceIdx_nonneg hj]
    set a' := min (⌊qMul st.processedUpTo cfg.sampleRate⌋).toNat audio.length with ha'
    set b' := min (⌊qMul (qAdd st.processedUpTo cfg.maxWindowSeconds)
        cfg.sampleRate⌋).toNat audio.length with hb'
    have ha'mem : a' ∈ Finset.range (audio.length + 1) :=
      Finset.mem_range.mpr (Nat.lt_succ_of_le (min_le_right _ _))
    have hb'mem : b' ∈ Finset.range (audio.length + 1) :=
      Finset.mem_range.mpr (Nat.lt_succ_of_le (min_le_right _ _))
    split
    · rename_i hlock
      set e := (((rec ((audio.take b').drop a')).words.filter
          (fun w => w.end_time <
            qSub cfg.maxWindowSeconds cfg.sentenceBufferSeconds)).getLastD
          dummyParakeetWord).end_time with he
      by_cases hforce : qAdd st.processedUpTo e ≤ st.processedUpTo
      · rw [if_pos hforce]
        right
        have hmem2 : min cfg.maxWindowSeconds
            (max (mkQ 25 100) (qDiv 1 cfg.sampleRate)) ∈ epsSet cfg rec audio := by
          simp [epsSet]
        have hle := epsMin_le_of_mem hmem2
        have h1 := min_le_left cfg.maxWindowSeconds
          (max (mkQ 25 100) (qDiv 1 cfg.sampleRate))
        have h2 := min_le_right cfg.maxWindowSeconds
          (max (mkQ 25 100) (qDiv 1 cfg.sampleRate))
        show qAdd st.processedUpTo (epsMin cfg rec audio)
          ≤ min (qAdd st.processedUpTo cfg.maxWindowSeconds)
              (qAdd st.processedUpTo (max (mkQ 25 100) (qDiv 1 cfg.sampleRate)))
        rw [qAdd_eq, qAdd_eq, qAdd_eq]
        refine le_min (by linarith) (by linarith)
      · rw [if_neg hforce]
        right
        have hepos : 0 < e := by
          rw [qAdd_eq] at hforce
          push_neg at hforce
          linarith
        have hmem3 : cellAdv cfg rec audio a' b' ∈ epsSet cfg rec audio := by
          simp only [epsSet, Finset.mem_union, Finset.mem_filter, Finset.mem_image]
          refine Or.inr ⟨⟨(a', b'), ?_, rfl⟩, hepos⟩
          exact Finset.mem_product.mpr ⟨ha'mem, hb'mem⟩
        have hle : epsMin cfg rec audio ≤ e := by
          rw [he]
          exact epsMin_le_of_mem hmem3
        show qAdd st.processedUpTo (epsMin cfg rec audio) ≤ qAdd st.processedUpTo e
        rw [qAdd_eq, qAdd_eq]
        linarith
    · rename_i hnolock
      by_cases hforce : qAdd st.processedUpTo (qDiv cfg.maxWindowSeconds 2)
          ≤ st.processedUpTo
      · exfalso
        rw [qAdd_eq, qDiv_eq] at hforce
        linarith
      · rw [if_neg hforce]
        right
        have hmem1 : qDiv cfg.maxWindowSeconds 2 ∈ epsSet cfg rec audio := by
          simp [epsSet]
        have hle := epsMin_le_of_mem hmem1
        show qAdd st.processedUpTo (epsMin cfg rec audio)
          ≤ qAdd st.processedUpTo (qDiv cfg.maxWindowSeconds 2)
        rw [qAdd_eq, qAdd_eq]
        linarith
  · rename_i hd
    left
    show min (qAdd st.processedUpTo cfg.maxWindowSeconds)
        (qDiv ((audio.length : ℚ)) cfg.sampleRate)
      = qDiv ((audio.length : ℚ)) cfg.sampleRate
    rw [ge_iff_le, qSub_eq, qAdd_eq] at hd
    rw [qAdd_eq]
    rcases le_total (st.processedUpTo + cfg.maxWindowSeconds)
        (qDiv ((audio.length : ℚ)) cfg.sampleRate) with h1 | h1
    · exfalso
      rw [min_eq_left h1] at hd
      exact hd (by linarith)
    · exact min_eq_right h1

/-- With fuel `n + 1`, the batch loop completes from any state whose
remaining audio is at most `n` minimal advances. -/
theorem transcribeBatchRun_complete (cfg : StreamingConfig)
    (rec : AudioBuffer → ParakeetTranscriptionResult) (audio : AudioBuffer)
    (hr : 0 < cfg.sampleRate) (hW : 0 < cfg.maxWindowSeconds) :
    ∀ (n : Nat) (st : BatchState), 0 ≤ st.processedUpTo →
      qDiv ((audio.length : ℚ)) cfg.sampleRate
        ≤ st.processedUpTo + (n : ℚ) * epsMin cfg rec audio →
      (transcribeBatchRun cfg rec audio (n + 1) st).2.2 = true := by
  intro n
  induction n with
  | zero =>
    intro st h0 hbound
    simp only [transcribeBatchRun]
    rw [if_neg (by push_cast at hbound; exact not_lt.mpr (by linarith))]
  | succ n ih =>
    intro st h0 hbound
    have hε := epsMin_pos cfg rec audio hr hW
    simp only [transcribeBatchRun]
    split
    · rename_i hguard
      rcases transcribeBatchStep_advance cfg rec audio st hr hW h0 with hT | hadv
      · refine ih _ ?_ ?_
        · rw [hT, qDiv_eq]
          positivity
        · rw [hT]
          have : (0 : ℚ) ≤ (n : ℚ) * epsMin cfg rec audio :=
            mul_nonneg (by positivity) (le_of_lt hε)
          linarith
      · rw [qAdd_eq] at hadv
        refine ih _ (by linarith) ?_
        push_cast at hbound
        linarith
    · rfl


/-- The sample window examined by one `transcribeBatch` iteration
(`audioWindow` of lines 415–417 of `src/stt-streaming.ts`, with
`windowEnd` spelled out). -/
def batchWindow (cfg : StreamingConfig) (audio : AudioBuffer)
    (st : BatchState) : AudioBuffer :=
  jsSlice audio ⌊qMul st.processedUpTo cfg.sampleRate⌋
    ⌊qMul (min (qAdd st.processedUpTo cfg.maxWindowSeconds)
        (qDiv ((audio.length : ℚ)) cfg.sampleRate)) cfg.sampleRate⌋

/-- The lockable words of one `transcribeBatch` iteration (`lockableWords`
of lines 425–427, with `cutoff` spelled out). -/
def batchLockable (cfg : StreamingConfig)
    (rec : AudioBuffer → ParakeetTranscriptionResult) (audio : AudioBuffer)
    (st : BatchState) : List ParakeetWord :=
  (rec (batchWindow cfg audio st)).words.filter
    (fun w => w.end_time <
      qSub (qSub (min (qAdd st.processedUpTo cfg.maxWindowSeconds)
          (qDiv ((audio.length : ℚ)) cfg.sampleRate)) st.processedUpTo)
        cfg.sentenceBufferSeconds)

/-- C5 (amended): for positive `sampleRate` and `maxWindowSeconds`, every
batch-loop iteration strictly advances the processed-audio cursor; when
the locking rule would advance the cursor by zero or negative time (the
last lockable word ends at or before the window origin) the engine forces
an advance of at least the smaller of the window length and one
sample-period (not always a full sample-period); and the loop completes
with some finite fuel, so `transcribeBatch` emits finitely many
partials. -/
theorem transcribeBatch_strict_progress (cfg : StreamingConfig)
    (rec : AudioBuffer → ParakeetTranscriptionResult) (audio : AudioBuffer)
    (hr : 0 < cfg.sampleRate) (hW : 0 < cfg.maxWindowSeconds) :
    (∀ st : BatchState, 0 ≤ st.processedUpTo →
      st.processedUpTo < qDiv ((audio.length : ℚ)) cfg.sampleRate →
      st.processedUpTo < (transcribeBatchStep cfg rec audio st).2.processedUpTo) ∧
    (∀ st : BatchState,
      qSub (min (qAdd st.processedUpTo cfg.maxWindowSeconds)
          (qDiv ((audio.length : ℚ)) cfg.sampleRate)) st.processedUpTo
        ≥ cfg.maxWindowSeconds →
      0 < (batchLockable cfg rec audio st).length →
      ((batchLockable cfg rec audio st).getLastD dummyParakeetWord).end_time ≤ 0 →
      qAdd st.processedUpTo (min cfg.maxWindowSeconds (qDiv 1 cfg.sampleRate))
        ≤ (transcribeBatchStep cfg rec audio st).2.processedUpTo) ∧
    (∃ fuel : Nat,
      (transcribeBatchRun cfg rec audio fuel initialBatchState).2.2 = true) := by
  have hε := epsMin_pos cfg rec audio hr hW
  refine ⟨?_, ?_, ?_⟩
  · intro st h0 hguard
    rcases transcribeBatchStep_advance cfg rec audio st hr hW h0 with hT | hadv
    · rw [hT]
      exact hguard
    · rw [qAdd_eq] at hadv
      linarith
  · intro st hfull hlock hzero
    have hcond : qAdd st.processedUpTo
        ((batchLockable cfg rec audio st).getLastD dummyParakeetWord).end_time
        ≤ st.processedUpTo := by
      rw [qAdd_eq]
      linarith
    simp only [batchLockable, batchWindow] at hlock hcond
    have hwE : min (qAdd st.processedUpTo cfg.maxWindowSeconds)
        (qDiv ((audio.length : ℚ)) cfg.sampleRate)
        = qAdd st.processedUpTo cfg.maxWindowSeconds := by
      rw [ge_iff_le, qSub_eq, qAdd_eq] at hfull
      rw [qAdd_eq]
      rcases le_total (st.processedUpTo + cfg.maxWindowSeconds)
          (qDiv ((audio.length : ℚ)) cfg.sampleRate) with h1 | h1
      · exact min_eq_left h1
      · rw [min_eq_right h1] at hfull ⊢
        linarith
    simp only [transcribeBatchStep]
    rw [if_pos hfull, if_pos hlock, if_pos hcond, hwE]
    have h1 := min_le_left cfg.maxWindowSeconds (qDiv 1 cfg.sampleRate)
    have h2 := min_le_right cfg.maxWindowSeconds (qDiv 1 cfg.sampleRate)
    have h3 := le_max_right (mkQ 25 100) (qDiv 1 cfg.sampleRate)
    show qAdd st.processedUpTo (min cfg.maxWindowSeconds (qDiv 1 cfg.sampleRate))
      ≤ min (qAdd st.processedUpTo cfg.maxWindowSeconds)
          (qAdd st.processedUpTo (max (mkQ 25 100) (qDiv 1 cfg.sampleRate)))
    rw [qAdd_eq, qAdd_eq, qAdd_eq]
    refine le_min (by linarith) (by linarith)
  · obtain ⟨n, hn⟩ := exists_nat_ge
      (qDiv ((audio.length : ℚ)) cfg.sampleRate / epsMin cfg rec audio)
    refine ⟨n + 1, transcribeBatchRun_complete cfg rec audio hr hW n
      initialBatchState (le_refl 0) ?_⟩
    have hdiv := (div_le_iff hε).mp hn
    have h0 : initialBatchState.processedUpTo = 0 := rfl
    rw [h0]
    linarith

/-- Witness for `transcribeBatch_strict_progress`: the 2 Hz configuration
with a succeeding recognizer terminates on a four-sample buffer. -/
theorem transcribeBatch_strict_progress_witness :
    0 < shortSampleConfig.sampleRate ∧ 0 < shortSampleConfig.maxWindowSeconds ∧
    (∃ fuel : Nat, (transcribeBatchRun shortSampleConfig zeroEndWordRecognizer
        [0, 0, 0, 0] fuel initialBatchState).2.2 = true) :=
  ⟨by decide, by decide,
   (transcribeBatch_strict_progress shortSampleConfig zeroEndWordRecognizer
      [0, 0, 0, 0] (by decide) (by decide)).2.2⟩

/-- Words ordered by non-decreasing `start_time`. -/
def sortedWords (ws : List ParakeetWord) : Prop :=
  List.Pairwise (fun a b => a.start_time ≤ b.start_time) ws

/-- A well-formed total recognizer: words sorted by start time, starting
at or after the window origin, each ending no earlier than it starts
(`normalizeWords` of `src/stt-parakeet.ts` clamps exactly these bounds but
does not reorder, so ordering is a genuine extra assumption). -/
def RecWF (rec : AudioBuffer → ParakeetTranscriptionResult) : Prop :=
  ∀ audio, sortedWords (rec audio).words ∧
    ∀ w ∈ (rec audio).words, 0 ≤ w.start_time ∧ w.start_time ≤ w.end_time

/-- The same well-formedness for a fallible recognizer. -/
def RecWFE (rec : AudioBuffer → Except Str ParakeetTranscriptionResult) : Prop :=
  ∀ audio r, rec audio = .ok r → sortedWords r.words ∧
    ∀ w ∈ r.words, 0 ≤ w.start_time ∧ w.start_time ≤ w.end_time

/-- Session invariant of the incremental engine: locked words are sorted,
start no later than `fixedEndTime`, and `fixedEndTime` is non-negative. -/
def EngineWF (st : EngineState) : Prop :=
  sortedWords st.fixedWords ∧
    (∀ w ∈ st.fixedWords, w.start_time ≤ st.fixedEndTime) ∧ 0 ≤ st.fixedEndTime

/-- Loop invariant of a batch run: locked words are sorted, start no later
than the cursor, and the cursor is non-negative. -/
def BatchWF (st : BatchState) : Prop :=
  sortedWords st.fixedWords ∧
    (∀ w ∈ st.fixedWords, w.start_time ≤ st.processedUpTo) ∧ 0 ≤ st.processedUpTo

/-- A sequence of `transcribeIncremental` calls on one engine instance,
threading the session state. -/
def runIncremental (cfg : StreamingConfig)
    (rec : AudioBuffer → Except Str ParakeetTranscriptionResult) :
    EngineState → List AudioBuffer → EngineState
  | st, [] => st
  | st, a :: as =>
    runIncremental cfg rec (transcribeIncremental cfg rec st a).2.1 as

theorem getLastD_mem {α : Type} (l : List α) (d : α) (h : l ≠ []) :
    l.getLastD d ∈ l := by
  induction l using List.reverseRecOn with
  | nil => exact absurd rfl h
  | append_singleton ys y _ =>
    rw [List.getLastD_concat]
    exact List.mem_append_right ys (List.mem_singleton.mpr rfl)

theorem start_le_getLastD_end (l : List ParakeetWord)
    (hp : List.Pairwise (fun a b => a.start_time ≤ b.start_time) l)
    (hse : ∀ w ∈ l, w.start_time ≤ w.end_time) :
    ∀ w ∈ l, w.start_time ≤ (l.getLastD dummyParakeetWord).end_time := by
  induction l using List.reverseRecOn with
  | nil => intro w hw; exact absurd hw (List.not_mem_nil w)
  | append_singleton ys y _ =>
    intro w hw
    rw [List.getLastD_concat]
    rcases List.mem_append.mp hw with hys | hy
    · have hcross := (List.pairwise_append.mp hp).2.2 w hys y
        (List.mem_singleton.mpr rfl)
      have hy_se := hse y (List.mem_append_right ys (List.mem_singleton.mpr rfl))
      exact le_trans hcross hy_se
    · obtain rfl := List.mem_singleton.mp hy
      exact hse w hw

/-- Appending a sorted block of window-relative words shifted by
`fixedEndTime` preserves the engine invariant and advances
`fixedEndTime` by the (non-negative) end of the last locked word. -/
theorem lockStepWF (st : EngineState) (ws : List ParakeetWord)
    (hws : sortedWords ws)
    (hbounds : ∀ w ∈ ws, 0 ≤ w.start_time ∧ w.start_time ≤ w.end_time)
    (hne : ws ≠ []) (hwf : EngineWF st) :
    st.fixedEndTime
        ≤ qAdd st.fixedEndTime ((ws.getLastD dummyParakeetWord).end_time) ∧
    (sortedWords (st.fixedWords ++ ws.map (shiftWord st.fixedEndTime)) ∧
     (∀ w ∈ st.fixedWords ++ ws.map (shiftWord st.fixedEndTime),
        w.start_time
          ≤ qAdd st.fixedEndTime ((ws.getLastD dummyParakeetWord).end_time)) ∧
     0 ≤ qAdd st.fixedEndTime ((ws.getLastD dummyParakeetWord).end_time)) := by
  obtain ⟨hsorted, hbound, hnn⟩ := hwf
  have hlast := hbounds _ (getLastD_mem ws dummyParakeetWord hne)
  have hlastnn : 0 ≤ (ws.getLastD dummyParakeetWord).end_time :=
    le_trans hlast.1 hlast.2
  refine ⟨by rw [qAdd_eq]; linarith, ?_, ?_, by rw [qAdd_eq]; linarith⟩
  · refine List.pairwise_append.mpr ⟨hsorted, ?_, ?_⟩
    · refine List.pairwise_map.mpr (hws.imp ?_)
      intro a b hab
      show qAdd st.fixedEndTime a.start_time ≤ qAdd st.fixedEndTime b.start_time
      rw [qAdd_eq, qAdd_eq]
      linarith
    · intro a ha b hb
      obtain ⟨v, hv, rfl⟩ := List.mem_map.mp hb
      have hva := (hbounds v hv).1
      have haE := hbound a ha
      show a.start_time ≤ qAdd st.fixedEndTime v.start_time
      rw [qAdd_eq]
      linarith
  · intro w hw
    rcases List.mem_append.mp hw with hold | hnew
    · have := hbound w hold
      rw [qAdd_eq]
      linarith
    · obtain ⟨v, hv, rfl⟩ := List.mem_map.mp hnew
      have hvlast := start_le_getLastD_end ws hws
        (fun w hw => (hbounds w hw).2) v hv
      show qAdd st.fixedEndTime v.start_time
        ≤ qAdd st.fixedEndTime ((ws.getLastD dummyParakeetWord).end_time)
      rw [qAdd_eq, qAdd_eq]
      linarith

/-- One `transcribeIncremental` call from a well-formed state with a
well-formed recognizer never decreases `fixedEndTime` and preserves the
session invariant, whether or not the call succeeds. -/
theorem transcribeIncremental_WF (cfg : StreamingConfig)
    (rec : AudioBuffer → Except Str ParakeetTranscriptionResult)
    (st : EngineState) (audio : AudioBuffer)
    (hrec : RecWFE rec) (hwf : EngineWF st) :
    st.fixedEndTime
        ≤ ((transcribeIncremental cfg rec st audio).2.1).fixedEndTime ∧
    EngineWF ((transcribeIncremental cfg rec st audio).2.1) := by
  simp only [transcribeIncremental]
  split
  · exact ⟨le_rfl, hwf⟩
  · split
    · exact ⟨le_rfl, hwf⟩
    · rename_i result heq
      split
      · split
        · rename_i hcond hlen
          have hws : sortedWords (result.words.filter
              (fun w => decide (w.end_time <
                qSub (qDiv (((jsSliceFrom audio
                    ⌊qMul st.fixedEndTime cfg.sampleRate⌋).length : ℚ))
                  cfg.sampleRate) cfg.sentenceBufferSeconds))) :=
            (hrec _ _ heq).1.sublist (List.filter_sublist _)
          have hbounds : ∀ w ∈ result.words.filter
              (fun w => decide (w.end_time <
                qSub (qDiv (((jsSliceFrom audio
                    ⌊qMul st.fixedEndTime cfg.sampleRate⌋).length : ℚ))
                  cfg.sampleRate) cfg.sentenceBufferSeconds)),
              0 ≤ w.start_time ∧ w.start_time ≤ w.end_time :=
            fun w hw => (hrec _ _ heq).2 w (List.mem_filter.mp hw).1
          have hne := List.length_pos.mp hlen
          split
          · exact lockStepWF st _ hws hbounds hne hwf
          · exact lockStepWF st _ hws hbounds hne hwf
        · exact ⟨le_rfl, hwf⟩
      · exact ⟨le_rfl, hwf⟩

/-- Appending a block of sorted window-relative words shifted by a base
the existing words do not pass keeps the word list sorted. -/
theorem appendShiftSorted (E : ℚ) (old ws : List ParakeetWord)
    (hsorted : sortedWords old) (hbound : ∀ w ∈ old, w.start_time ≤ E)
    (hws : sortedWords ws) (hstarts : ∀ w ∈ ws, 0 ≤ w.start_time) :
    sortedWords (old ++ ws.map (shiftWord E)) := by
  refine List.pairwise_append.mpr ⟨hsorted, ?_, ?_⟩
  · refine List.pairwise_map.mpr (hws.imp ?_)
    intro a b hab
    show qAdd E a.start_time ≤ qAdd E b.start_time
    rw [qAdd_eq, qAdd_eq]
    linarith
  · intro a ha b hb
    obtain ⟨v, hv, rfl⟩ := List.mem_map.mp hb
    have hva := hstarts v hv
    have haE := hbound a ha
    show a.start_time ≤ qAdd E v.start_time
    rw [qAdd_eq]
    linarith

/-- A batch iteration from inside the loop never moves the cursor
backwards. -/
theorem transcribeBatchStep_mono (cfg : StreamingConfig)
    (rec : AudioBuffer → ParakeetTranscriptionResult) (audio : AudioBuffer)
    (st : BatchState) (hr : 0 < cfg.sampleRate) (hW : 0 < cfg.maxWindowSeconds)
    (h0 : 0 ≤ st.processedUpTo)
    (hguard : st.processedUpTo < qDiv ((audio.length : ℚ)) cfg.sampleRate) :
    st.processedUpTo ≤ (transcribeBatchStep cfg rec audio st).2.processedUpTo := by
  rcases transcribeBatchStep_advance cfg rec audio st hr hW h0 with hT | hadv
  · rw [hT]
    exact le_of_lt hguard
  · rw [qAdd_eq] at hadv
    have hε := epsMin_pos cfg rec audio hr hW
    linarith

/-- A batch iteration from a well-formed loop state keeps the locked words
sorted, and either preserves the full invariant or puts the cursor at the
end of the audio (final-chunk branch, after which the loop stops). -/
theorem transcribeBatchStep_WF (cfg : StreamingConfig)
    (rec : AudioBuffer → ParakeetTranscriptionResult) (audio : AudioBuffer)
    (st : BatchState) (hr : 0 < cfg.sampleRate) (hW : 0 < cfg.maxWindowSeconds)
    (hrec : RecWF rec) (hwf : BatchWF st)
    (hguard : st.processedUpTo < qDiv ((audio.length : ℚ)) cfg.sampleRate) :
    sortedWords (transcribeBatchStep cfg rec audio st).2.fixedWords ∧
    (BatchWF (transcribeBatchStep cfg rec audio st).2 ∨
      (transcribeBatchStep cfg rec audio st).2.processedUpTo
        = qDiv ((audio.length : ℚ)) cfg.sampleRate) := by
  obtain ⟨hsorted, hbound, hnn⟩ := hwf
  simp only [transcribeBatchStep]
  by_cases hd : qSub (min (qAdd st.processedUpTo cfg.maxWindowSeconds)
      (qDiv ((audio.length : ℚ)) cfg.sampleRate)) st.processedUpTo
      ≥ cfg.maxWindowSeconds
  · rw [if_pos hd]
    have hwE : min (qAdd st.processedUpTo cfg.maxWindowSeconds)
        (qDiv ((audio.length : ℚ)) cfg.sampleRate)
        = qAdd st.processedUpTo cfg.maxWindowSeconds := by
      rw [ge_iff_le, qSub_eq, qAdd_eq] at hd
      rw [qAdd_eq]
      rcases le_total (st.processedUpTo + cfg.maxWindowSeconds)
          (qDiv ((audio.length : ℚ)) cfg.sampleRate) with h1 | h1
      · exact min_eq_left h1
      · rw [min_eq_right h1] at hd ⊢
        linarith
    rw [hwE]
    rw [show qSub (qAdd st.processedUpTo cfg.maxWindowSeconds) st.processedUpTo
        = cfg.maxWindowSeconds from by rw [qSub_eq, qAdd_eq]; ring]
    set L := (rec (jsSlice audio ⌊qMul st.processedUpTo cfg.sampleRate⌋
        ⌊qMul (qAdd st.processedUpTo cfg.maxWindowSeconds)
          cfg.sampleRate⌋)).words.filter
        (fun w => w.end_time <
          qSub cfg.maxWindowSeconds cfg.sentenceBufferSeconds) with hL
    have hws : sortedWords L := by
      rw [hL]
      exact (hrec _).1.sublist (List.filter_sublist _)
    have hbounds : ∀ w ∈ L, 0 ≤ w.start_time ∧ w.start_time ≤ w.end_time := by
      rw [hL]
      exact fun w hw => (hrec _).2 w (List.mem_filter.mp hw).1
    by_cases hlen : 0 < L.length
    · rw [if_pos hlen]
      have hne := List.length_pos.mp hlen
      have hlk := lockStepWF
        { fixedSentences := [], fixedWords := st.fixedWords,
          fixedEndTime := st.processedUpTo, lastTranscribedLength := 0 }
        L hws hbounds hne ⟨hsorted, hbound, hnn⟩
      by_cases hforce : qAdd st.processedUpTo
          ((L.getLastD dummyParakeetWord).end_time) ≤ st.processedUpTo
      · rw [if_pos hforce]
        have hprogpos : (0 : ℚ) < max (mkQ 25 100) (qDiv 1 cfg.sampleRate) :=
          lt_of_lt_of_le (by decide : (0 : ℚ) < mkQ 25 100) (le_max_left _ _)
        have hS' : st.processedUpTo
            ≤ min (qAdd st.processedUpTo cfg.maxWindowSeconds)
                (qAdd st.processedUpTo (max (mkQ 25 100) (qDiv 1 cfg.sampleRate))) := by
          rw [qAdd_eq, qAdd_eq]
          exact le_min (by linarith) (by linarith)
        refine ⟨hlk.2.1, Or.inl ⟨hlk.2.1, ?_, le_trans hnn hS'⟩⟩
        intro w hw
        rcases List.mem_append.mp hw with hold | hnew
        · exact le_trans (hbound w hold) hS'
        · obtain ⟨v, hv, rfl⟩ := List.mem_map.mp hnew
          have hvlast := start_le_getLastD_end L hws
            (fun w hw => (hbounds w hw).2) v hv
          have : qAdd st.processedUpTo v.start_time ≤ st.processedUpTo := by
            rw [qAdd_eq]
            rw [qAdd_eq] at hforce
            linarith
          exact le_trans this hS'
      · rw [if_neg hforce]
        exact ⟨hlk.2.1, Or.inl ⟨hlk.2.1, hlk.2.2.1, hlk.2.2.2⟩⟩
    · rw [if_neg hlen]
      by_cases hforce2 : qAdd st.processedUpTo (qDiv cfg.maxWindowSeconds 2)
          ≤ st.processedUpTo
      · exfalso
        rw [qAdd_eq, qDiv_eq] at hforce2
        linarith
      · rw [if_neg hforce2]
        refine ⟨hsorted, Or.inl ⟨hsorted, ?_, ?_⟩⟩
        · intro w hw
          have := hbound w hw
          show w.start_time ≤ qAdd st.processedUpTo (qDiv cfg.maxWindowSeconds 2)
          rw [qAdd_eq, qDiv_eq]
          linarith
        · show (0 : ℚ) ≤ qAdd st.processedUpTo (qDiv cfg.maxWindowSeconds 2)
          rw [qAdd_eq, qDiv_eq]
          linarith
  · rw [if_neg hd]
    have hwT : min (qAdd st.processedUpTo cfg.maxWindowSeconds)
        (qDiv ((audio.length : ℚ)) cfg.sampleRate)
        = qDiv ((audio.length : ℚ)) cfg.sampleRate := by
      rw [ge_iff_le, qSub_eq, qAdd_eq] at hd
      rw [qAdd_eq]
      rcases le_total (st.processedUpTo + cfg.maxWindowSeconds)
          (qDiv ((audio.length : ℚ)) cfg.sampleRate) with h1 | h1
      · exfalso
        rw [min_eq_left h1] at hd
        exact hd (by linarith)
      · exact min_eq_right h1
    refine ⟨?_, Or.inr hwT⟩
    exact appendShiftSorted st.processedUpTo st.fixedWords _ hsorted hbound
      (hrec _).1 (fun w hw => ((hrec _).2 w hw).1)

/-- Once the cursor has reached the end of the audio, a batch run leaves
the state unchanged. -/
theorem transcribeBatchRun_stall (cfg : StreamingConfig)
    (rec : AudioBuffer → ParakeetTranscriptionResult) (audio : AudioBuffer)
    (n : Nat) (st : BatchState)
    (h : ¬ st.processedUpTo < qDiv ((audio.length : ℚ)) cfg.sampleRate) :
    (transcribeBatchRun cfg rec audio n st).2.1 = st := by
  cases n with
  | zero => rfl
  | succ n =>
    simp only [transcribeBatchRun]
    rw [if_neg h]

/-- Across a whole batch run from a well-formed loop state the cursor
never decreases and the locked words stay sorted. -/
theorem transcribeBatchRun_WF (cfg : StreamingConfig)
    (rec : AudioBuffer → ParakeetTranscriptionResult) (audio : AudioBuffer)
    (hr : 0 < cfg.sampleRate) (hW : 0 < cfg.maxWindowSeconds)
    (hrec : RecWF rec) :
    ∀ (fuel : Nat) (st : BatchState), BatchWF st →
      st.processedUpTo
          ≤ (transcribeBatchRun cfg rec audio fuel st).2.1.processedUpTo ∧
      sortedWords (transcribeBatchRun cfg rec audio fuel st).2.1.fixedWords := by
  intro fuel
  induction fuel with
  | zero => intro st hwf; exact ⟨le_rfl, hwf.1⟩
  | succ n ih =>
    intro st hwf
    simp only [transcribeBatchRun]
    split
    · rename_i hguard
      have hmono := transcribeBatchStep_mono cfg rec audio st hr hW hwf.2.2 hguard
      obtain ⟨hsorted', hrest⟩ :=
        transcribeBatchStep_WF cfg rec audio st hr hW hrec hwf hguard
      dsimp only
      rcases hrest with hwf' | hdone
      · obtain ⟨h1, h2⟩ := ih _ hwf'
        exact ⟨le_trans hmono h1, h2⟩
      · rw [transcribeBatchRun_stall cfg rec audio n _
          (by rw [hdone]; exact lt_irrefl _)]
        exact ⟨hmono, hsorted'⟩
    · exact ⟨le_rfl, hwf.1⟩

/-- Across a whole sequence of incremental calls from a well-formed
session state, `fixedEndTime` never decreases and the invariant holds at
the end. -/
theorem runIncremental_WF (cfg : StreamingConfig)
    (rec : AudioBuffer → Except Str ParakeetTranscriptionResult)
    (hrec : RecWFE rec) :
    ∀ (audios : List AudioBuffer) (st : EngineState), EngineWF st →
      st.fixedEndTime ≤ (runIncremental cfg rec st audios).fixedEndTime ∧
      EngineWF (runIncremental cfg rec st audios) := by
  intro audios
  induction audios with
  | nil => intro st hwf; exact ⟨le_rfl, hwf⟩
  | cons a as ih =>
    intro st hwf
    obtain ⟨h1, hwf'⟩ := transcribeIncremental_WF cfg rec st a hrec hwf
    obtain ⟨h2, hwf''⟩ := ih _ hwf'
    exact ⟨le_trans h1 h2, hwf''⟩

/-- Config for the fixedEndTime-decrease counterexample. -/
def negEndConfig : StreamingConfig :=
  { sampleRate := 2, maxWindowSeconds := 1, sentenceBufferSeconds := mkQ 25 100 }

/-- A succeeding recognizer whose single word carries negative times, as
nothing in `transcribeIncremental` guards against them. -/
def negEndRecognizer (_ : AudioBuffer) : Except Str ParakeetTranscriptionResult :=
  .ok { text := (r"a").toList,
        words := [{ text := (r"a").toList, start_time := mkQ (-2) 1,
                    end_time := mkQ (-1) 1 }],
        latencySeconds := 0, audioDurationSeconds := 1, rtf := 0 }

/-- C4 counterexample: a successful `transcribeIncremental` call whose
recognizer reports a lockable word with negative end time drives
`fixedEndTime` from 0 down to -1: without assumptions on the recognizer
output, `fixedEndTime` can decrease. -/
theorem transcribeIncremental_fixedEndTime_decrease_counterexample :
    (transcribeIncremental negEndConfig negEndRecognizer initialEngineState
        [0, 0]).2.1.fixedEndTime = mkQ (-1) 1 ∧
    (transcribeIncremental negEndConfig negEndRecognizer initialEngineState
        [0, 0]).2.1.fixedEndTime < initialEngineState.fixedEndTime := by
  refine ⟨by decide, by decide⟩

/-- C4 (amended): with a recognizer whose words are sorted by start time,
start at or after the window origin and end no earlier than they start,
`fixedEndTime` never decreases across any sequence of incremental calls
and `fixedWords` stays sorted by non-decreasing start time; likewise the
batch cursor never decreases across the iterations of one batch run and
the batch word list stays sorted; reset state starts both at 0 (and is
well-formed). Without those recognizer assumptions the claim fails. -/
theorem engine_monotone_invariants (cfg : StreamingConfig)
    (recE : AudioBuffer → Except Str ParakeetTranscriptionResult)
    (rec : AudioBuffer → ParakeetTranscriptionResult) (audio : AudioBuffer)
    (hr : 0 < cfg.sampleRate) (hW : 0 < cfg.maxWindowSeconds)
    (hrecE : RecWFE recE) (hrec : RecWF rec) :
    (∀ (st : EngineState) (audios : List AudioBuffer), EngineWF st →
      st.fixedEndTime ≤ (runIncremental cfg recE st audios).fixedEndTime ∧
      sortedWords (runIncremental cfg recE st audios).fixedWords) ∧
    (∀ (fuel : Nat) (st : BatchState), BatchWF st →
      st.processedUpTo
          ≤ (transcribeBatchRun cfg rec audio fuel st).2.1.processedUpTo ∧
      sortedWords (transcribeBatchRun cfg rec audio fuel st).2.1.fixedWords) ∧
    initialEngineState.fixedEndTime = 0 ∧ initialBatchState.processedUpTo = 0 ∧
    EngineWF initialEngineState ∧ BatchWF initialBatchState := by
  refine ⟨?_, ?_, rfl, rfl, ?_, ?_⟩
  · intro st audios hwf
    obtain ⟨h1, hwf'⟩ := runIncremental_WF cfg recE hrecE audios st hwf
    exact ⟨h1, hwf'.1⟩
  · exact fun fuel st hwf =>
      transcribeBatchRun_WF cfg rec audio hr hW hrec fuel st hwf
  · exact ⟨List.Pairwise.nil, fun w hw => absurd hw (List.not_mem_nil w), le_rfl⟩
  · exact ⟨List.Pairwise.nil, fun w hw => absurd hw (List.not_mem_nil w), le_rfl⟩

/-- The constant incremental recognizer emits no words, hence is
well-formed. -/
theorem constantHiRecognizer_recWFE : RecWFE constantHiRecognizer := by
  intro a r h
  simp only [constantHiRecognizer] at h
  obtain rfl := Except.ok.inj h
  exact ⟨List.Pairwise.nil, fun w hw => absurd hw (List.not_mem_nil w)⟩

/-- The constant batch recognizer emits no words, hence is well-formed. -/
theorem constantBatchRecognizer_recWF : RecWF constantBatchRecognizer :=
  fun _ => ⟨List.Pairwise.nil, fun w hw => absurd hw (List.not_mem_nil w)⟩

/-- Witness for `engine_monotone_invariants`: a concrete two-sample batch
run with well-formed recognizers. -/
theorem engine_monotone_invariants_witness :
    0 < repeatCallConfig.sampleRate ∧ 0 < repeatCallConfig.maxWindowSeconds ∧
    (initialBatchState.processedUpTo
        ≤ (transcribeBatchRun repeatCallConfig constantBatchRecognizer [0, 0] 2
            initialBatchState).2.1.processedUpTo ∧
      sortedWords (transcribeBatchRun repeatCallConfig constantBatchRecognizer
          [0, 0] 2 initialBatchState).2.1.fixedWords) :=
  ⟨by decide, by decide,
   (engine_monotone_invariants repeatCallConfig constantHiRecognizer
      constantBatchRecognizer [0, 0] (by decide) (by decide)
      constantHiRecognizer_recWFE constantBatchRecognizer_recWF).2.1 2
     initialBatchState
     ⟨List.Pairwise.nil, fun w hw => absurd hw (List.not_mem_nil w), le_rfl⟩⟩

/-- Input cue of the round-trip counterexample: its text carries a double
space. -/
def roundTripInputCue : WebVttCue :=
  { identifier := none, start_time := 0, end_time := 1, text := (r"a  b").toList }

/-- C2 counterexample: serialising and re-parsing a cue whose text holds a
double space yields a cue with different text (`normalizeCueText`
collapses whitespace runs on the way back in), so the round trip does not
reproduce the `(start_time, end_time, text)` triples of every
distinct-text cue list. -/
theorem roundtrip_text_counterexample :
    parseWebVttCues (serializeWebVttCues [roundTripInputCue])
      = [{ identifier := none, start_time := 0, end_time := 1,
           text := (r"a b").toList }] ∧
    parseWebVttCues (serializeWebVttCues [roundTripInputCue])
      ≠ [roundTripInputCue] := by
  refine ⟨by decide, by decide⟩

theorem takeWhile_all_append {p : Char → Bool} {a : Str} (b : Str)
    (h : ∀ c ∈ a, p c) : (a ++ b).takeWhile p = a ++ b.takeWhile p := by
  induction a with
  | nil => rfl
  | cons c cs ih =>
    rw [List.cons_append, List.takeWhile_cons, if_pos (h c (List.mem_cons_self c cs)),
      ih (fun d hd => h d (List.mem_cons_of_mem c hd)), List.cons_append]

theorem dropWhile_all_append {p : Char → Bool} {a : Str} (b : Str)
    (h : ∀ c ∈ a, p c) : (a ++ b).dropWhile p = b.dropWhile p := by
  induction a with
  | nil => rfl
  | cons c cs ih =>
    rw [List.cons_append, List.dropWhile_cons, if_pos (h c (List.mem_cons_self c cs)),
      ih (fun d hd => h d (List.mem_cons_of_mem c hd))]

theorem headMatchesLit_self (s t : Str) : headMatchesLit s (s ++ t) = true := by
  induction s with
  | nil => rfl
  | cons c cs ih =>
    simp [headMatchesLit, ih]

theorem strContainsSub_mid (sub pre post : Str) (hsub : sub ≠ []) :
    strContainsSub sub (pre ++ sub ++ post) = true := by
  induction pre with
  | nil =>
    rcases sub with _ | ⟨c, cs⟩
    · exact absurd rfl hsub
    · have h1 := headMatchesLit_self (c :: cs) post
      simp only [List.cons_append] at h1
      simp [strContainsSub, h1]
  | cons d ds ih =>
    have ih2 : strContainsSub sub (ds ++ (sub ++ post)) = true := by
      rw [← List.append_assoc]
      exact ih
    simp [strContainsSub, ih2]

theorem splitOnCharAux_no_sep {sep : Char} {a : Str} (cur : Str)
    (h : sep ∉ a) : splitOnCharAux sep cur a = [cur.reverse ++ a] := by
  induction a generalizing cur with
  | nil => simp [splitOnCharAux]
  | cons c cs ih =>
    rw [splitOnCharAux, if_neg (by rintro rfl; exact h (List.mem_cons_self c cs)),
      ih (c :: cur) (fun hm => h (List.mem_cons_of_mem c hm))]
    simp

theorem splitOnCharAux_sep {sep : Char} {a : Str} (cur : Str) (rest : Str)
    (h : sep ∉ a) :
    splitOnCharAux sep cur (a ++ sep :: rest)
      = (cur.reverse ++ a) :: splitOnCharAux sep [] rest := by
  induction a generalizing cur with
  | nil =>
    rw [List.nil_append, splitOnCharAux, if_pos rfl]
    simp
  | cons c cs ih =>
    rw [List.cons_append, splitOnCharAux,
      if_neg (by rintro rfl; exact h (List.mem_cons_self c cs)),
      ih (c :: cur) (fun hm => h (List.mem_cons_of_mem c hm))]
    simp

theorem splitOnChar_two {sep : Char} {a b : Str} (ha : sep ∉ a) (hb : sep ∉ b) :
    splitOnChar sep (a ++ sep :: b) = [a, b] := by
  rw [splitOnChar, splitOnCharAux_sep [] b ha, splitOnCharAux_no_sep [] hb]
  rfl

theorem splitOnChar_three {sep : Char} {a b c : Str}
    (ha : sep ∉ a) (hb : sep ∉ b) (hc : sep ∉ c) :
    splitOnChar sep (a ++ sep :: (b ++ sep :: c)) = [a, b, c] := by
  rw [splitOnChar, splitOnCharAux_sep [] _ ha, splitOnCharAux_sep [] c hb,
    splitOnCharAux_no_sep [] hc]
  rfl

theorem filterMap_eq_map_of {α β : Type} (f : α → Option β) (g : α → β) :
    ∀ l : List α, (∀ x ∈ l, f x = some (g x)) → l.filterMap f = l.map g := by
  intro l
  induction l with
  | nil => intro _; rfl
  | cons x xs ih =>
    intro h
    rw [List.filterMap_cons, h x (List.mem_cons_self x xs),
      ih (fun y hy => h y (List.mem_cons_of_mem x hy)), List.map_cons]

theorem mem_insertLeStable {α : Type} (le : α → α → Bool) (a x : α) :
    ∀ l : List α, x ∈ insertLeStable le a l ↔ x = a ∨ x ∈ l := by
  intro l
  induction l with
  | nil => simp [insertLeStable]
  | cons b bs ih =>
    rw [insertLeStable]
    split
    · simp only [List.mem_cons, ih]
      tauto
    · simp only [List.mem_cons]

theorem mem_jsSortStable {α : Type} (le : α → α → Bool) (x : α) :
    ∀ l : List α, x ∈ jsSortStable le l ↔ x ∈ l := by
  have haux : ∀ (l : List α) (acc : List α),
      x ∈ l.foldl (fun sorted a => insertLeStable le a sorted) acc
        ↔ x ∈ acc ∨ x ∈ l := by
    intro l
    induction l with
    | nil => intro acc; simp
    | cons b bs ih =>
      intro acc
      rw [List.foldl_cons, ih, mem_insertLeStable]
      simp [List.mem_cons]
      tauto
  intro l
  rw [jsSortStable]
  rw [haux l []]
  simp

/-- Decimal digits of a natural number, most significant first (the
recursion `natToCharsAux` implements with fuel). -/
def digitsOf (n : Nat) : Str :=
  if n < 10 then [digitChar n]
  else digitsOf (n / 10) ++ [digitChar (n % 10)]
decreasing_by exact Nat.div_lt_self (by omega) (by omega)

theorem natToCharsAux_eq :
    ∀ (fuel n : Nat) (acc : Str), n < fuel →
      natToCharsAux fuel n acc = digitsOf n ++ acc := by
  intro fuel
  induction fuel with
  | zero => intro n acc h; omega
  | succ f ih =>
    intro n acc h
    rw [natToCharsAux]
    by_cases hn : n < 10
    · rw [if_pos hn, digitsOf, if_pos hn, Nat.mod_eq_of_lt hn]
      rfl
    · have hd : digitsOf n = digitsOf (n / 10) ++ [digitChar (n % 10)] := by
        rw [digitsOf]
        rw [if_neg hn]
      rw [if_neg hn, ih (n / 10) _ (by omega), hd, List.append_assoc]
      rfl

theorem natToChars_eq (n : Nat) : natToChars n = digitsOf n := by
  rw [natToChars, natToCharsAux_eq (n + 1) n [] (by omega), List.append_nil]

theorem digitChar_toNat {n : Nat} (h : n < 10) : (digitChar n).toNat = 48 + n := by
  interval_cases n <;> decide

theorem digitChar_isDigit {n : Nat} (h : n < 10) : isDigitChar (digitChar n) = true := by
  interval_cases n <;> decide

theorem digitsOf_all_digits : ∀ n, ∀ c ∈ digitsOf n, isDigitChar c = true := by
  intro n
  induction n using Nat.strong_induction_on with
  | _ n ih =>
    intro c hc
    rw [digitsOf] at hc
    by_cases hn : n < 10
    · rw [if_pos hn] at hc
      obtain rfl := List.mem_singleton.mp hc
      exact digitChar_isDigit hn
    · rw [if_neg hn] at hc
      rcases List.mem_append.mp hc with h1 | h2
      · exact ih (n / 10) (Nat.div_lt_self (by omega) (by omega)) c h1
      · obtain rfl := List.mem_singleton.mp h2
        exact digitChar_isDigit (Nat.mod_lt n (by omega))

theorem digitsOf_ne_nil (n : Nat) : digitsOf n ≠ [] := by
  rw [digitsOf]
  by_cases hn : n < 10
  · rw [if_pos hn]
    exact List.cons_ne_nil _ _
  · rw [if_neg hn]
    simp

theorem dVal_append_singleton (a : Str) (c : Char) :
    dVal (a ++ [c]) = 10 * dVal a + (c.toNat - 48) := by
  rw [dVal, List.foldl_append]
  rfl

theorem dVal_digitsOf : ∀ n, dVal (digitsOf n) = n := by
  intro n
  induction n using Nat.strong_induction_on with
  | _ n ih =>
    rw [digitsOf]
    by_cases hn : n < 10
    · rw [if_pos hn]
      show 10 * 0 + ((digitChar n).toNat - 48) = n
      rw [digitChar_toNat hn]
      omega
    · rw [if_neg hn, dVal_append_singleton,
        ih (n / 10) (Nat.div_lt_self (by omega) (by omega)),
        digitChar_toNat (Nat.mod_lt n (by omega))]
      omega

theorem digitsOf_length_two {n : Nat} (h : n < 100) : (digitsOf n).length ≤ 2 := by
  rw [digitsOf]
  by_cases hn : n < 10
  · rw [if_pos hn]
    simp
  · rw [if_neg hn, digitsOf, if_pos (by omega : n / 10 < 10)]
    simp

theorem digitsOf_length_three {n : Nat} (h : n < 1000) :
    (digitsOf n).length ≤ 3 := by
  rw [digitsOf]
  by_cases hn : n < 10
  · rw [if_pos hn]
    simp
  · rw [if_neg hn, List.length_append]
    have := digitsOf_length_two (by omega : n / 10 < 100)
    simp
    omega

theorem padZeroLeft_length (k : Nat) (s : Str) :
    (padZeroLeft k s).length = max k s.length := by
  rw [padZeroLeft, List.length_append, List.length_replicate]
  omega

theorem dVal_zeros_fold : ∀ m : Nat,
    List.foldl (fun a c => 10 * a + (c.toNat - 48)) 0 (List.replicate m '0') = 0 := by
  intro m
  induction m with
  | zero => rfl
  | succ k ih =>
    rw [List.replicate_succ, List.foldl_cons]
    show List.foldl (fun a c => 10 * a + (c.toNat - 48)) 0 (List.replicate k '0') = 0
    exact ih

theorem dVal_padZeroLeft (k : Nat) (s : Str) : dVal (padZeroLeft k s) = dVal s := by
  rw [padZeroLeft, dVal, List.foldl_append, dVal_zeros_fold]
  rfl

theorem padZeroLeft_all_digits (k : Nat) (s : Str)
    (h : ∀ c ∈ s, isDigitChar c = true) :
    ∀ c ∈ padZeroLeft k s, isDigitChar c = true := by
  intro c hc
  rcases List.mem_append.mp hc with h1 | h2
  · obtain rfl := List.eq_of_mem_replicate h1
    decide
  · exact h c h2

theorem padEndZero3_len3 {s : Str} (h : s.length = 3) : padEndZero3 s = s := by
  rw [padEndZero3, h]
  simp
  exact h.le

theorem exists_pair_of_len2 {s : Str} (h : s.length = 2) :
    ∃ a b, s = [a, b] := by
  rcases s with _ | ⟨a, _ | ⟨b, _ | _⟩⟩ <;> simp at h
  exact ⟨a, b, rfl⟩

theorem digit_not_ws {c : Char} (h : isDigitChar c = true) : isJsWs c = false := by
  rcases Bool.eq_false_or_eq_true (isJsWs c) with ht | hf
  · exfalso
    have hset : c = ' ' ∨ c = '\t' ∨ c = '\n' ∨ c = '\r' ∨ c = '\x0b'
        ∨ c = '\x0c' ∨ c = ' ' ∨ c = '﻿' := by
      simpa [isJsWs] using ht
    rcases hset with rfl | rfl | rfl | rfl | rfl | rfl | rfl | rfl <;>
      exact absurd h (by decide)
  · exact hf

/-- One timestamp character class: digits, `:` and `.`. -/
def isTsChar (c : Char) : Bool := isDigitChar c || c = ':' || c = '.'

theorem tsChar_not_ws {c : Char} (h : isTsChar c = true) : isJsWs c = false := by
  rw [isTsChar] at h
  simp only [Bool.or_eq_true, decide_eq_true_eq] at h
  rcases h with (h2 | rfl) | rfl
  · exact digit_not_ws h2
  · decide
  · decide

theorem formatTimestamp_natMs (n : Nat) :
    formatTimestamp ((n : ℚ) / 1000)
      = padZeroLeft 2 (digitsOf (n / 3600000)) ++ [':']
        ++ padZeroLeft 2 (digitsOf (n % 3600000 / 60000)) ++ [':']
        ++ padZeroLeft 2 (digitsOf (n % 60000 / 1000)) ++ ['.']
        ++ padZeroLeft 3 (digitsOf (n % 1000)) := by
  have hT : (max 0 (jsRound (qMul ((n : ℚ) / 1000) 1000))).toNat = n := by
    have h1 : qMul ((n : ℚ) / 1000) 1000 = (n : ℚ) := by
      rw [qMul_eq]
      field_simp
    rw [h1]
    have h2 : jsRound ((n : ℚ)) = (n : Int) := by
      rw [jsRound_eq, Int.floor_eq_iff]
      constructor
      · push_cast
        linarith
      · push_cast
        linarith
    rw [h2, max_eq_right (by positivity : (0 : Int) ≤ (n : Int)), Int.toNat_natCast]
  simp only [formatTimestamp, hT, natToChars_eq]

theorem formatTimestamp_chars (n : Nat) :
    ∀ c ∈ formatTimestamp ((n : ℚ) / 1000), isTsChar c = true := by
  intro c hc
  rw [formatTimestamp_natMs] at hc
  simp only [List.mem_append, List.mem_singleton] at hc
  have hdig : ∀ {m k : Nat}, c ∈ padZeroLeft k (digitsOf m) → isTsChar c = true := by
    intro m k hm
    have := padZeroLeft_all_digits k (digitsOf m) (digitsOf_all_digits m) c hm
    simp [isTsChar, this]
  rcases hc with ((((((h | rfl) | h) | rfl) | h) | rfl) | h)
  · exact hdig h
  · decide
  · exact hdig h
  · decide
  · exact hdig h
  · decide
  · exact hdig h

theorem formatTimestamp_ne_nil (n : Nat) : formatTimestamp ((n : ℚ) / 1000) ≠ [] := by
  rw [formatTimestamp_natMs]
  simp

theorem jsTrim_of_no_ws {s : Str} (h : ∀ c ∈ s, isJsWs c = false) : jsTrim s = s := by
  refine jsTrim_eq_self ?_ ?_
  · intro c hc
    rw [h c (List.mem_of_mem_head? (hc ▸ rfl))]
    exact Bool.false_ne_true
  · intro c hc
    rw [h c (List.mem_of_getLast?_eq_some hc)]
    exact Bool.false_ne_true

theorem matchSecFrac_shape (a b : Char) (mmm : Str)
    (ha : isDigitChar a = true) (hb : isDigitChar b = true)
    (h1 : 1 ≤ mmm.length) (h3 : mmm.length ≤ 3)
    (hD : ∀ c ∈ mmm, isDigitChar c = true) :
    matchSecFrac (a :: b :: ('.' :: mmm)) = some ([a, b], some mmm) := by
  show (if isDigitChar a ∧ isDigitChar b then
      if ('.' = '.' ∨ '.' = ',') ∧ 1 ≤ mmm.length ∧ mmm.length ≤ 3
          ∧ mmm.all isDigitChar
      then some ([a, b], some mmm) else none
    else none) = some ([a, b], some mmm)
  rw [if_pos ⟨ha, hb⟩,
    if_pos ⟨Or.inl rfl, h1, h3, List.all_eq_true.mpr hD⟩]

theorem matchTimestampGroups_three (A B ss mmm : Str)
    (hAd : ∀ c ∈ A, isDigitChar c = true) (hAne : 1 ≤ A.length)
    (hBd : ∀ c ∈ B, isDigitChar c = true) (hB2 : B.length = 2)
    (hSd : ∀ c ∈ ss, isDigitChar c = true) (hS2 : ss.length = 2)
    (hMd : ∀ c ∈ mmm, isDigitChar c = true) (hM1 : 1 ≤ mmm.length)
    (hM3 : mmm.length ≤ 3) :
    matchTimestampGroups (A ++ ':' :: (B ++ ':' :: (ss ++ '.' :: mmm)))
      = some (some A, B, ss, some mmm) := by
  have hnc : ∀ {s : Str}, (∀ c ∈ s, isDigitChar c = true) → ':' ∉ s := by
    intro s hs hmem
    exact absurd (hs ':' hmem) (by decide)
  have hc3 : ':' ∉ ss ++ '.' :: mmm := by
    intro hmem
    rcases List.mem_append.mp hmem with h | h
    · exact hnc hSd h
    · rcases List.mem_cons.mp h with h' | h'
      · exact absurd h' (by decide)
      · exact hnc hMd h'
  obtain ⟨sa, sb, rfl⟩ := exists_pair_of_len2 hS2
  have hsa := hSd sa (by simp)
  have hsb := hSd sb (by simp)
  simp only [matchTimestampGroups]
  rw [splitOnChar_three (hnc hAd) (hnc hBd) hc3]
  dsimp only
  rw [if_pos ⟨hAne, List.all_eq_true.mpr hAd, hB2, List.all_eq_true.mpr hBd⟩]
  have hrw : [sa, sb] ++ '.' :: mmm = sa :: sb :: ('.' :: mmm) := rfl
  rw [hrw, matchSecFrac_shape sa sb mmm hsa hsb hM1 hM3 hMd]

theorem parse_format_roundtrip (n : Nat) :
    parseTimestamp (formatTimestamp ((n : ℚ) / 1000)) = some ((n : ℚ) / 1000) := by
  have hchars := formatTimestamp_chars n
  have htrim : jsTrim (formatTimestamp ((n : ℚ) / 1000))
      = formatTimestamp ((n : ℚ) / 1000) :=
    jsTrim_of_no_ws (fun c hc => tsChar_not_ws (hchars c hc))
  have hne := formatTimestamp_ne_nil n
  have hF : formatTimestamp ((n : ℚ) / 1000)
      = padZeroLeft 2 (digitsOf (n / 3600000))
        ++ ':' :: (padZeroLeft 2 (digitsOf (n % 3600000 / 60000))
        ++ ':' :: (padZeroLeft 2 (digitsOf (n % 60000 / 1000))
        ++ '.' :: padZeroLeft 3 (digitsOf (n % 1000)))) := by
    rw [formatTimestamp_natMs]
    simp [List.append_assoc]
  have hDlen : (padZeroLeft 3 (digitsOf (n % 1000))).length = 3 := by
    rw [padZeroLeft_length]
    have := digitsOf_length_three (by omega : n % 1000 < 1000)
    omega
  simp only [parseTimestamp, htrim]
  rw [if_neg (by simpa using hne), hF,
    matchTimestampGroups_three _ _ _ _
      (padZeroLeft_all_digits _ _ (digitsOf_all_digits _))
      (by rw [padZeroLeft_length]; omega)
      (padZeroLeft_all_digits _ _ (digitsOf_all_digits _))
      (by rw [padZeroLeft_length]
          have := digitsOf_length_two (by omega : n % 3600000 / 60000 < 100)
          have := digitsOf_ne_nil (n % 3600000 / 60000)
          have := List.length_pos.mpr (digitsOf_ne_nil (n % 3600000 / 60000))
          omega)
      (padZeroLeft_all_digits _ _ (digitsOf_all_digits _))
      (by rw [padZeroLeft_length]
          have := digitsOf_length_two (by omega : n % 60000 / 1000 < 100)
          have := List.length_pos.mpr (digitsOf_ne_nil (n % 60000 / 1000))
          omega)
      (padZeroLeft_all_digits _ _ (digitsOf_all_digits _))
      (by rw [hDlen]
          omega)
      (by rw [hDlen])]
  show some (max 0 (qAdd
      ((dVal (padZeroLeft 2 (digitsOf (n / 3600000))) * 3600
        + dVal (padZeroLeft 2 (digitsOf (n % 3600000 / 60000))) * 60
        + dVal (padZeroLeft 2 (digitsOf (n % 60000 / 1000))) : Nat) : ℚ)
      (qDiv ((dVal (padEndZero3 (padZeroLeft 3 (digitsOf (n % 1000)))) : Nat) : ℚ)
        1000))) = some ((n : ℚ) / 1000)
  rw [padEndZero3_len3 hDlen, dVal_padZeroLeft, dVal_padZeroLeft, dVal_padZeroLeft,
    dVal_padZeroLeft, dVal_digitsOf, dVal_digitsOf, dVal_digitsOf, dVal_digitsOf]
  have hsec : n / 3600000 * 3600 + n % 3600000 / 60000 * 60 + n % 60000 / 1000
      = n / 1000 := by
    omega
  rw [hsec, qAdd_eq, qDiv_eq]
  have harith : ((n / 1000 : Nat) : ℚ) + ((n % 1000 : Nat) : ℚ) / 1000
      = (n : ℚ) / 1000 := by
    have h := Nat.div_add_mod n 1000
    field_simp
    exact_mod_cast (by omega : n / 1000 * 1000 + n % 1000 = n)
  rw [harith, max_eq_right (by positivity)]

/-- A string usable as one split block: every newline in it is immediately
followed by a non-newline character (so it contains no blank-line run and
does not end with a newline). -/
def blockSafeB : Str → Bool
  | [] => true
  | c :: rest =>
    (if c = '\n' then
      (match rest.head? with
       | none => false
       | some d => !(decide (d = '\n')))
     else true) && blockSafeB rest


theorem splitBlankAux_block_aux :
    ∀ (n : Nat) (b : Str), b.length = n → blockSafeB b = true →
    ∀ (cur : Str) (c : Char) (cs : Str), c ≠ '\n' →
    splitBlankAux cur 0 (b ++ '\n' :: '\n' :: (c :: cs))
      = (cur.reverse ++ b) :: splitBlankAux [] 0 (c :: cs) := by
  intro n
  induction n using Nat.strong_induction_on with
  | _ n ih =>
    intro b hn hb cur c cs hc
    match b with
    | [] =>
      have e1 : splitBlankAux cur 0 ('\n' :: '\n' :: c :: cs)
          = splitBlankAux cur 2 (c :: cs) := rfl
      rw [List.nil_append, e1, splitBlankAux, if_neg hc,
        if_pos (by omega : 2 ≤ 2)]
      have e2 : splitBlankAux [] 0 (c :: cs) = splitBlankAux [c] 0 cs := by
        rw [splitBlankAux, if_neg hc]
        rw [if_neg (by omega : ¬ 2 ≤ 0), if_neg (by omega : ¬ (0 : Nat) = 1)]
      rw [List.append_nil, e2]
    | x :: b' =>
      by_cases hx : x = '\n'
      · subst hx
        match b', hb with
        | d :: b'', hb =>
          have hb2 : (¬ d = '\n') ∧ blockSafeB (d :: b'') = true := by
            rw [blockSafeB] at hb
            simpa using hb
          have hd : ¬ d = '\n' := hb2.1
          have hsafe2 : blockSafeB b'' = true := by
            have := hb2.2
            rw [blockSafeB, if_neg hd] at this
            simpa using this
          have e1 : splitBlankAux cur 0 ('\n' :: d :: (b'' ++ '\n' :: '\n' :: (c :: cs)))
              = splitBlankAux cur 1 (d :: (b'' ++ '\n' :: '\n' :: (c :: cs))) := rfl
          rw [List.cons_append, List.cons_append, e1, splitBlankAux, if_neg hd,
            if_neg (by omega : ¬ 2 ≤ 1), if_pos rfl,
            ih b''.length (by simp at hn; omega) b'' rfl hsafe2 (d :: '\n' :: cur) c cs hc]
          simp
      · have hsafe : blockSafeB b' = true := by
          rw [blockSafeB, if_neg hx] at hb
          simpa using hb
        rw [List.cons_append, splitBlankAux, if_neg hx,
          if_neg (by omega : ¬ 2 ≤ 0), if_neg (by omega : ¬ (0 : Nat) = 1),
          ih b'.length (by simp at hn; omega) b' rfl hsafe (x :: cur) c cs hc]
        simp

theorem splitBlankAux_last_aux :
    ∀ (n : Nat) (b : Str), b.length = n → blockSafeB b = true →
    ∀ (cur : Str), splitBlankAux cur 0 b = [cur.reverse ++ b] := by
  intro n
  induction n using Nat.strong_induction_on with
  | _ n ih =>
    intro b hn hb cur
    match b with
    | [] =>
      rw [splitBlankAux, if_neg (by omega : ¬ 2 ≤ 0),
        if_neg (by omega : ¬ (0 : Nat) = 1), List.append_nil]
    | x :: b' =>
      by_cases hx : x = '\n'
      · subst hx
        match b', hb with
        | d :: b'', hb =>
          have hb2 : (¬ d = '\n') ∧ blockSafeB (d :: b'') = true := by
            rw [blockSafeB] at hb
            simpa using hb
          have hd : ¬ d = '\n' := hb2.1
          have hsafe2 : blockSafeB b'' = true := by
            have := hb2.2
            rw [blockSafeB, if_neg hd] at this
            simpa using this
          have e1 : splitBlankAux cur 0 ('\n' :: d :: b'')
              = splitBlankAux cur 1 (d :: b'') := rfl
          rw [e1, splitBlankAux, if_neg hd, if_neg (by omega : ¬ 2 ≤ 1),
            if_pos rfl, ih b''.length (by simp at hn; omega) b'' rfl hsafe2
              (d :: '\n' :: cur)]
          simp
      · have hsafe : blockSafeB b' = true := by
          rw [blockSafeB, if_neg hx] at hb
          simpa using hb
        rw [splitBlankAux, if_neg hx, if_neg (by omega : ¬ 2 ≤ 0),
          if_neg (by omega : ¬ (0 : Nat) = 1),
          ih b'.length (by simp at hn; omega) b' rfl hsafe (x :: cur)]
        simp

theorem intercalate_one {α : Type} (s x : List α) :
    List.intercalate s [x] = x := by
  simp [List.intercalate]

theorem intercalate_cons_ne {α : Type} (s a : List α) {l : List (List α)}
    (h : l ≠ []) :
    List.intercalate s (a :: l) = a ++ (s ++ List.intercalate s l) := by
  cases l with
  | nil => exact absurd rfl h
  | cons c cs =>
    rw [List.intercalate, List.intercalate]
    rfl

theorem splitBlankRuns_blocks :
    ∀ (bs : List (List Char)), bs ≠ [] →
    (∀ b ∈ bs, blockSafeB b = true ∧ b.head? ≠ some '\n' ∧ b ≠ []) →
    splitBlankRuns (List.intercalate ['\n', '\n'] bs) = bs := by
  intro bs
  induction bs with
  | nil => intro h; exact absurd rfl h
  | cons b rest ih =>
    intro _ hall
    rcases rest with _ | ⟨b2, rest'⟩
    · rw [intercalate_one, splitBlankRuns,
        splitBlankAux_last_aux b.length b rfl (hall b (by simp)).1 []]
      rfl
    · obtain ⟨hsafe2, hhead2, hne2⟩ := hall b2 (by simp)
      rcases b2 with _ | ⟨c2, cs2⟩
      · exact absurd rfl hne2
      · have hc2 : c2 ≠ '\n' := by
          intro h
          exact hhead2 (by rw [h]; rfl)
        obtain ⟨t, ht⟩ : ∃ t, List.intercalate ['\n', '\n'] ((c2 :: cs2) :: rest')
            = c2 :: t := by
          rcases rest' with _ | ⟨b3, rest''⟩
          · exact ⟨cs2, intercalate_one _ _⟩
          · refine ⟨cs2 ++ (['\n', '\n']
              ++ List.intercalate ['\n', '\n'] (b3 :: rest'')), ?_⟩
            rw [intercalate_cons_ne _ _ (by simp : b3 :: rest'' ≠ []),
              List.cons_append]
        rw [intercalate_cons_ne _ _ (by simp : (c2 :: cs2) :: rest' ≠ []), ht]
        rw [show (['\n', '\n'] ++ c2 :: t) = '\n' :: '\n' :: (c2 :: t) from rfl]
        rw [splitBlankRuns, splitBlankAux_block_aux b.length b rfl
          (hall b (by simp)).1 [] c2 t hc2]
        rw [show splitBlankAux [] 0 (c2 :: t) = splitBlankRuns (c2 :: t) from rfl,
          ← ht, ih (by simp) (fun x hx => hall x (List.mem_cons_of_mem b hx))]
        rfl

theorem char_toNat_le_of_le {a b : Char} (h : a ≤ b) : a.toNat ≤ b.toNat := by
  rw [Char.le_def, UInt32.le_def, BitVec.le_def] at h
  exact h

theorem char_toNat_ofNat {m : Nat} (h : m < 55296) : (Char.ofNat m).toNat = m := by
  rw [Char.ofNat, dif_pos (Or.inl h)]
  rfl

theorem lowerAscii_ne_cr {c : Char} (h : c ≠ '\r') : lowerAscii c ≠ '\r' := by
  rw [lowerAscii]
  split
  · rename_i hAZ
    intro heq
    have h1 : (65 : Nat) ≤ c.toNat := char_toNat_le_of_le hAZ.1
    have h2 : c.toNat ≤ (90 : Nat) := char_toNat_le_of_le hAZ.2
    have hval : (Char.ofNat (c.toNat + 32)).toNat = c.toNat + 32 :=
      char_toNat_ofNat (by omega)
    have h3 := congrArg Char.toNat heq
    rw [hval] at h3
    have h4 : c.toNat + 32 = 13 := h3
    omega
  · exact h

theorem charEqCI_cr_false {c : Char} (h : c ≠ '\r') : charEqCI '\r' c = false := by
  rw [charEqCI, show lowerAscii '\r' = '\r' from by decide]
  exact decide_eq_false (fun heq => lowerAscii_ne_cr h heq.symm)

theorem replaceCIAux_id (p : Char) (ps repl : Str) :
    ∀ s : Str, (∀ c ∈ s, charEqCI p c = false) →
      replaceCIAux (p :: ps) repl 0 s = s := by
  intro s
  induction s with
  | nil => intro _; rfl
  | cons c cs ih =>
    intro h
    have hh : headMatchesCI (p :: ps) (c :: cs) = false := by
      rw [headMatchesCI, h c (List.mem_cons_self c cs), Bool.false_and]
    rw [replaceCIAux, if_neg (by simp [hh]),
      ih (fun d hd => h d (List.mem_cons_of_mem _ hd))]

theorem normalizeLineEndings_id {s : Str} (h : '\r' ∉ s) :
    normalizeLineEndings s = s := by
  have hch : ∀ c ∈ s, charEqCI '\r' c = false := fun c hc =>
    charEqCI_cr_false (fun heq => h (heq ▸ hc))
  rw [normalizeLineEndings,
    show replaceCI ['\r', '\n'] ['\n'] s = s from replaceCIAux_id '\r' ['\n'] ['\n'] s hch]
  exact replaceCIAux_id '\r' [] ['\n'] s hch

theorem stripBom_id {c : Char} (cs : Str) (h : c ≠ '﻿') :
    stripBom (c :: cs) = c :: cs := by
  rw [stripBom, if_neg h]

theorem dropWhile_append_nonempty {p : Char → Bool} {a : Str} (b : Str)
    (h : a.dropWhile p ≠ []) :
    (a ++ b).dropWhile p = a.dropWhile p ++ b := by
  induction a with
  | nil => exact absurd rfl h
  | cons c cs ih =>
    by_cases hp : p c = true
    · rw [List.dropWhile_cons, if_pos hp] at h
      rw [List.cons_append, List.dropWhile_cons, if_pos hp,
        List.dropWhile_cons, if_pos hp]
      exact ih h
    · rw [List.cons_append, List.dropWhile_cons, if_neg hp,
        List.dropWhile_cons, if_neg hp]
      rfl

theorem dropWhile_append_nil {p : Char → Bool} {a : Str} (b : Str)
    (h : a.dropWhile p = []) :
    (a ++ b).dropWhile p = b.dropWhile p := by
  induction a with
  | nil => rfl
  | cons c cs ih =>
    rw [List.dropWhile_cons] at h
    by_cases hp : p c = true
    · rw [if_pos hp] at h
      rw [List.cons_append, List.dropWhile_cons, if_pos hp]
      exact ih h
    · rw [if_neg hp] at h
      exact absurd h (List.cons_ne_nil c cs)

theorem jsTrim_concat_ws (s : Str) (c : Char) (hc : isJsWs c = true) :
    jsTrim (s ++ [c]) = jsTrim s := by
  by_cases hall : s.dropWhile isJsWs = []
  · rw [jsTrim, jsTrim, dropWhile_append_nil [c] hall, hall]
    rw [show List.dropWhile isJsWs [c] = [] from by
      rw [List.dropWhile_cons, if_pos hc]; rfl]
  · rw [jsTrim, jsTrim, dropWhile_append_nonempty [c] hall, List.reverse_append]
    rw [show ([c] : Str).reverse ++ (s.dropWhile isJsWs).reverse
        = c :: (s.dropWhile isJsWs).reverse from rfl]
    rw [List.dropWhile_cons, if_pos hc]

theorem fixTrailingNewlines_id (y : Str)
    (hy : ∀ c, y.getLast? = some c → c ≠ '\n') :
    fixTrailingNewlines (y ++ ['\n']) = y ++ ['\n'] := by
  rw [fixTrailingNewlines]
  have hrev : (y ++ ['\n']).reverse = '\n' :: y.reverse := by simp
  rw [hrev]
  have hdw : List.dropWhile (fun c => c = '\n') ('\n' :: y.reverse)
      = y.reverse := by
    rw [List.dropWhile_cons, if_pos (by decide)]
    refine dropWhile_eq_self_of_head ?_
    intro c hc
    rw [List.head?_reverse] at hc
    simpa using hy c hc
  rw [hdw, List.reverse_reverse]
  split <;> rfl

theorem trimmed_head_not_ws {s : Str} (hs : jsTrim s = s) {c : Char}
    (hc : s.head? = some c) : isJsWs c = false := by
  cases s with
  | nil => simp at hc
  | cons a t =>
    have hac : a = c := by simpa using hc
    rw [← hac]
    rcases Bool.eq_false_or_eq_true (isJsWs a) with ht | hf
    · exfalso
      rw [jsTrim, List.dropWhile_cons, if_pos ht] at hs
      have hlen := congrArg List.length hs
      have h1 : ((t.dropWhile isJsWs).reverse.dropWhile isJsWs).length
          ≤ t.length := by
        calc ((t.dropWhile isJsWs).reverse.dropWhile isJsWs).length
            ≤ (t.dropWhile isJsWs).reverse.length :=
              (List.dropWhile_sublist _).length_le
          _ = (t.dropWhile isJsWs).length := List.length_reverse _
          _ ≤ t.length := (List.dropWhile_sublist _).length_le
      rw [List.length_reverse] at hlen
      simp at hlen
      omega
    · exact hf

theorem jsTrimEnd_id {s : Str}
    (h : ∀ c, s.getLast? = some c → isJsWs c = false) : jsTrimEnd s = s := by
  rw [jsTrimEnd, dropWhile_eq_self_of_head, List.reverse_reverse]
  intro c hc
  rw [List.head?_reverse] at hc
  rw [h c hc]
  exact Bool.false_ne_true

theorem trimmed_last_not_ws {s : Str} (hs : jsTrim s = s) {c : Char}
    (hc : s.getLast? = some c) : isJsWs c = false := by
  have hdnil : s.dropWhile isJsWs ≠ [] := by
    intro hd
    rw [jsTrim, hd] at hs
    simp at hs
    rw [hs] at hc
    simp at hc
  have hsplit : s.takeWhile isJsWs ++ s.dropWhile isJsWs = s :=
    List.takeWhile_append_dropWhile isJsWs s
  have hlast : (s.dropWhile isJsWs).getLast? = some c := by
    rw [← getLast?_append_right (s.takeWhile isJsWs) hdnil, hsplit]
    exact hc
  have hhead : (s.dropWhile isJsWs).reverse.head? = some c := by
    rw [List.head?_reverse]
    exact hlast
  rcases Bool.eq_false_or_eq_true (isJsWs c) with ht | hf
  · exfalso
    obtain ⟨tail, htail⟩ : ∃ t, (s.dropWhile isJsWs).reverse = c :: t := by
      cases hr : (s.dropWhile isJsWs).reverse with
      | nil => rw [hr] at hhead; simp at hhead
      | cons x xs =>
        rw [hr] at hhead
        simp at hhead
        exact ⟨xs, by rw [hhead]⟩
    have hjs : jsTrim s = ((s.dropWhile isJsWs).reverse.dropWhile isJsWs).reverse :=
      rfl
    rw [htail, List.dropWhile_cons, if_pos ht] at hjs
    have hlen := congrArg List.length (hjs ▸ hs :
      ((tail.dropWhile isJsWs).reverse : Str) = s)
    have h1 : (tail.dropWhile isJsWs).length ≤ tail.length :=
      (List.dropWhile_sublist _).length_le
    have h2 : tail.length + 1 = (s.dropWhile isJsWs).length := by
      have := congrArg List.length htail
      simp at this
      omega
    have h3 : (s.dropWhile isJsWs).length ≤ s.length :=
      (List.dropWhile_sublist _).length_le
    rw [List.length_reverse] at hlen
    omega
  · exact hf

theorem head?_append_left {a : Str} (b : Str) (h : a ≠ []) :
    (a ++ b).head? = a.head? := by
  cases a with
  | nil => exact absurd rfl h
  | cons c cs => rfl

theorem takeWhile_all_eq {p : Char → Bool} {a : Str} (h : ∀ c ∈ a, p c = true) :
    a.takeWhile p = a := by
  have := takeWhile_all_append (p := p) (a := a) [] h
  simpa using this

theorem toFixed3_thousandth (n : Nat) : toFixed3 ((n : ℚ) / 1000) = (n : ℚ) / 1000 := by
  rw [toFixed3_eq]
  have h1 : (n : ℚ) / 1000 * 1000 + 1 / 2 = (n : ℚ) + 1 / 2 := by
    field_simp
  rw [h1]
  have h2 : (⌊(n : ℚ) + 1 / 2⌋ : Int) = (n : Int) := by
    rw [Int.floor_eq_iff]
    constructor
    · push_cast
      linarith
    · push_cast
      linarith
  rw [h2]
  push_cast
  ring

theorem matchTimingLine_shape (f1 f2 : Str) (h1 : f1 ≠ []) (h2 : f2 ≠ [])
    (hw1 : ∀ c ∈ f1, isJsWs c = false) (hw2 : ∀ c ∈ f2, isJsWs c = false) :
    matchTimingLine (f1 ++ ' ' :: '-' :: '-' :: '>' :: ' ' :: f2)
      = some (f1, f2) := by
  have hp1 : ∀ c ∈ f1, (fun c => ¬ isJsWs c : Char → Bool) c = true := by
    intro c hc
    simp [hw1 c hc]
  have htok1 : (f1 ++ ' ' :: '-' :: '-' :: '>' :: ' ' :: f2).takeWhile
      (fun c => ¬ isJsWs c) = f1 := by
    rw [takeWhile_all_append _ hp1, List.takeWhile_cons, if_neg (by decide)]
    simp
  have hrest1 : (f1 ++ ' ' :: '-' :: '-' :: '>' :: ' ' :: f2).dropWhile
      (fun c => ¬ isJsWs c) = ' ' :: '-' :: '-' :: '>' :: ' ' :: f2 := by
    rw [dropWhile_all_append _ hp1, List.dropWhile_cons, if_neg (by decide)]
  have hafter1 : (' ' :: '-' :: '-' :: '>' :: ' ' :: f2 : Str).dropWhile isJsWs
      = '-' :: '-' :: '>' :: ' ' :: f2 := by
    rw [List.dropWhile_cons, if_pos (by decide), List.dropWhile_cons,
      if_neg (by decide)]
  have hdw2 : (' ' :: f2 : Str).dropWhile isJsWs = f2 := by
    rw [List.dropWhile_cons, if_pos (by decide)]
    refine dropWhile_eq_self_of_head ?_
    intro c hc
    rw [hw2 c (List.mem_of_mem_head? (hc ▸ rfl))]
    exact Bool.false_ne_true
  have htw2 : f2.takeWhile (fun c => ¬ isJsWs c) = f2 :=
    takeWhile_all_eq (by intro c hc; simp [hw2 c hc])
  simp only [matchTimingLine]
  rw [htok1, hrest1]
  rw [if_neg (by simp [h1]), if_neg (by simp)]
  rw [hafter1]
  rw [if_neg (by simp [headMatchesLit])]
  rw [show ('-' :: '-' :: '>' :: ' ' :: f2 : Str).drop 3 = ' ' :: f2 from rfl]
  dsimp only
  rw [if_neg (by decide)]
  rw [hdw2, htw2]
  rw [if_neg (by simp [h2])]

theorem tsChar_ne_letters {a : Char} (h : isTsChar a = true) :
    a ≠ 'N' ∧ a ≠ 'S' ∧ a ≠ 'R' := by
  rw [isTsChar] at h
  simp only [Bool.or_eq_true, decide_eq_true_eq] at h
  rcases h with (hd | rfl) | rfl
  · rw [isDigitChar] at hd
    simp only [decide_eq_true_eq] at hd
    have h9 := char_toNat_le_of_le hd.2
    have hN : ('9' : Char).toNat = 57 := by decide
    rw [hN] at h9
    refine ⟨?_, ?_, ?_⟩ <;> (rintro rfl; revert h9; decide)
  · exact ⟨by decide, by decide, by decide⟩
  · exact ⟨by decide, by decide, by decide⟩

theorem parseBlockFromLines_shape (f1 f2 tx : Str) (q1 q2 : ℚ)
    (hf1ne : f1 ≠ []) (hf2ne : f2 ≠ [])
    (hf1ch : ∀ c ∈ f1, isTsChar c = true) (hf2ch : ∀ c ∈ f2, isTsChar c = true)
    (hp1 : parseTimestamp f1 = some q1) (hp2 : parseTimestamp f2 = some q2)
    (htne : tx ≠ []) (hnorm : normalizeCueText tx = tx)
    (hle : q1 ≤ q2) :
    parseBlockFromLines [f1 ++ ' ' :: '-' :: '-' :: '>' :: ' ' :: f2, tx]
      = some { identifier := none, start_time := toFixed3 q1,
               end_time := toFixed3 q2, text := tx } := by
  have hf1ws : ∀ c ∈ f1, isJsWs c = false := fun c hc => tsChar_not_ws (hf1ch c hc)
  have hf2ws : ∀ c ∈ f2, isJsWs c = false := fun c hc => tsChar_not_ws (hf2ch c hc)
  obtain ⟨a0, f1r, rfl⟩ : ∃ a0 r, f1 = a0 :: r := by
    cases f1 with
    | nil => exact absurd rfl hf1ne
    | cons x xs => exact ⟨x, xs, rfl⟩
  have ha0ts : isTsChar a0 = true := hf1ch a0 (List.mem_cons_self _ _)
  obtain ⟨hnN, hnS, hnR⟩ := tsChar_ne_letters ha0ts
  have hAassoc : (a0 :: f1r) ++ ' ' :: '-' :: '-' :: '>' :: ' ' :: f2
      = ((a0 :: f1r) ++ [' ', '-', '-', '>', ' ']) ++ f2 := by
    simp
  have hlastA : ∀ c, ((a0 :: f1r) ++ ' ' :: '-' :: '-' :: '>' :: ' ' :: f2).getLast?
      = some c → isJsWs c = false := by
    intro c hc
    rw [hAassoc, getLast?_append_right _ hf2ne] at hc
    exact hf2ws c (List.mem_of_getLast?_eq_some hc)
  have htrimA : jsTrim ((a0 :: f1r) ++ ' ' :: '-' :: '-' :: '>' :: ' ' :: f2)
      = (a0 :: f1r) ++ ' ' :: '-' :: '-' :: '>' :: ' ' :: f2 := by
    refine jsTrim_eq_self ?_ ?_
    · intro c hc
      have : a0 = c := by simpa using hc
      rw [← this, hf1ws a0 (List.mem_cons_self _ _)]
      exact Bool.false_ne_true
    · intro c hc
      rw [hlastA c hc]
      exact Bool.false_ne_true
  have hcont : strContainsSub ['-', '-', '>']
      ((a0 :: f1r) ++ ' ' :: '-' :: '-' :: '>' :: ' ' :: f2) = true := by
    rw [show ((a0 :: f1r) ++ ' ' :: '-' :: '-' :: '>' :: ' ' :: f2)
        = ((a0 :: f1r) ++ [' ']) ++ ['-', '-', '>'] ++ (' ' :: f2) from by simp]
    exact strContainsSub_mid _ _ _ (by simp)
  have hnote : headMatchesLit (r"NOTE").toList
      ((a0 :: f1r) ++ ' ' :: '-' :: '-' :: '>' :: ' ' :: f2) = false := by
    rw [show ((r"NOTE").toList : Str) = 'N' :: ['O', 'T', 'E'] from rfl,
      List.cons_append, headMatchesLit,
      decide_eq_false (fun h => hnN h.symm), Bool.false_and]
  have hsty : ¬ ((a0 :: f1r) ++ ' ' :: '-' :: '-' :: '>' :: ' ' :: f2
      = (r"STYLE").toList) := by
    intro h
    have := congrArg List.head? h
    simp at this
    exact hnS this
  have hreg : ¬ ((a0 :: f1r) ++ ' ' :: '-' :: '-' :: '>' :: ' ' :: f2
      = (r"REGION").toList) := by
    intro h
    have := congrArg List.head? h
    simp at this
    exact hnR this
  simp only [parseBlockFromLines, List.getD_cons_zero, List.getD_cons_succ]
  rw [htrimA]
  rw [if_neg (show ¬ (headMatchesLit (r"NOTE").toList
      ((a0 :: f1r) ++ ' ' :: '-' :: '-' :: '>' :: ' ' :: f2) = true
      ∨ (a0 :: f1r) ++ ' ' :: '-' :: '-' :: '>' :: ' ' :: f2 = (r"STYLE").toList
      ∨ (a0 :: f1r) ++ ' ' :: '-' :: '-' :: '>' :: ' ' :: f2 = (r"REGION").toList)
    from by
      rintro (h | h | h)
      · rw [hnote] at h
        exact Bool.false_ne_true h
      · exact hsty h
      · exact hreg h)]
  rw [if_pos hcont]
  dsimp only
  simp only [List.getD_cons_zero, List.getD_cons_succ]
  rw [htrimA, matchTimingLine_shape (a0 :: f1r) f2 (by simp) hf2ne hf1ws hf2ws]
  dsimp only
  rw [hp1, hp2]
  dsimp only
  rw [if_neg (not_lt.mpr hle)]
  simp only [zero_add, List.drop_succ_cons, List.drop_zero]
  rw [intercalate_single, hnorm]
  rw [if_neg (by simp [htne])]
  rw [if_neg (by simp)]

theorem tsChar_ne_nl {c : Char} (h : isTsChar c = true) : c ≠ '\n' := by
  rw [isTsChar] at h
  simp only [Bool.or_eq_true, decide_eq_true_eq] at h
  rcases h with (hd | rfl) | rfl
  · rw [isDigitChar] at hd
    simp only [decide_eq_true_eq] at hd
    rintro rfl
    revert hd
    decide
  · decide
  · decide

theorem parseBlockCue_shape (f1 f2 tx : Str) (q1 q2 : ℚ)
    (hf1ne : f1 ≠ []) (hf2ne : f2 ≠ [])
    (hf1ch : ∀ c ∈ f1, isTsChar c = true) (hf2ch : ∀ c ∈ f2, isTsChar c = true)
    (hp1 : parseTimestamp f1 = some q1) (hp2 : parseTimestamp f2 = some q2)
    (htne : tx ≠ []) (hnorm : normalizeCueText tx = tx) (htrim : jsTrim tx = tx)
    (hnl : '\n' ∉ tx) (hle : q1 ≤ q2) :
    parseBlockCue ((f1 ++ ' ' :: '-' :: '-' :: '>' :: ' ' :: f2) ++ '\n' :: tx)
      = some { identifier := none, start_time := toFixed3 q1,
               end_time := toFixed3 q2, text := tx } := by
  have hf1ws : ∀ c ∈ f1, isJsWs c = false := fun c hc => tsChar_not_ws (hf1ch c hc)
  have hf2ws : ∀ c ∈ f2, isJsWs c = false := fun c hc => tsChar_not_ws (hf2ch c hc)
  have hAne : f1 ++ ' ' :: '-' :: '-' :: '>' :: ' ' :: f2 ≠ [] :=
    fun h => hf1ne (List.append_eq_nil.mp h).1
  have hAnl : '\n' ∉ f1 ++ ' ' :: '-' :: '-' :: '>' :: ' ' :: f2 := by
    intro hmem
    rcases List.mem_append.mp hmem with h | h
    · exact tsChar_ne_nl (hf1ch '\n' h) rfl
    · simp only [List.mem_cons] at h
      rcases h with h | h | h | h | h | h
    
      · exact absurd h (by decide)
      · exact absurd h (by decide)
      · exact absurd h (by decide)
      · exact absurd h (by decide)
      · exact absurd h (by decide)
      · exact tsChar_ne_nl (hf2ch '\n' h) rfl
  have hAlast : ∀ c, (f1 ++ ' ' :: '-' :: '-' :: '>' :: ' ' :: f2).getLast?
      = some c → isJsWs c = false := by
    intro c hc
    rw [show (f1 ++ ' ' :: '-' :: '-' :: '>' :: ' ' :: f2)
        = (f1 ++ [' ', '-', '-', '>', ' ']) ++ f2 from by simp,
      getLast?_append_right _ hf2ne] at hc
    exact hf2ws c (List.mem_of_getLast?_eq_some hc)
  have htrimB : jsTrim ((f1 ++ ' ' :: '-' :: '-' :: '>' :: ' ' :: f2) ++ '\n' :: tx)
      = (f1 ++ ' ' :: '-' :: '-' :: '>' :: ' ' :: f2) ++ '\n' :: tx := by
    refine jsTrim_eq_self ?_ ?_
    · intro c hc
      rw [head?_append_left _ hAne, head?_append_left _ hf1ne] at hc
      rw [hf1ws c (List.mem_of_mem_head? hc)]
      exact Bool.false_ne_true
    · intro c hc
      rw [getLast?_append_right _ (List.cons_ne_nil _ _),
        show (('\n' :: tx : Str)) = ['\n'] ++ tx from rfl,
        getLast?_append_right _ htne] at hc
      rw [trimmed_last_not_ws htrim hc]
      exact Bool.false_ne_true
  have hteA : jsTrimEnd (f1 ++ ' ' :: '-' :: '-' :: '>' :: ' ' :: f2)
      = f1 ++ ' ' :: '-' :: '-' :: '>' :: ' ' :: f2 := jsTrimEnd_id hAlast
  have htetx : jsTrimEnd tx = tx :=
    jsTrimEnd_id (fun c hc => trimmed_last_not_ws htrim hc)
  simp only [parseBlockCue]
  rw [htrimB]
  rw [if_neg (by simp)]
  rw [splitOnChar_two hAnl hnl]
  simp only [List.map_cons, List.map_nil]
  rw [hteA, htetx]
  rw [if_neg (by simp)]
  exact parseBlockFromLines_shape f1 f2 tx q1 q2 hf1ne hf2ne hf1ch hf2ch hp1 hp2
    htne hnorm hle

/-- The timing line the serializer writes for one cue. -/
def cueTimingLine (c : WebVttCue) : Str :=
  formatTimestamp c.start_time ++ [' ', '-', '-', '>', ' '] ++ formatTimestamp c.end_time

/-- The two-line block (timing line, newline, text) that one identifier-free
cue contributes to the serialized document. -/
def cueBlock (c : WebVttCue) : Str := cueTimingLine c ++ '\n' :: c.text

/-- Shape of a cue as `sanitizeCue` outputs it (identifier stripped, text
trimmed/non-empty, times non-negative whole milliseconds): such cues are
reproduced exactly by `parseBlockCue` on their serialized block. -/
def SerReady (c : WebVttCue) : Prop :=
  c.identifier = none ∧ c.text ≠ [] ∧ normalizeCueText c.text = c.text ∧
  jsTrim c.text = c.text ∧ '\n' ∉ c.text ∧ '\r' ∉ c.text ∧
  (∃ n : ℕ, c.start_time = (n : ℚ) / 1000) ∧
  (∃ m : ℕ, c.end_time = (m : ℚ) / 1000) ∧
  c.start_time ≤ c.end_time

/-- Input-side cue shape on which `sanitizeCue` is the identity and the
serialize/parse round trip is exact. -/
def GoodCue (c : WebVttCue) : Prop :=
  c.identifier = none ∧ c.text ≠ [] ∧ normalizeCueText c.text = c.text ∧
  jsTrim c.text = c.text ∧ '\n' ∉ c.text ∧ '\r' ∉ c.text ∧
  (∃ n : ℕ, c.start_time = (n : ℚ) / 1000) ∧
  (∃ m : ℕ, c.end_time = (m : ℚ) / 1000) ∧
  c.start_time < c.end_time

theorem GoodCue_serReady {c : WebVttCue} (h : GoodCue c) : SerReady c := by
  obtain ⟨h1, h2, h3, h4, h5, h6, h7, h8, h9⟩ := h
  exact ⟨h1, h2, h3, h4, h5, h6, h7, h8, le_of_lt h9⟩

theorem parseBlockCue_cueBlock {c : WebVttCue} (h : SerReady c) :
    parseBlockCue (cueBlock c) = some c := by
  obtain ⟨hid, htne, hnorm, htrim, hnl, hcr, ⟨n, hn⟩, ⟨m, hm⟩, hle⟩ := h
  obtain ⟨id0, st0, en0, tx0⟩ := c
  dsimp only at hid hn hm htne hnorm htrim hnl hle
  subst hid
  subst hn
  subst hm
  have hblock : cueBlock ⟨none, (n : ℚ) / 1000, (m : ℚ) / 1000, tx0⟩
      = (formatTimestamp ((n : ℚ) / 1000)
          ++ ' ' :: '-' :: '-' :: '>' :: ' ' :: formatTimestamp ((m : ℚ) / 1000))
        ++ '\n' :: tx0 := by
    rw [cueBlock, cueTimingLine]
    dsimp only
    simp
  rw [hblock, parseBlockCue_shape _ _ _ ((n : ℚ) / 1000) ((m : ℚ) / 1000)
    (formatTimestamp_ne_nil n) (formatTimestamp_ne_nil m)
    (formatTimestamp_chars n) (formatTimestamp_chars m)
    (parse_format_roundtrip n) (parse_format_roundtrip m)
    htne hnorm htrim hnl hle]
  rw [toFixed3_thousandth, toFixed3_thousandth]

theorem blockSafeB_of_no_nl {s : Str} (h : '\n' ∉ s) : blockSafeB s = true := by
  induction s with
  | nil => rfl
  | cons c cs ih =>
    rw [blockSafeB]
    have hcne : ¬ (c = '\n') := by
      intro hc
      exact h (by rw [hc]; exact List.mem_cons_self _ _)
    rw [if_neg hcne, Bool.true_and]
    exact ih (fun hm => h (List.mem_cons_of_mem _ hm))

theorem blockSafeB_block {a tx : Str} (ha : '\n' ∉ a) (htx : '\n' ∉ tx)
    (htne : tx ≠ []) : blockSafeB (a ++ '\n' :: tx) = true := by
  induction a with
  | nil =>
    rw [List.nil_append, blockSafeB, if_pos rfl]
    obtain ⟨d, ds, rfl⟩ : ∃ d ds, tx = d :: ds := by
      cases tx with
      | nil => exact absurd rfl htne
      | cons d ds => exact ⟨d, ds, rfl⟩
    have hd : ¬ (d = '\n') := by
      intro hdn
      exact htx (by rw [hdn]; exact List.mem_cons_self _ _)
    simp only [List.head?_cons]
    rw [blockSafeB_of_no_nl htx]
    simp [hd]
  | cons c cs ih =>
    rw [List.cons_append, blockSafeB]
    have hcne : ¬ (c = '\n') := by
      intro hc
      exact ha (by rw [hc]; exact List.mem_cons_self _ _)
    rw [if_neg hcne, Bool.true_and]
    exact ih (fun hm => ha (List.mem_cons_of_mem _ hm))

theorem mem_cueTimingLine {c : WebVttCue} {x : Char} (h : SerReady c)
    (hx : x ∈ cueTimingLine c) :
    isTsChar x = true ∨ x = ' ' ∨ x = '-' ∨ x = '>' := by
  obtain ⟨-, -, -, -, -, -, ⟨n, hn⟩, ⟨m, hm⟩, -⟩ := h
  rw [cueTimingLine, hn, hm] at hx
  rcases List.mem_append.mp hx with hx | hx
  · rcases List.mem_append.mp hx with hx | hx
    · exact Or.inl (formatTimestamp_chars n x hx)
    · simp only [List.mem_cons] at hx
      rcases hx with rfl | rfl | rfl | rfl | rfl | hx
      · exact Or.inr (Or.inl rfl)
      · exact Or.inr (Or.inr (Or.inl rfl))
      · exact Or.inr (Or.inr (Or.inl rfl))
      · exact Or.inr (Or.inr (Or.inr rfl))
      · exact Or.inr (Or.inl rfl)
      · exact absurd hx (List.not_mem_nil _)
  · exact Or.inl (formatTimestamp_chars m x hx)

theorem cueTimingLine_no_nl {c : WebVttCue} (h : SerReady c) :
    '\n' ∉ cueTimingLine c := by
  intro hmem
  rcases mem_cueTimingLine h hmem with hts | hx | hx | hx
  · exact tsChar_ne_nl hts rfl
  · exact absurd hx (by decide)
  · exact absurd hx (by decide)
  · exact absurd hx (by decide)

theorem cueTimingLine_no_cr {c : WebVttCue} (h : SerReady c) :
    '\r' ∉ cueTimingLine c := by
  intro hmem
  rcases mem_cueTimingLine h hmem with hts | hx | hx | hx
  · have := tsChar_not_ws hts
    rw [show isJsWs '\r' = true from by decide] at this
    exact absurd this (by decide)
  · exact absurd hx (by decide)
  · exact absurd hx (by decide)
  · exact absurd hx (by decide)

theorem cueBlock_no_cr {c : WebVttCue} (h : SerReady c) : '\r' ∉ cueBlock c := by
  intro hmem
  rw [cueBlock] at hmem
  rcases List.mem_append.mp hmem with hx | hx
  · exact cueTimingLine_no_cr h hx
  · rcases List.mem_cons.mp hx with hx | hx
    · exact absurd hx (by decide)
    · exact h.2.2.2.2.2.1 hx

theorem formatTimestamp_ne_nil_q (q : ℚ) : formatTimestamp q ≠ [] := by
  simp only [formatTimestamp]
  intro h
  simp at h

theorem cueBlock_ne_nil (c : WebVttCue) : cueBlock c ≠ [] := by
  rw [cueBlock]
  intro h
  exact List.cons_ne_nil _ _ (List.append_eq_nil.mp h).2

theorem cueTimingLine_ne_nil (c : WebVttCue) : cueTimingLine c ≠ [] := by
  rw [cueTimingLine]
  intro h
  exact formatTimestamp_ne_nil_q c.start_time ((List.append_eq_nil.mp
    (List.append_eq_nil.mp h).1).1)

theorem cueBlock_head_not_ws {c : WebVttCue} (h : SerReady c) :
    ∀ x, (cueBlock c).head? = some x → isJsWs x = false := by
  intro x hx
  obtain ⟨-, -, -, -, -, -, ⟨n, hn⟩, -, -⟩ := h
  rw [cueBlock, head?_append_left _ (cueTimingLine_ne_nil c), cueTimingLine,
    head?_append_left _ (by
      intro hnil
      exact formatTimestamp_ne_nil_q c.start_time (List.append_eq_nil.mp hnil).1),
    head?_append_left _ (formatTimestamp_ne_nil_q c.start_time)] at hx
  rw [hn] at hx
  exact tsChar_not_ws (formatTimestamp_chars n x (List.mem_of_mem_head? hx))

theorem cueBlock_getLast? {c : WebVttCue} (h : SerReady c) :
    (cueBlock c).getLast? = c.text.getLast? := by
  rw [cueBlock, getLast?_append_right _ (List.cons_ne_nil _ _),
    show (('\n' :: c.text : Str)) = ['\n'] ++ c.text from rfl,
    getLast?_append_right _ h.2.1]

theorem cueBlock_safe {c : WebVttCue} (h : SerReady c) :
    blockSafeB (cueBlock c) = true := by
  rw [cueBlock]
  exact blockSafeB_block (cueTimingLine_no_nl h) h.2.2.2.2.1 h.2.1

theorem cueBlock_head_ne_nl {c : WebVttCue} (h : SerReady c) :
    (cueBlock c).head? ≠ some '\n' := by
  intro hx
  have := cueBlock_head_not_ws h '\n' hx
  rw [show isJsWs '\n' = true from by decide] at this
  exact absurd this (by decide)

theorem intercalate_ne_nil {α : Type} (s : List α) :
    ∀ (L : List (List α)), L ≠ [] → (∀ x ∈ L, x ≠ []) →
    List.intercalate s L ≠ [] := by
  intro L hne hall
  cases L with
  | nil => exact absurd rfl hne
  | cons b rest =>
    cases rest with
    | nil =>
      rw [intercalate_one]
      exact hall b (List.mem_cons_self _ _)
    | cons b2 rest' =>
      rw [intercalate_cons_ne _ _ (by simp)]
      intro hnil
      exact hall b (List.mem_cons_self _ _) (List.append_eq_nil.mp hnil).1

theorem getLast?_intercalate {α : Type} (s : List α) :
    ∀ (L : List (List α)), L ≠ [] → (∀ x ∈ L, x ≠ []) →
    ∃ b ∈ L, (List.intercalate s L).getLast? = b.getLast? := by
  intro L
  induction L with
  | nil => intro h; exact absurd rfl h
  | cons b rest ih =>
    intro _ hall
    cases rest with
    | nil =>
      exact ⟨b, List.mem_cons_self _ _, by rw [intercalate_one]⟩
    | cons b2 rest' =>
      obtain ⟨b3, hb3, hlast⟩ := ih (by simp)
        (fun x hx => hall x (List.mem_cons_of_mem _ hx))
      refine ⟨b3, List.mem_cons_of_mem _ hb3, ?_⟩
      rw [intercalate_cons_ne _ _ (by simp : (b2 :: rest' : List (List α)) ≠ []),
        getLast?_append_right b (by
          intro hnil
          exact intercalate_ne_nil s (b2 :: rest') (by simp)
            (fun x hx => hall x (List.mem_cons_of_mem _ hx))
            (List.append_eq_nil.mp hnil).2),
        getLast?_append_right s (intercalate_ne_nil s (b2 :: rest') (by simp)
          (fun x hx => hall x (List.mem_cons_of_mem _ hx))), hlast]

theorem mem_intercalate {α : Type} (s : List α) {x : α} :
    ∀ (L : List (List α)), x ∈ List.intercalate s L →
    x ∈ s ∨ ∃ b ∈ L, x ∈ b := by
  intro L
  induction L with
  | nil => intro h; exact absurd h (List.not_mem_nil _)
  | cons b rest ih =>
    intro hx
    cases rest with
    | nil =>
      rw [intercalate_one] at hx
      exact Or.inr ⟨b, List.mem_cons_self _ _, hx⟩
    | cons b2 rest' =>
      rw [intercalate_cons_ne _ _ (by simp)] at hx
      rcases List.mem_append.mp hx with hx | hx
      · exact Or.inr ⟨b, List.mem_cons_self _ _, hx⟩
      · rcases List.mem_append.mp hx with hx | hx
        · exact Or.inl hx
        · rcases ih hx with hx | ⟨b3, hb3, hxb⟩
          · exact Or.inl hx
          · exact Or.inr ⟨b3, List.mem_cons_of_mem _ hb3, hxb⟩

theorem serializeFold_eq (L : List WebVttCue)
    (hid : ∀ c ∈ L, c.identifier = none) :
    ∀ acc : List Str,
    L.foldl (fun acc cue =>
      acc
        ++ (match cue.identifier with | some id0 => [id0] | none => [])
        ++ [formatTimestamp cue.start_time ++ [' ', '-', '-', '>', ' ']
              ++ formatTimestamp cue.end_time]
        ++ [cue.text]
        ++ [[]]) acc
      = acc ++ L.flatMap (fun cue => [cueTimingLine cue, cue.text, []]) := by
  induction L with
  | nil => intro acc; simp
  | cons c cs ih =>
    intro acc
    rw [List.foldl_cons]
    have hc := hid c (List.mem_cons_self _ _)
    rw [hc]
    rw [ih (fun x hx => hid x (List.mem_cons_of_mem _ hx))]
    simp [cueTimingLine, List.append_assoc]

theorem intercalate_flat_blocks :
    ∀ L : List WebVttCue, L ≠ [] →
    List.intercalate ['\n'] (L.flatMap (fun cue => [cueTimingLine cue, cue.text, []]))
      = List.intercalate ['\n', '\n'] (L.map cueBlock) ++ ['\n'] := by
  intro L
  induction L with
  | nil => intro h; exact absurd rfl h
  | cons c cs ih =>
    intro _
    cases cs with
    | nil =>
      simp only [List.flatMap_cons, List.flatMap_nil, List.append_nil,
        List.map_cons, List.map_nil]
      rw [intercalate_cons_ne _ _ (by simp), intercalate_cons_ne _ _ (by simp),
        intercalate_one, intercalate_one]
      simp [cueBlock]
    | cons c2 cs' =>
      simp only [List.flatMap_cons, List.cons_append, List.nil_append]
      rw [intercalate_cons_ne _ _ (by simp), intercalate_cons_ne _ _ (by simp),
        intercalate_cons_ne _ _ (by simp)]
      have ih2 := ih (by simp)
      simp only [List.flatMap_cons, List.cons_append, List.nil_append] at ih2
      rw [ih2]
      conv_rhs => rw [List.map_cons,
        intercalate_cons_ne _ _
          (by simp : List.map cueBlock (c2 :: cs') ≠ [])]
      set K := List.intercalate ['\n', '\n'] (List.map cueBlock (c2 :: cs')) with hK
      simp [cueBlock, List.append_assoc]

theorem intercalate_cueBlocks_last {L : List WebVttCue} (hne : L ≠ [])
    (hall : ∀ c ∈ L, SerReady c) :
    ∀ ch, (List.intercalate ['\n', '\n'] (L.map cueBlock)).getLast? = some ch →
    isJsWs ch = false := by
  intro ch hch
  obtain ⟨b, hb, hlast⟩ := getLast?_intercalate ['\n', '\n'] (L.map cueBlock)
    (by
      cases L with
      | nil => exact absurd rfl hne
      | cons c cs => simp)
    (by
      intro x hx
      obtain ⟨c, hc, rfl⟩ := List.mem_map.mp hx
      exact cueBlock_ne_nil c)
  rw [hlast] at hch
  obtain ⟨c, hc, rfl⟩ := List.mem_map.mp hb
  rw [cueBlock_getLast? (hall c hc)] at hch
  exact trimmed_last_not_ws (hall c hc).2.2.2.1 hch

theorem map_cueBlock_ne_nil {L : List WebVttCue} (hne : L ≠ []) :
    L.map cueBlock ≠ [] := by
  cases L with
  | nil => exact absurd rfl hne
  | cons c cs => simp

theorem intercalate_cueBlocks_ne_nil {L : List WebVttCue} (hne : L ≠ []) :
    List.intercalate ['\n', '\n'] (L.map cueBlock) ≠ [] :=
  intercalate_ne_nil _ _ (map_cueBlock_ne_nil hne) (by
    intro x hx
    obtain ⟨c, hc, rfl⟩ := List.mem_map.mp hx
    exact cueBlock_ne_nil c)

theorem serializeWebVttCues_shape (input : List WebVttCue)
    (hne : jsSortStable cueLe (input.filterMap sanitizeCue) ≠ [])
    (hall : ∀ c ∈ jsSortStable cueLe (input.filterMap sanitizeCue), SerReady c) :
    serializeWebVttCues input
      = ((r"WEBVTT").toList ++ '\n' :: '\n' :: List.intercalate ['\n', '\n']
          ((jsSortStable cueLe (input.filterMap sanitizeCue)).map cueBlock))
        ++ ['\n'] := by
  simp only [serializeWebVttCues]
  set L := jsSortStable cueLe (input.filterMap sanitizeCue) with hLdef
  rw [if_neg (fun h => hne (List.length_eq_zero.mp h))]
  rw [serializeFold_eq _ (fun c hc => (hall c hc).1) []]
  simp only [List.cons_append, List.nil_append]
  have hflatne : L.flatMap (fun cue => [cueTimingLine cue, cue.text, []]) ≠ [] := by
    intro h
    rcases hL2 : L with _ | ⟨c, cs⟩
    · exact hne hL2
    · rw [hL2] at h
      simp [List.flatMap_cons] at h
  rw [intercalate_cons_ne _ _ (by simp), intercalate_cons_ne _ _ hflatne,
    intercalate_flat_blocks L hne]
  simp only [List.nil_append]
  rw [show (r"WEBVTT").toList ++ (['\n'] ++ (['\n']
      ++ (List.intercalate ['\n', '\n'] (L.map cueBlock) ++ ['\n'])))
      = ((r"WEBVTT").toList ++ '\n' :: '\n'
          :: List.intercalate ['\n', '\n'] (L.map cueBlock)) ++ ['\n'] from by simp]
  refine fixTrailingNewlines_id _ ?_
  intro ch hch
  rw [getLast?_append_right _ (List.cons_ne_nil _ _),
    show (('\n' :: '\n' :: List.intercalate ['\n', '\n'] (L.map cueBlock) : Str))
      = ['\n', '\n'] ++ List.intercalate ['\n', '\n'] (L.map cueBlock) from rfl,
    getLast?_append_right _ (intercalate_cueBlocks_ne_nil hne)] at hch
  have hws := intercalate_cueBlocks_last hne hall ch hch
  intro hcn
  rw [hcn] at hws
  exact absurd hws (by decide)

theorem foldl_parseBlockStep (L : List WebVttCue) (hall : ∀ c ∈ L, SerReady c) :
    ∀ acc, List.foldl parseBlockStep acc (L.map cueBlock) = acc ++ L := by
  induction L with
  | nil => intro acc; simp
  | cons c cs ih =>
    intro acc
    rw [List.map_cons, List.foldl_cons]
    have h1 : parseBlockStep acc (cueBlock c) = acc ++ [c] := by
      simp only [parseBlockStep]
      rw [parseBlockCue_cueBlock (hall c (List.mem_cons_self _ _))]
    rw [h1, ih (fun x hx => hall x (List.mem_cons_of_mem _ hx))]
    simp [List.append_assoc]

theorem parseWebVttCues_blocks (L : List WebVttCue) (hne : L ≠ [])
    (hall : ∀ c ∈ L, SerReady c) :
    parseWebVttCues (((r"WEBVTT").toList ++ '\n' :: '\n'
        :: List.intercalate ['\n', '\n'] (L.map cueBlock)) ++ ['\n']) = L := by
  set IC := List.intercalate ['\n', '\n'] (L.map cueBlock) with hIC
  have hcr : '\r' ∉ ((r"WEBVTT").toList ++ '\n' :: '\n' :: IC) ++ ['\n'] := by
    intro hmem
    rcases List.mem_append.mp hmem with h | h
    · rcases List.mem_append.mp h with h | h
      · exact absurd h (by decide)
      · rcases List.mem_cons.mp h with h | h
        · exact absurd h (by decide)
        · rcases List.mem_cons.mp h with h | h
          · exact absurd h (by decide)
          · rw [hIC] at h
            rcases mem_intercalate _ _ h with h | ⟨b, hb, hxb⟩
            · exact absurd h (by decide)
            · obtain ⟨c, hc, rfl⟩ := List.mem_map.mp hb
              exact cueBlock_no_cr (hall c hc) hxb
    · exact absurd h (by decide)
  have hSform : ((r"WEBVTT").toList ++ '\n' :: '\n' :: IC) ++ ['\n']
      = 'W' :: ((['E', 'B', 'V', 'T', 'T'] ++ '\n' :: '\n' :: IC) ++ ['\n']) := rfl
  simp only [parseWebVttCues]
  rw [normalizeLineEndings_id hcr]
  rw [hSform, stripBom_id _ (by decide), ← hSform]
  have htrim : jsTrim (((r"WEBVTT").toList ++ '\n' :: '\n' :: IC) ++ ['\n'])
      = (r"WEBVTT").toList ++ '\n' :: '\n' :: IC := by
    rw [jsTrim_concat_ws _ '\n' (by decide)]
    refine jsTrim_eq_self ?_ ?_
    · intro c hc
      rw [head?_append_left _ (by decide : ((r"WEBVTT").toList : Str) ≠ [])] at hc
      rw [show ((r"WEBVTT").toList : Str).head? = some 'W' from rfl] at hc
      rw [← Option.some.inj hc]
      decide
    · intro c hc
      rw [getLast?_append_right _ (List.cons_ne_nil _ _),
        show (('\n' :: '\n' :: IC : Str)) = ['\n', '\n'] ++ IC from rfl,
        getLast?_append_right _ (intercalate_cueBlocks_ne_nil hne)] at hc
      have hws := intercalate_cueBlocks_last hne hall c hc
      rw [hws]
      exact Bool.false_ne_true
  rw [htrim]
  rw [if_neg (by simp)]
  have hblocks : splitBlankRuns ((r"WEBVTT").toList ++ '\n' :: '\n' :: IC)
      = (r"WEBVTT").toList :: L.map cueBlock := by
    have hform : (r"WEBVTT").toList ++ '\n' :: '\n' :: IC
        = List.intercalate ['\n', '\n'] ((r"WEBVTT").toList :: L.map cueBlock) := by
      rw [intercalate_cons_ne _ _ (map_cueBlock_ne_nil hne), hIC]
      rfl
    rw [hform]
    refine splitBlankRuns_blocks _ (by simp) ?_
    intro b hb
    rcases List.mem_cons.mp hb with rfl | hb
    · exact ⟨by decide, by decide, by decide⟩
    · obtain ⟨c, hc, rfl⟩ := List.mem_map.mp hb
      exact ⟨cueBlock_safe (hall c hc), cueBlock_head_ne_nl (hall c hc),
        cueBlock_ne_nil c⟩
  rw [hblocks]
  rw [if_neg (by simp)]
  rw [show (((r"WEBVTT").toList :: L.map cueBlock).headD [])
      = (r"WEBVTT").toList from rfl]
  rw [if_neg (by decide)]
  rw [show ((r"WEBVTT").toList :: L.map cueBlock).drop 1 = L.map cueBlock from rfl]
  rw [foldl_parseBlockStep L hall []]
  rfl

theorem sanitizeCue_good {c : WebVttCue} (h : GoodCue c) : sanitizeCue c = some c := by
  obtain ⟨hid, htne, hnorm, htrim, hnl, hcr, ⟨n, hn⟩, ⟨m, hm⟩, hlt⟩ := h
  obtain ⟨id0, st0, en0, tx0⟩ := c
  dsimp only at hid hn hm htne htrim hlt
  subst hid
  subst hn
  subst hm
  simp only [sanitizeCue]
  rw [htrim]
  rw [if_neg (by simp [htne])]
  simp only [toFiniteNonNegativeNumber]
  have hs0 : (0 : ℚ) ≤ (n : ℚ) / 1000 := by positivity
  have he0 : (0 : ℚ) ≤ (m : ℚ) / 1000 := by positivity
  rw [max_eq_right hs0, max_eq_right he0]
  rw [if_pos hlt]
  rw [toFixed3_thousandth, toFixed3_thousandth]

/-- Claim C2 (corrected): the serialize/parse round trip is exact on cue
lists whose cues are already in canonical form — identifier-free, with
non-empty normalized trimmed single-line text and whole-millisecond
timestamps `start < end` — and returns them sorted by the serializer's
comparator: `parseWebVttCues (serializeWebVttCues cues) = jsSortStable
cueLe cues`. (For general text the round trip is inexact: the parser's
`normalizeCueText` collapses interior whitespace, see the counterexample.) -/
theorem serialize_parse_roundtrip (cues : List WebVttCue)
    (hall : ∀ c ∈ cues, GoodCue c) :
    parseWebVttCues (serializeWebVttCues cues) = jsSortStable cueLe cues := by
  have hfm : cues.filterMap sanitizeCue = cues := by
    rw [filterMap_eq_map_of sanitizeCue id cues
      (fun x hx => by rw [sanitizeCue_good (hall x hx)]; rfl)]
    exact List.map_id cues
  by_cases hnil : jsSortStable cueLe cues = []
  · have hcnil : cues = [] := by
      cases hc : cues with
      | nil => rfl
      | cons c0 cr =>
        exfalso
        have hmem : c0 ∈ jsSortStable cueLe cues :=
          (mem_jsSortStable cueLe c0 cues).mpr (by rw [hc]; exact List.mem_cons_self _ _)
        rw [hnil] at hmem
        exact absurd hmem (List.not_mem_nil _)
    rw [hcnil]
    decide
  · have hallS : ∀ c ∈ jsSortStable cueLe cues, SerReady c :=
      fun c hc => GoodCue_serReady (hall c ((mem_jsSortStable cueLe c cues).mp hc))
    have hneS : jsSortStable cueLe (cues.filterMap sanitizeCue) ≠ [] := by
      rw [hfm]
      exact hnil
    have hallS2 : ∀ c ∈ jsSortStable cueLe (cues.filterMap sanitizeCue), SerReady c := by
      rw [hfm]
      exact hallS
    rw [serializeWebVttCues_shape cues hneS hallS2, hfm]
    exact parseWebVttCues_blocks _ hnil hallS

/-- Witness for C2: a concrete canonical cue list round-trips through
serialization and parsing to its sorted self. -/
theorem serialize_parse_roundtrip_witness :
    (∀ c ∈ [({ identifier := none, start_time := 0, end_time := 1, text := ['H', 'i'] } : WebVttCue)],
      GoodCue c) ∧
    parseWebVttCues (serializeWebVttCues
        [({ identifier := none, start_time := 0, end_time := 1, text := ['H', 'i'] } : WebVttCue)])
      = jsSortStable cueLe
          [({ identifier := none, start_time := 0, end_time := 1, text := ['H', 'i'] } : WebVttCue)] := by
  have hg : ∀ c ∈ [({ identifier := none, start_time := 0, end_time := 1, text := ['H', 'i'] } : WebVttCue)],
      GoodCue c := by
    intro c hc
    rw [List.mem_singleton] at hc
    subst hc
    exact ⟨rfl, by decide, by decide, by decide, by decide, by decide,
      ⟨0, by norm_num⟩, ⟨1000, by norm_num⟩, by norm_num⟩
  exact ⟨hg, serialize_parse_roundtrip _ hg⟩
